import Mathlib

/-!
Verification of the cmu_learning buffer pool manager and extendible hash table.

This development gives a shallow embedding of the two source files

* `src/lab1/src/container/hash/extendible_hash_table.cpp`
  (`ExtendibleHashTable`, instantiated at integer keys and values, where
  `std::hash` is the identity on non-negative integers), and
* `src/lab1/src/buffer/buffer_pool_manager_instance.cpp`
  (`BufferPoolManagerInstance`).

C++ `shared_ptr` buckets are modelled as an arena (`buckets : List Bucket`)
addressed by index, with the directory storing arena indices; pointer equality
of live `shared_ptr`s coincides with arena-index equality because every
`make_shared` allocates a fresh arena slot.  Machine integers are modelled as
`Nat` (no arithmetic in the source can overflow on the inputs the theorems
quantify over, and page ids / frame ids / depths are non-negative throughout).
`INVALID_PAGE_ID` is modelled by `Option.none`.
-/

namespace CmuLearning

/-! ## Generic list helpers -/

theorem getD_set_self {α : Type} (l : List α) (i : Nat) (a d : α)
    (h : i < l.length) : (l.set i a).getD i d = a := by
  simp [List.getD, List.getElem?_set_self', h]

theorem getD_set_other {α : Type} (l : List α) (i j : Nat) (a d : α)
    (h : i ≠ j) : (l.set i a).getD j d = l.getD j d := by
  simp [List.getD, List.getElem?_set_ne h]

theorem getD_append_left {α : Type} (l l' : List α) (i : Nat) (d : α)
    (h : i < l.length) : (l ++ l').getD i d = l.getD i d := by
  simp [List.getD, List.getElem?_append_left h]

theorem getD_append_right {α : Type} (l l' : List α) (i : Nat) (d : α)
    (h : l.length ≤ i) : (l ++ l').getD i d = l'.getD (i - l.length) d := by
  simp [List.getD, List.getElem?_append_right h]

theorem getD_eq_getElem {α : Type} (l : List α) (i : Nat) (d : α)
    (h : i < l.length) : l.getD i d = l[i] := by
  simp [List.getD, List.getElem?_eq_getElem h]

/-! ## Key-value association list primitives

These model the operations the C++ performs on a bucket's
`std::list<std::pair<K, V>> list_`. -/

/-- First-match lookup, as performed by `Bucket::Find` via `std::any_of`. -/
def lookupKV : List (Nat × Nat) → Nat → Option Nat
  | [], _ => none
  | (k', v') :: rest, k => if k' = k then some v' else lookupKV rest k

/-- In-place overwrite of the first entry whose key matches, as performed by
the range-`for` in `ExtendibleHashTable::Insert` (`p.second = value`). -/
def overwriteKV : List (Nat × Nat) → Nat → Nat → List (Nat × Nat)
  | [], _, _ => []
  | (k', v') :: rest, k, v =>
    if k' = k then (k', v) :: rest else (k', v') :: overwriteKV rest k v

/-- `Bucket::Remove`: `std::any_of` finds the first pair whose key matches and
calls `list_.remove(p)`, which erases every element equal (as a pair) to it.
Returns whether a match was found. -/
def removeKV (l : List (Nat × Nat)) (k : Nat) : Bool × List (Nat × Nat) :=
  match lookupKV l k with
  | none => (false, l)
  | some v => (true, l.filter (fun p => decide (p ≠ (k, v))))

/-! ## Buckets -/

/-- `ExtendibleHashTable::Bucket`: `size_` (capacity), `depth_` (local depth)
and `list_` (the stored pairs). -/
structure Bucket where
  size : Nat
  depth : Nat
  items : List (Nat × Nat)
  deriving DecidableEq, Repr, Inhabited

/-- `Bucket::IsFull`: `list_.size() == size_`. -/
def Bucket.isFull (b : Bucket) : Bool := b.items.length = b.size

/-- `Bucket::Insert`: refuse when full, else append at the back. -/
def Bucket.insert (b : Bucket) (k v : Nat) : Bool × Bucket :=
  if b.items.length = b.size then (false, b)
  else (true, { b with items := b.items ++ [(k, v)] })

/-! ## The extendible hash table -/

/-- `ExtendibleHashTable` state: `global_depth_`, `bucket_size_`,
`num_buckets_`, the arena of all buckets ever allocated by `make_shared`,
and the directory `dir_` of arena indices. -/
structure EHT where
  globalDepth : Nat
  bucketSize : Nat
  numBuckets : Nat
  buckets : List Bucket
  dir : List Nat
  deriving DecidableEq, Repr

/-- The constructor: one bucket, allocated by `make_shared<Bucket>(0)`.
Note that the single constructor argument `0` is the bucket's **capacity**
(`array_size`), not its depth; the depth takes the header's default value `0`.
The initial bucket therefore has capacity 0 and is permanently full. -/
def ehtInit (sz : Nat) : EHT :=
  { globalDepth := 0
    bucketSize := sz
    numBuckets := 1
    buckets := [{ size := 0, depth := 0, items := [] }]
    dir := [0] }

/-- `IndexOf`: `std::hash<K>()(key) & ((1 << global_depth_) - 1)`, with the
identity hash of the integer instantiations. -/
def EHT.indexOf (t : EHT) (k : Nat) : Nat := k &&& (2 ^ t.globalDepth - 1)

/-- The bucket currently referenced by directory slot `i`. -/
def EHT.bAt (t : EHT) (i : Nat) : Bucket :=
  t.buckets.getD (t.dir.getD i 0) default

/-- `ExtendibleHashTable::Find`. -/
def EHT.find (t : EHT) (k : Nat) : Option Nat :=
  lookupKV (t.bAt (t.indexOf k)).items k

/-- `ExtendibleHashTable::Remove`: false when the addressed bucket's list is
empty, else delegate to `Bucket::Remove`. -/
def EHT.remove (t : EHT) (k : Nat) : Bool × EHT :=
  let i := t.indexOf k
  let bIdx := t.dir.getD i 0
  let b := t.buckets.getD bIdx default
  if b.items = [] then (false, t)
  else
    let r := removeKV b.items k
    (r.1, { t with buckets := t.buckets.set bIdx { b with items := r.2 } })

/-- One iteration of the redistribution loop of a split: route the entry to
`bucket1` (hash bit set) or `bucket2` (hash bit clear) via `Bucket::Insert`,
whose boolean result the C++ discards. -/
def distStep (mask : Nat) (pr : Bucket × Bucket) (it : Nat × Nat) : Bucket × Bucket :=
  if it.1 &&& mask ≠ 0 then ((pr.1.insert it.1 it.2).2, pr.2)
  else (pr.1, (pr.2.insert it.1 it.2).2)

def distribute (bs d mask : Nat) (items : List (Nat × Nat)) : Bucket × Bucket :=
  items.foldl (distStep mask)
    ({ size := bs, depth := d + 1, items := [] },
     { size := bs, depth := d + 1, items := [] })

/-- The directory-repoint loop after a split: every slot that referenced the
old bucket is redirected to `bucket1` or `bucket2` according to bit `mask` of
the slot's own index. -/
def repoint (dir : List Nat) (bIdx idx1 idx2 mask : Nat) : List Nat :=
  (List.range dir.length).map fun i =>
    let old := dir.getD i 0
    if old = bIdx then (if i &&& mask ≠ 0 then idx1 else idx2) else old

/-- Directory doubling: `dir_.push_back(dir_[i])` for every existing slot,
then `global_depth_++`. -/
def EHT.double (t : EHT) : EHT :=
  { t with dir := t.dir ++ t.dir, globalDepth := t.globalDepth + 1 }

/-- The split of the bucket at arena index `bIdx`: allocate the two fresh
buckets, redistribute the old bucket's entries by the hash bit at its local
depth, bump `num_buckets_` and repoint the directory. -/
def EHT.splitBucket (t : EHT) (bIdx : Nat) : EHT :=
  let b := t.buckets.getD bIdx default
  let mask := 2 ^ b.depth
  let pr := distribute t.bucketSize b.depth mask b.items
  let n := t.buckets.length
  { t with
    buckets := t.buckets ++ [pr.1, pr.2]
    numBuckets := t.numBuckets + 1
    dir := repoint t.dir bIdx n (n + 1) mask }

/-- One iteration of `Insert`'s `while (dir_[IndexOf(key)]->IsFull())` loop:
the bucket (a `shared_ptr`, here an arena index) is captured first, the
directory is doubled when its local depth equals the global depth, and the
captured bucket is then split. -/
def EHT.splitStep (t : EHT) (k : Nat) : EHT :=
  let bIdx := t.dir.getD (t.indexOf k) 0
  let b := t.buckets.getD bIdx default
  let t1 : EHT := if b.depth = t.globalDepth then t.double else t
  t1.splitBucket bIdx

/-- The `while` loop of `Insert`, with explicit fuel: `none` models the C++
looping without returning. -/
def EHT.splitLoop : Nat → EHT → Nat → Option EHT
  | 0, _, _ => none
  | fuel + 1, t, k =>
    if (t.bAt (t.indexOf k)).isFull then EHT.splitLoop fuel (t.splitStep k) k
    else some t

/-- `ExtendibleHashTable::Insert`: run the split loop, then overwrite the
existing entry in place or append via `Bucket::Insert`. -/
def EHT.insert (t : EHT) (k v : Nat) (fuel : Nat) : Option EHT :=
  match t.splitLoop fuel k with
  | none => none
  | some t' =>
    let i := t'.indexOf k
    let bIdx := t'.dir.getD i 0
    let b := t'.buckets.getD bIdx default
    match lookupKV b.items k with
    | some _ =>
      some { t' with buckets := t'.buckets.set bIdx { b with items := overwriteKV b.items k v } }
    | none =>
      some { t' with buckets := t'.buckets.set bIdx (b.insert k v).2 }

/-! ## Arithmetic helpers -/

theorem and_mask_eq_mod (k g : Nat) : k &&& (2 ^ g - 1) = k % 2 ^ g :=
  Nat.and_pow_two_sub_one_eq_mod k g

theorem indexOf_eq_mod (t : EHT) (k : Nat) :
    t.indexOf k = k % 2 ^ t.globalDepth :=
  and_mask_eq_mod k t.globalDepth

/-- The low bit extracted by `hash(key) & (1 << depth)` as a `0/1` value. -/
def bit (k d : Nat) : Nat := k / 2 ^ d % 2

theorem bit_lt_two (k d : Nat) : bit k d < 2 := Nat.mod_lt _ (by norm_num)

theorem and_pow_ne_zero_iff (k d : Nat) : (k &&& 2 ^ d ≠ 0) ↔ bit k d = 1 := by
  rw [Nat.and_two_pow]
  rcases h : k.testBit d with _ | _
  · rw [Nat.testBit_to_div_mod] at h
    simp only [Bool.toNat_false, Nat.zero_mul, ne_eq, not_true_eq_false, false_iff]
    simpa [bit] using of_decide_eq_false h
  · rw [Nat.testBit_to_div_mod] at h
    simp only [Bool.toNat_true, Nat.one_mul, ne_eq, bit]
    constructor
    · intro _; exact of_decide_eq_true h
    · intro _; positivity

theorem mod_pow_succ (k d : Nat) : k % 2 ^ (d + 1) = k % 2 ^ d + 2 ^ d * bit k d := by
  rw [pow_succ, Nat.mod_mul]; rfl

theorem mod_mod_pow {d g : Nat} (h : d ≤ g) (k : Nat) : k % 2 ^ g % 2 ^ d = k % 2 ^ d :=
  Nat.mod_mod_of_dvd k (pow_dvd_pow 2 h)

theorem bit_mod_pow {d g : Nat} (h : d < g) (k : Nat) : bit (k % 2 ^ g) d = bit k d := by
  have h1 : k % 2 ^ g % 2 ^ (d + 1) = k % 2 ^ (d + 1) := mod_mod_pow h k
  rw [mod_pow_succ, mod_pow_succ, mod_mod_pow (Nat.le_of_lt h)] at h1
  have := Nat.eq_of_mul_eq_mul_left (show 0 < 2 ^ d by positivity)
    (Nat.add_left_cancel h1)
  exact this

theorem mod_pow_succ_eq_iff {j i d : Nat} (h : j % 2 ^ d = i % 2 ^ d) :
    j % 2 ^ (d + 1) = i % 2 ^ (d + 1) ↔ bit j d = bit i d := by
  rw [mod_pow_succ, mod_pow_succ, h]
  constructor
  · intro h2
    exact Nat.eq_of_mul_eq_mul_left (show 0 < 2 ^ d by positivity) (Nat.add_left_cancel h2)
  · intro h2; rw [h2]

theorem mod_pow_succ_eq_of (h : j % 2 ^ d = i % 2 ^ d) (h2 : bit j d = bit i d) :
    j % 2 ^ (d + 1) = i % 2 ^ (d + 1) := (mod_pow_succ_eq_iff h).2 h2

theorem mod_eq_of_mod_pow_succ_eq (h : j % 2 ^ (d + 1) = i % 2 ^ (d + 1)) :
    j % 2 ^ d = i % 2 ^ d := by
  have := congrArg (· % 2 ^ d) h
  simpa [mod_mod_pow (Nat.le_succ d)] using this

/-- Counting multiples: among `j < m * q`, exactly `q` satisfy `j % m = r`
when `r < m`. -/
theorem countP_range_mod (m r : Nat) (hr : r < m) :
    ∀ q, (List.range (m * q)).countP (fun j => decide (j % m = r)) = q := by
  have base : ∀ n, (List.range n).countP (fun j => decide (j = r)) =
      if r < n then 1 else 0 := by
    intro n
    induction n with
    | zero => simp
    | succ n ih =>
      rw [List.range_succ, List.countP_append, ih]
      have hsing : List.countP (fun j => decide (j = r)) [n] = if n = r then 1 else 0 := by
        simp [List.countP_cons]
      rw [hsing]
      rcases Nat.lt_trichotomy r n with h | h | h
      · have h1 : r < n + 1 := Nat.lt_succ_of_lt h
        have h2 : n ≠ r := Nat.ne_of_gt h
        simp [h, h1, h2]
      · subst h
        simp [Nat.lt_irrefl, Nat.lt_succ_self]
      · have h1 : ¬ r < n := by omega
        have h2 : ¬ r < n + 1 := by omega
        have h3 : n ≠ r := by omega
        simp [h1, h2, h3]
  intro q
  induction q with
  | zero => simp
  | succ q ih =>
    rw [Nat.mul_succ, List.range_add, List.countP_append, ih, List.countP_map]
    have : ((List.range m).countP ((fun j => decide (j % m = r)) ∘ (m * q + ·))) =
        (List.range m).countP (fun j => decide (j = r)) := by
      apply List.countP_congr
      intro x hx
      have hx' : x < m := List.mem_range.1 hx
      simp [Function.comp, Nat.mul_add_mod, Nat.mod_eq_of_lt hx']
    rw [this, base m]
    simp [hr]

/-! ## Association-list lemmas -/

theorem lookupKV_eq_none_iff (l : List (Nat × Nat)) (k : Nat) :
    lookupKV l k = none ↔ k ∉ l.map Prod.fst := by
  induction l with
  | nil => simp [lookupKV]
  | cons p rest ih =>
    obtain ⟨k', v'⟩ := p
    by_cases h : k' = k
    · subst h; simp [lookupKV]
    · simp [lookupKV, h, ih, Ne.symm h]

theorem lookupKV_append_self {l : List (Nat × Nat)} {k v : Nat}
    (h : lookupKV l k = none) : lookupKV (l ++ [(k, v)]) k = some v := by
  induction l with
  | nil => simp [lookupKV]
  | cons p rest ih =>
    obtain ⟨k', v'⟩ := p
    by_cases hk : k' = k
    · simp [lookupKV, hk] at h
    · simp [lookupKV, hk] at h ⊢
      exact ih h

theorem lookupKV_append_ne {l : List (Nat × Nat)} {k k' v : Nat}
    (h : k' ≠ k) : lookupKV (l ++ [(k, v)]) k' = lookupKV l k' := by
  induction l with
  | nil => simp [lookupKV, Ne.symm h]
  | cons p rest ih =>
    obtain ⟨k'', v''⟩ := p
    by_cases hk : k'' = k'
    · simp [lookupKV, hk]
    · simp [lookupKV, hk, ih]

theorem map_fst_overwriteKV (l : List (Nat × Nat)) (k v : Nat) :
    (overwriteKV l k v).map Prod.fst = l.map Prod.fst := by
  induction l with
  | nil => simp [overwriteKV]
  | cons p rest ih =>
    obtain ⟨k', v'⟩ := p
    by_cases h : k' = k
    · simp [overwriteKV, h]
    · simp [overwriteKV, h, ih]

theorem length_overwriteKV (l : List (Nat × Nat)) (k v : Nat) :
    (overwriteKV l k v).length = l.length := by
  have := congrArg List.length (map_fst_overwriteKV l k v)
  simpa using this

theorem lookupKV_overwriteKV_self {l : List (Nat × Nat)} {k w : Nat} (v : Nat)
    (h : lookupKV l k = some w) : lookupKV (overwriteKV l k v) k = some v := by
  induction l with
  | nil => simp [lookupKV] at h
  | cons p rest ih =>
    obtain ⟨k', v'⟩ := p
    by_cases hk : k' = k
    · simp [overwriteKV, lookupKV, hk]
    · simp [overwriteKV, lookupKV, hk] at h ⊢
      exact ih h

theorem lookupKV_overwriteKV_ne {l : List (Nat × Nat)} {k k' : Nat} (v : Nat)
    (h : k' ≠ k) : lookupKV (overwriteKV l k v) k' = lookupKV l k' := by
  induction l with
  | nil => simp [overwriteKV, lookupKV]
  | cons p rest ih =>
    obtain ⟨k'', v''⟩ := p
    by_cases hk : k'' = k
    · subst hk
      simp [overwriteKV, lookupKV, Ne.symm h]
    · by_cases hk' : k'' = k'
      · simp [overwriteKV, lookupKV, hk, hk', h]
      · simp [overwriteKV, lookupKV, hk, hk', ih]

/-- Filtering away only entries whose key differs from `k'` does not change
the first-match lookup of `k'`. -/
theorem lookupKV_filter {l : List (Nat × Nat)} {k' : Nat}
    {pred : Nat × Nat → Bool}
    (h : ∀ p ∈ l, pred p = false → p.1 ≠ k') :
    lookupKV (l.filter pred) k' = lookupKV l k' := by
  induction l with
  | nil => simp
  | cons p rest ih =>
    obtain ⟨k'', v''⟩ := p
    rcases hp : pred (k'', v'') with _ | _
    · have hne : k'' ≠ k' := h (k'', v'') (by simp) hp
      rw [List.filter_cons_of_neg (by simp [hp])]
      rw [ih (fun q hq hq2 => h q (by simp [hq]) hq2)]
      simp [lookupKV, hne]
    · rw [List.filter_cons_of_pos (by simp [hp])]
      by_cases hk : k'' = k'
      · simp [lookupKV, hk]
      · simp [lookupKV, hk]
        exact ih (fun q hq hq2 => h q (by simp [hq]) hq2)

/-- Under duplicate-free keys, a pair in the list is the one lookup finds. -/
theorem lookupKV_of_mem_nodup {l : List (Nat × Nat)} {pk pv : Nat}
    (hnd : (l.map Prod.fst).Nodup) (hmem : (pk, pv) ∈ l) :
    lookupKV l pk = some pv := by
  induction l with
  | nil => simp at hmem
  | cons q rest ih =>
    obtain ⟨qk, qv⟩ := q
    rw [List.mem_cons] at hmem
    rcases hmem with hh | hh
    · obtain ⟨rfl, rfl⟩ := Prod.mk.injEq .. ▸ hh.symm
      simp [lookupKV]
    · have hqk : qk ≠ pk := by
        intro hq; subst hq
        have : qk ∈ rest.map Prod.fst := List.mem_map.2 ⟨(qk, pv), hh, rfl⟩
        exact (List.nodup_cons.1 (by simpa using hnd)).1 this
      simp only [lookupKV, hqk, if_false]
      exact ih (List.nodup_cons.1 (by simpa using hnd)).2 hh

/-- Under duplicate-free keys, removing the pair found for `k` removes the
key entirely. -/
theorem lookupKV_filter_self {l : List (Nat × Nat)} {k v : Nat}
    (hnd : (l.map Prod.fst).Nodup) (h : lookupKV l k = some v) :
    lookupKV (l.filter (fun p => decide (p ≠ (k, v)))) k = none := by
  rw [lookupKV_eq_none_iff]
  intro hmem
  rw [List.mem_map] at hmem
  obtain ⟨p, hp, hfst⟩ := hmem
  rw [List.mem_filter] at hp
  obtain ⟨hpl, hppred⟩ := hp
  obtain ⟨pk, pv⟩ := p
  have hpk : pk = k := hfst
  subst hpk
  have hl : lookupKV l pk = some pv := lookupKV_of_mem_nodup hnd hpl
  rw [h] at hl
  have : pv = v := by simpa using hl.symm
  subst this
  simp at hppred

theorem lookupKV_isSome_iff (l : List (Nat × Nat)) (k : Nat) :
    (lookupKV l k).isSome ↔ k ∈ l.map Prod.fst := by
  rcases h : lookupKV l k with _ | v
  · simpa [h] using (lookupKV_eq_none_iff l k).1 h
  · simp only [Option.isSome_some, true_iff]
    by_contra hmem
    rw [← lookupKV_eq_none_iff] at hmem
    rw [h] at hmem; cases hmem

/-! ## Structural invariant of the extendible hash table

`share` is the standard extendible-hashing directory invariant: the set of
slots referencing the bucket of slot `i` is exactly the set of slots agreeing
with `i` on the low `local_depth` bits. -/

structure WF (t : EHT) : Prop where
  dlen : t.dir.length = 2 ^ t.globalDepth
  dvalid : ∀ i, i < t.dir.length → t.dir.getD i 0 < t.buckets.length
  depth_le : ∀ i, i < t.dir.length → (t.bAt i).depth ≤ t.globalDepth
  size_le : ∀ i, i < t.dir.length → (t.bAt i).size ≤ t.bucketSize
  len_le : ∀ i, i < t.dir.length → (t.bAt i).items.length ≤ (t.bAt i).size
  share : ∀ i, i < t.dir.length → ∀ j, j < t.dir.length →
    (t.dir.getD i 0 = t.dir.getD j 0 ↔
      i % 2 ^ (t.bAt i).depth = j % 2 ^ (t.bAt i).depth)
  keys : ∀ i, i < t.dir.length → ∀ p ∈ (t.bAt i).items,
    p.1 % 2 ^ (t.bAt i).depth = i % 2 ^ (t.bAt i).depth
  keysNodup : ∀ i, i < t.dir.length → ((t.bAt i).items.map Prod.fst).Nodup

theorem wf_init (sz : Nat) : WF (ehtInit sz) := by
  refine ⟨rfl, ?_, ?_, ?_, ?_, ?_, ?_, ?_⟩
  · intro i hi; simp [ehtInit] at hi; subst hi; simp [ehtInit]
  · intro i hi; simp [ehtInit] at hi; subst hi; simp [ehtInit, EHT.bAt]
  · intro i hi; simp [ehtInit] at hi; subst hi; simp [ehtInit, EHT.bAt]
  · intro i hi; simp [ehtInit] at hi; subst hi; simp [ehtInit, EHT.bAt]
  · intro i hi j hj
    simp [ehtInit] at hi hj; subst hi; subst hj; simp
  · intro i hi p hp
    simp [ehtInit] at hi; subst hi
    simp [ehtInit, EHT.bAt] at hp
  · intro i hi; simp [ehtInit] at hi; subst hi; simp [ehtInit, EHT.bAt]

theorem indexOf_lt_dirLength {t : EHT} (h : WF t) (k : Nat) :
    t.indexOf k < t.dir.length := by
  rw [indexOf_eq_mod, h.dlen]
  exact Nat.mod_lt _ (by positivity)

/-- The canonical congruence: the key addressing slot `i` agrees with `i`
modulo the local depth of any bucket of depth at most the global depth. -/
theorem key_slot_mod (t : EHT) (k : Nat) {d : Nat}
    (hd : d ≤ t.globalDepth) :
    k % 2 ^ d = t.indexOf k % 2 ^ d := by
  rw [indexOf_eq_mod, mod_mod_pow hd]

/-! ## Directory doubling -/

theorem double_dir_getD {t : EHT} (h : WF t) {j : Nat}
    (hj : j < t.double.dir.length) :
    t.double.dir.getD j 0 = t.dir.getD (j % 2 ^ t.globalDepth) 0 := by
  have hlen : t.double.dir.length = t.dir.length + t.dir.length := by
    simp [EHT.double]
  by_cases hcase : j < t.dir.length
  · rw [show t.double.dir = t.dir ++ t.dir from rfl, getD_append_left _ _ _ _ hcase]
    rw [h.dlen] at hcase
    rw [Nat.mod_eq_of_lt hcase]
  · have hge : t.dir.length ≤ j := Nat.le_of_not_lt hcase
    rw [show t.double.dir = t.dir ++ t.dir from rfl, getD_append_right _ _ _ _ hge]
    congr 1
    rw [hlen] at hj
    rw [h.dlen] at hge hj ⊢
    rw [Nat.mod_eq_sub_mod hge, Nat.mod_eq_of_lt (by omega)]

theorem double_bAt {t : EHT} (h : WF t) {j : Nat}
    (hj : j < t.double.dir.length) :
    t.double.bAt j = t.bAt (j % 2 ^ t.globalDepth) := by
  unfold EHT.bAt
  rw [double_dir_getD h hj]
  rfl

theorem double_dlen (t : EHT) :
    t.double.dir.length = t.dir.length + t.dir.length := by
  simp [EHT.double]

theorem wf_double {t : EHT} (h : WF t) : WF t.double := by
  have hmodlt : ∀ j, j < t.double.dir.length →
      j % 2 ^ t.globalDepth < t.dir.length := by
    intro j _
    rw [h.dlen]
    exact Nat.mod_lt _ (by positivity)
  refine ⟨?_, ?_, ?_, ?_, ?_, ?_, ?_, ?_⟩
  · rw [double_dlen, h.dlen]
    show 2 ^ t.globalDepth + 2 ^ t.globalDepth = 2 ^ t.double.globalDepth
    show 2 ^ t.globalDepth + 2 ^ t.globalDepth = 2 ^ (t.globalDepth + 1)
    ring
  · intro i hi
    rw [double_dir_getD h hi]
    exact h.dvalid _ (hmodlt i hi)
  · intro i hi
    rw [double_bAt h hi]
    exact Nat.le_succ_of_le (h.depth_le _ (hmodlt i hi))
  · intro i hi
    rw [double_bAt h hi]
    exact h.size_le _ (hmodlt i hi)
  · intro i hi
    rw [double_bAt h hi]
    exact h.len_le _ (hmodlt i hi)
  · intro i hi j hj
    rw [double_dir_getD h hi, double_dir_getD h hj, double_bAt h hi]
    have hd : (t.bAt (i % 2 ^ t.globalDepth)).depth ≤ t.globalDepth :=
      h.depth_le _ (hmodlt i hi)
    rw [h.share _ (hmodlt i hi) _ (hmodlt j hj)]
    rw [mod_mod_pow hd, mod_mod_pow hd]
  · intro i hi p hp
    rw [double_bAt h hi] at hp ⊢
    have hd : (t.bAt (i % 2 ^ t.globalDepth)).depth ≤ t.globalDepth :=
      h.depth_le _ (hmodlt i hi)
    rw [h.keys _ (hmodlt i hi) p hp, mod_mod_pow hd]
  · intro i hi
    rw [double_bAt h hi]
    exact h.keysNodup _ (hmodlt i hi)

theorem double_find {t : EHT} (h : WF t) (k : Nat) :
    t.double.find k = t.find k := by
  unfold EHT.find
  have hlt : t.double.indexOf k < t.double.dir.length :=
    indexOf_lt_dirLength (wf_double h) k
  rw [double_bAt h hlt]
  have : t.double.indexOf k % 2 ^ t.globalDepth = t.indexOf k := by
    rw [indexOf_eq_mod, indexOf_eq_mod]
    exact mod_mod_pow (Nat.le_succ _) k
  rw [this]

/-! ## The bucket split -/

theorem repoint_length (dir : List Nat) (bIdx n1 n2 mask : Nat) :
    (repoint dir bIdx n1 n2 mask).length = dir.length := by
  simp [repoint]

theorem repoint_getD {dir : List Nat} {j : Nat} (hj : j < dir.length)
    (bIdx n1 n2 mask : Nat) :
    (repoint dir bIdx n1 n2 mask).getD j 0 =
      if dir.getD j 0 = bIdx then (if j &&& mask ≠ 0 then n1 else n2)
      else dir.getD j 0 := by
  have hj' : j < (repoint dir bIdx n1 n2 mask).length := by
    rw [repoint_length]; exact hj
  rw [getD_eq_getElem _ _ _ hj']
  simp only [repoint, List.getElem_map, List.getElem_range]

theorem distribute_go (bs d mask : Nat) (items : List (Nat × Nat)) :
    ∀ (a b : List (Nat × Nat)),
    a.length + (items.filter (fun p => decide (p.1 &&& mask ≠ 0))).length ≤ bs →
    b.length + (items.filter (fun p => !decide (p.1 &&& mask ≠ 0))).length ≤ bs →
    items.foldl (distStep mask)
      ({ size := bs, depth := d + 1, items := a },
       { size := bs, depth := d + 1, items := b }) =
      ({ size := bs, depth := d + 1,
         items := a ++ items.filter (fun p => decide (p.1 &&& mask ≠ 0)) },
       { size := bs, depth := d + 1,
         items := b ++ items.filter (fun p => !decide (p.1 &&& mask ≠ 0)) }) := by
  induction items with
  | nil => intro a b _ _; simp
  | cons it rest ih =>
    intro a b ha hb
    obtain ⟨k, v⟩ := it
    by_cases hp : k &&& mask ≠ 0
    · have hfpos : ((k, v) :: rest).filter (fun p => decide (p.1 &&& mask ≠ 0)) =
          (k, v) :: rest.filter (fun p => decide (p.1 &&& mask ≠ 0)) := by
        simp [List.filter_cons, hp]
      have hfneg : ((k, v) :: rest).filter (fun p => !decide (p.1 &&& mask ≠ 0)) =
          rest.filter (fun p => !decide (p.1 &&& mask ≠ 0)) := by
        simp [List.filter_cons, hp]
      rw [hfpos] at ha
      rw [hfneg] at hb
      rw [List.foldl_cons]
      have hlt : a.length < bs := by simp at ha; omega
      have hstep : distStep mask
          ({ size := bs, depth := d + 1, items := a },
           { size := bs, depth := d + 1, items := b }) (k, v) =
          ({ size := bs, depth := d + 1, items := a ++ [(k, v)] },
           { size := bs, depth := d + 1, items := b }) := by
        simp [distStep, hp, Bucket.insert, Nat.ne_of_lt hlt]
      rw [hstep, ih (a ++ [(k, v)]) b (by simp at ha ⊢; omega) hb]
      rw [hfpos, hfneg]
      simp
    · have hfpos : ((k, v) :: rest).filter (fun p => decide (p.1 &&& mask ≠ 0)) =
          rest.filter (fun p => decide (p.1 &&& mask ≠ 0)) := by
        simp [List.filter_cons, hp]
      have hfneg : ((k, v) :: rest).filter (fun p => !decide (p.1 &&& mask ≠ 0)) =
          (k, v) :: rest.filter (fun p => !decide (p.1 &&& mask ≠ 0)) := by
        simp [List.filter_cons, hp]
      rw [hfpos] at ha
      rw [hfneg] at hb
      rw [List.foldl_cons]
      have hlt : b.length < bs := by simp at hb; omega
      have hstep : distStep mask
          ({ size := bs, depth := d + 1, items := a },
           { size := bs, depth := d + 1, items := b }) (k, v) =
          ({ size := bs, depth := d + 1, items := a },
           { size := bs, depth := d + 1, items := b ++ [(k, v)] }) := by
        simp [distStep, hp, Bucket.insert, Nat.ne_of_lt hlt]
      rw [hstep, ih a (b ++ [(k, v)]) ha (by simp at hb ⊢; omega)]
      rw [hfpos, hfneg]
      simp

theorem distribute_eq {bs d : Nat} {items : List (Nat × Nat)}
    (hlen : items.length ≤ bs) :
    distribute bs d (2 ^ d) items =
      ({ size := bs, depth := d + 1,
         items := items.filter (fun p => decide (p.1 &&& 2 ^ d ≠ 0)) },
       { size := bs, depth := d + 1,
         items := items.filter (fun p => !decide (p.1 &&& 2 ^ d ≠ 0)) }) := by
  have h1 : (items.filter (fun p => decide (p.1 &&& 2 ^ d ≠ 0))).length ≤ bs :=
    le_trans (List.length_filter_le _ _) hlen
  have h2 : (items.filter (fun p => !decide (p.1 &&& 2 ^ d ≠ 0))).length ≤ bs :=
    le_trans (List.length_filter_le _ _) hlen
  unfold distribute
  rw [distribute_go bs d (2 ^ d) items [] [] (by simpa using h1) (by simpa using h2)]
  simp

/-- The fresh bucket receiving the entries whose hash bit at the old local
depth is set. -/
def bPos (bs : Nat) (b : Bucket) : Bucket :=
  { size := bs, depth := b.depth + 1,
    items := b.items.filter (fun p => decide (p.1 &&& 2 ^ b.depth ≠ 0)) }

/-- The fresh bucket receiving the entries whose hash bit is clear. -/
def bNeg (bs : Nat) (b : Bucket) : Bucket :=
  { size := bs, depth := b.depth + 1,
    items := b.items.filter (fun p => !decide (p.1 &&& 2 ^ b.depth ≠ 0)) }

theorem bit_dichotomy (x d : Nat) : bit x d = 1 ∨ bit x d = 0 := by
  have := bit_lt_two x d
  omega

theorem mem_bPos {bs : Nat} {b : Bucket} {p : Nat × Nat} :
    p ∈ (bPos bs b).items ↔ p ∈ b.items ∧ bit p.1 b.depth = 1 := by
  simp [bPos, List.mem_filter, ← and_pow_ne_zero_iff]

theorem mem_bNeg {bs : Nat} {b : Bucket} {p : Nat × Nat} :
    p ∈ (bNeg bs b).items ↔ p ∈ b.items ∧ bit p.1 b.depth = 0 := by
  simp only [bNeg, List.mem_filter, Bool.not_eq_true', decide_eq_false_iff_not]
  constructor
  · rintro ⟨h1, h2⟩
    refine ⟨h1, ?_⟩
    rcases bit_dichotomy p.1 b.depth with hb | hb
    · exact absurd ((and_pow_ne_zero_iff p.1 b.depth).2 hb) h2
    · exact hb
  · rintro ⟨h1, h2⟩
    refine ⟨h1, fun hc => ?_⟩
    rw [(and_pow_ne_zero_iff p.1 b.depth).1 hc] at h2
    cases h2

theorem splitBucket_globalDepth (t : EHT) (bIdx : Nat) :
    (t.splitBucket bIdx).globalDepth = t.globalDepth := rfl

theorem splitBucket_bucketSize (t : EHT) (bIdx : Nat) :
    (t.splitBucket bIdx).bucketSize = t.bucketSize := rfl

theorem splitBucket_dirLength (t : EHT) (bIdx : Nat) :
    (t.splitBucket bIdx).dir.length = t.dir.length := by
  show (repoint t.dir bIdx _ _ _).length = t.dir.length
  exact repoint_length _ _ _ _ _

theorem splitBucket_bucketsLength (t : EHT) (bIdx : Nat) :
    (t.splitBucket bIdx).buckets.length = t.buckets.length + 2 := by
  show (t.buckets ++ [_, _]).length = t.buckets.length + 2
  simp

theorem splitBucket_dir_getD {t : EHT} {j : Nat} (hj : j < t.dir.length)
    (bIdx : Nat) :
    (t.splitBucket bIdx).dir.getD j 0 =
      if t.dir.getD j 0 = bIdx then
        (if bit j (t.buckets.getD bIdx default).depth = 1 then t.buckets.length
         else t.buckets.length + 1)
      else t.dir.getD j 0 := by
  show (repoint t.dir bIdx t.buckets.length (t.buckets.length + 1)
      (2 ^ (t.buckets.getD bIdx default).depth)).getD j 0 = _
  rw [repoint_getD hj]
  by_cases hc : t.dir.getD j 0 = bIdx
  · rw [if_pos hc, if_pos hc]
    rcases bit_dichotomy j (t.buckets.getD bIdx default).depth with hb | hb
    · rw [if_pos ((and_pow_ne_zero_iff _ _).2 hb), if_pos hb]
    · have hb' : ¬ (j &&& 2 ^ (t.buckets.getD bIdx default).depth ≠ 0) := by
        intro hc2
        rw [(and_pow_ne_zero_iff _ _).1 hc2] at hb
        cases hb
      rw [if_neg hb', if_neg (by omega)]
  · rw [if_neg hc, if_neg hc]

theorem splitBucket_bAt_ne {t : EHT} (h : WF t) {j bIdx : Nat}
    (hj : j < t.dir.length) (hne : t.dir.getD j 0 ≠ bIdx) :
    (t.splitBucket bIdx).bAt j = t.bAt j := by
  unfold EHT.bAt
  rw [splitBucket_dir_getD hj, if_neg hne]
  show (t.buckets ++ [_, _]).getD (t.dir.getD j 0) default = _
  rw [getD_append_left _ _ _ _ (h.dvalid _ hj)]

theorem splitBucket_bAt_eq {t : EHT} {j bIdx : Nat}
    (hj : j < t.dir.length)
    (hlenle : (t.buckets.getD bIdx default).items.length ≤ t.bucketSize)
    (heq : t.dir.getD j 0 = bIdx) :
    (t.splitBucket bIdx).bAt j =
      if bit j (t.buckets.getD bIdx default).depth = 1 then
        bPos t.bucketSize (t.buckets.getD bIdx default)
      else bNeg t.bucketSize (t.buckets.getD bIdx default) := by
  unfold EHT.bAt
  rw [splitBucket_dir_getD hj, if_pos heq]
  have hdist : distribute t.bucketSize (t.buckets.getD bIdx default).depth
      (2 ^ (t.buckets.getD bIdx default).depth)
      (t.buckets.getD bIdx default).items =
      (bPos t.bucketSize (t.buckets.getD bIdx default),
       bNeg t.bucketSize (t.buckets.getD bIdx default)) := by
    rw [distribute_eq hlenle]; rfl
  rcases bit_dichotomy j (t.buckets.getD bIdx default).depth with hb | hb
  · rw [hb, if_pos rfl, if_pos rfl]
    show (t.buckets ++ [(distribute _ _ _ _).1, (distribute _ _ _ _).2]).getD
        t.buckets.length default = _
    rw [getD_append_right _ _ _ _ (Nat.le_refl _), Nat.sub_self, hdist]
    rfl
  · rw [hb, if_neg (by omega), if_neg (by omega)]
    show (t.buckets ++ [(distribute _ _ _ _).1, (distribute _ _ _ _).2]).getD
        (t.buckets.length + 1) default = _
    rw [getD_append_right _ _ _ _ (Nat.le_succ_of_le (Nat.le_refl _))]
    have hidx : t.buckets.length + 1 - t.buckets.length = 1 := by omega
    rw [hidx, hdist]
    rfl

/-! Specialisations of the access lemmas to the split performed by
`Insert`, where the split bucket is the one referenced from slot `i₀`. -/

theorem splitAt_dir_getD {t : EHT} {i₀ j : Nat} (hj : j < t.dir.length) :
    (t.splitBucket (t.dir.getD i₀ 0)).dir.getD j 0 =
      if t.dir.getD j 0 = t.dir.getD i₀ 0 then
        (if bit j (t.bAt i₀).depth = 1 then t.buckets.length
         else t.buckets.length + 1)
      else t.dir.getD j 0 :=
  splitBucket_dir_getD hj _

theorem splitAt_bAt_ne {t : EHT} (h : WF t) {i₀ j : Nat}
    (hj : j < t.dir.length) (hne : t.dir.getD j 0 ≠ t.dir.getD i₀ 0) :
    (t.splitBucket (t.dir.getD i₀ 0)).bAt j = t.bAt j :=
  splitBucket_bAt_ne h hj hne

theorem splitAt_bAt_eq {t : EHT} {i₀ j : Nat}
    (hj : j < t.dir.length)
    (hlenle : (t.bAt i₀).items.length ≤ t.bucketSize)
    (heq : t.dir.getD j 0 = t.dir.getD i₀ 0) :
    (t.splitBucket (t.dir.getD i₀ 0)).bAt j =
      if bit j (t.bAt i₀).depth = 1 then bPos t.bucketSize (t.bAt i₀)
      else bNeg t.bucketSize (t.bAt i₀) :=
  splitBucket_bAt_eq hj hlenle heq

/-- Slot classification: a slot references the bucket of slot `i₀` exactly
when it agrees with `i₀` on the bucket's local-depth low bits. -/
theorem slot_ref_iff {t : EHT} (h : WF t) {i₀ j : Nat}
    (hi : i₀ < t.dir.length) (hj : j < t.dir.length) :
    t.dir.getD j 0 = t.dir.getD i₀ 0 ↔
      j % 2 ^ (t.bAt i₀).depth = i₀ % 2 ^ (t.bAt i₀).depth := by
  rw [eq_comm, h.share i₀ hi j hj, eq_comm]

theorem wf_splitBucket {t : EHT} (h : WF t) {i₀ : Nat} (hi : i₀ < t.dir.length)
    (hd : (t.bAt i₀).depth < t.globalDepth) :
    WF (t.splitBucket (t.dir.getD i₀ 0)) := by
  have hlenle : (t.bAt i₀).items.length ≤ t.bucketSize :=
    le_trans (h.len_le _ hi) (h.size_le _ hi)
  have hL := splitBucket_dirLength t (t.dir.getD i₀ 0)
  have hG := splitBucket_globalDepth t (t.dir.getD i₀ 0)
  have hBS := splitBucket_bucketSize t (t.dir.getD i₀ 0)
  have hBL := splitBucket_bucketsLength t (t.dir.getD i₀ 0)
  have hdepth_eq : ∀ {j : Nat}, j < t.dir.length →
      t.dir.getD j 0 = t.dir.getD i₀ 0 →
      ((t.splitBucket (t.dir.getD i₀ 0)).bAt j).depth = (t.bAt i₀).depth + 1 := by
    intro j hj hPj
    rw [splitAt_bAt_eq hj hlenle hPj]
    rcases bit_dichotomy j (t.bAt i₀).depth with hb | hb
    · rw [if_pos hb]; rfl
    · rw [if_neg (by omega)]; rfl
  refine ⟨?_, ?_, ?_, ?_, ?_, ?_, ?_, ?_⟩
  · rw [hL, hG, h.dlen]
  · -- dvalid
    intro j hj
    rw [hL] at hj
    rw [splitAt_dir_getD hj, hBL]
    by_cases hP : t.dir.getD j 0 = t.dir.getD i₀ 0
    · rw [if_pos hP]
      rcases bit_dichotomy j (t.bAt i₀).depth with hb | hb
      · rw [if_pos hb]; omega
      · rw [if_neg (by omega)]; omega
    · rw [if_neg hP]
      have := h.dvalid j hj
      omega
  · -- depth_le
    intro j hj
    rw [hL] at hj
    rw [hG]
    by_cases hP : t.dir.getD j 0 = t.dir.getD i₀ 0
    · rw [hdepth_eq hj hP]; omega
    · rw [splitAt_bAt_ne h hj hP]
      exact h.depth_le j hj
  · -- size_le
    intro j hj
    rw [hL] at hj
    rw [hBS]
    by_cases hP : t.dir.getD j 0 = t.dir.getD i₀ 0
    · rw [splitAt_bAt_eq hj hlenle hP]
      rcases bit_dichotomy j (t.bAt i₀).depth with hb | hb
      · rw [if_pos hb]; exact Nat.le_refl _
      · rw [if_neg (by omega)]; exact Nat.le_refl _
    · rw [splitAt_bAt_ne h hj hP]
      exact h.size_le j hj
  · -- len_le
    intro j hj
    rw [hL] at hj
    by_cases hP : t.dir.getD j 0 = t.dir.getD i₀ 0
    · rw [splitAt_bAt_eq hj hlenle hP]
      rcases bit_dichotomy j (t.bAt i₀).depth with hb | hb
      · rw [if_pos hb]
        exact le_trans (List.length_filter_le _ _) hlenle
      · rw [if_neg (by omega)]
        exact le_trans (List.length_filter_le _ _) hlenle
    · rw [splitAt_bAt_ne h hj hP]
      exact h.len_le j hj
  · -- share
    intro u hu w hw
    rw [hL] at hu hw
    rw [splitAt_dir_getD hu, splitAt_dir_getD hw]
    by_cases hPu : t.dir.getD u 0 = t.dir.getD i₀ 0 <;>
      by_cases hPw : t.dir.getD w 0 = t.dir.getD i₀ 0
    · -- both slots referenced the split bucket
      rw [if_pos hPu, if_pos hPw, hdepth_eq hu hPu]
      have humod : u % 2 ^ (t.bAt i₀).depth = i₀ % 2 ^ (t.bAt i₀).depth :=
        (slot_ref_iff h hi hu).1 hPu
      have hwmod : w % 2 ^ (t.bAt i₀).depth = i₀ % 2 ^ (t.bAt i₀).depth :=
        (slot_ref_iff h hi hw).1 hPw
      have hbase : u % 2 ^ (t.bAt i₀).depth = w % 2 ^ (t.bAt i₀).depth :=
        humod.trans hwmod.symm
      rw [mod_pow_succ_eq_iff hbase]
      rcases bit_dichotomy u (t.bAt i₀).depth with hbu | hbu <;>
        rcases bit_dichotomy w (t.bAt i₀).depth with hbw | hbw <;>
        rw [hbu, hbw] <;> simp
    · -- u referenced it, w did not
      rw [if_pos hPu, if_neg hPw, hdepth_eq hu hPu]
      have hvw := h.dvalid w hw
      constructor
      · intro hEq
        exfalso
        rcases bit_dichotomy u (t.bAt i₀).depth with hb | hb
        · rw [if_pos hb] at hEq; omega
        · rw [if_neg (by omega)] at hEq; omega
      · intro hmod
        exfalso
        have hmod' : u % 2 ^ (t.bAt i₀).depth = w % 2 ^ (t.bAt i₀).depth :=
          mod_eq_of_mod_pow_succ_eq hmod
        have humod : u % 2 ^ (t.bAt i₀).depth = i₀ % 2 ^ (t.bAt i₀).depth :=
          (slot_ref_iff h hi hu).1 hPu
        exact hPw ((slot_ref_iff h hi hw).2 (hmod'.symm.trans humod))
    · -- w referenced it, u did not
      rw [if_neg hPu, if_pos hPw, splitAt_bAt_ne h hu hPu]
      have hvu := h.dvalid u hu
      constructor
      · intro hEq
        exfalso
        rcases bit_dichotomy w (t.bAt i₀).depth with hb | hb
        · rw [if_pos hb] at hEq; omega
        · rw [if_neg (by omega)] at hEq; omega
      · intro hmod
        exfalso
        have : t.dir.getD u 0 = t.dir.getD w 0 := (h.share u hu w hw).2 hmod
        exact hPu (this.trans hPw)
    · -- neither referenced it
      rw [if_neg hPu, if_neg hPw, splitAt_bAt_ne h hu hPu]
      exact h.share u hu w hw
  · -- keys
    intro j hj p hp
    rw [hL] at hj
    by_cases hP : t.dir.getD j 0 = t.dir.getD i₀ 0
    · rw [splitAt_bAt_eq hj hlenle hP] at hp
      rw [hdepth_eq hj hP]
      have hjmod : j % 2 ^ (t.bAt i₀).depth = i₀ % 2 ^ (t.bAt i₀).depth :=
        (slot_ref_iff h hi hj).1 hP
      rcases bit_dichotomy j (t.bAt i₀).depth with hb | hb
      · rw [if_pos hb] at hp
        rw [mem_bPos] at hp
        obtain ⟨hmem, hbit⟩ := hp
        have hkey : p.1 % 2 ^ (t.bAt i₀).depth = i₀ % 2 ^ (t.bAt i₀).depth :=
          h.keys i₀ hi p hmem
        exact mod_pow_succ_eq_of (hkey.trans hjmod.symm) (hbit.trans hb.symm)
      · rw [if_neg (by omega)] at hp
        rw [mem_bNeg] at hp
        obtain ⟨hmem, hbit⟩ := hp
        have hkey : p.1 % 2 ^ (t.bAt i₀).depth = i₀ % 2 ^ (t.bAt i₀).depth :=
          h.keys i₀ hi p hmem
        exact mod_pow_succ_eq_of (hkey.trans hjmod.symm) (hbit.trans hb.symm)
    · rw [splitAt_bAt_ne h hj hP] at hp ⊢
      exact h.keys j hj p hp
  · -- keysNodup
    intro j hj
    rw [hL] at hj
    by_cases hP : t.dir.getD j 0 = t.dir.getD i₀ 0
    · rw [splitAt_bAt_eq hj hlenle hP]
      have hnd := h.keysNodup i₀ hi
      rcases bit_dichotomy j (t.bAt i₀).depth with hb | hb
      · rw [if_pos hb]
        exact hnd.sublist ((List.filter_sublist _).map Prod.fst)
      · rw [if_neg (by omega)]
        exact hnd.sublist ((List.filter_sublist _).map Prod.fst)
    · rw [splitAt_bAt_ne h hj hP]
      exact h.keysNodup j hj

theorem splitBucket_find {t : EHT} (h : WF t) {i₀ : Nat}
    (hi : i₀ < t.dir.length) (hd : (t.bAt i₀).depth < t.globalDepth)
    (k' : Nat) : (t.splitBucket (t.dir.getD i₀ 0)).find k' = t.find k' := by
  have hlenle : (t.bAt i₀).items.length ≤ t.bucketSize :=
    le_trans (h.len_le _ hi) (h.size_le _ hi)
  unfold EHT.find
  have hidx : (t.splitBucket (t.dir.getD i₀ 0)).indexOf k' = t.indexOf k' := by
    rw [indexOf_eq_mod, indexOf_eq_mod, splitBucket_globalDepth]
  rw [hidx]
  have hlt : t.indexOf k' < t.dir.length := indexOf_lt_dirLength h k'
  by_cases hP : t.dir.getD (t.indexOf k') 0 = t.dir.getD i₀ 0
  · -- the addressed bucket was the split one
    rw [splitAt_bAt_eq hlt hlenle hP]
    have hbat : t.bAt (t.indexOf k') = t.bAt i₀ := by
      unfold EHT.bAt; rw [hP]
    have hbitk : bit (t.indexOf k') (t.bAt i₀).depth = bit k' (t.bAt i₀).depth := by
      rw [indexOf_eq_mod]
      exact bit_mod_pow hd k'
    rcases bit_dichotomy k' (t.bAt i₀).depth with hb | hb
    · rw [if_pos (hbitk.trans hb)]
      rw [hbat]
      show lookupKV ((bPos t.bucketSize (t.bAt i₀)).items) k' = _
      unfold bPos
      apply lookupKV_filter
      intro p _ hpred hfst
      rw [decide_eq_false_iff_not] at hpred
      have : bit p.1 (t.bAt i₀).depth = 1 := by rw [hfst]; exact hb
      exact hpred ((and_pow_ne_zero_iff _ _).2 this)
    · rw [if_neg (by omega : ¬ bit (t.indexOf k') (t.bAt i₀).depth = 1)]
      rw [hbat]
      show lookupKV ((bNeg t.bucketSize (t.bAt i₀)).items) k' = _
      unfold bNeg
      apply lookupKV_filter
      intro p _ hpred hfst
      rw [Bool.not_eq_false', decide_eq_true_eq] at hpred
      have : bit p.1 (t.bAt i₀).depth = 1 := (and_pow_ne_zero_iff _ _).1 hpred
      rw [hfst, hb] at this
      cases this
  · rw [splitAt_bAt_ne h hlt hP]

/-! ## The split loop and the top-level insert -/

theorem splitStep_eq (t : EHT) (k : Nat) :
    t.splitStep k =
      (if (t.bAt (t.indexOf k)).depth = t.globalDepth then t.double
       else t).splitBucket (t.dir.getD (t.indexOf k) 0) := rfl

theorem wf_splitStep {t : EHT} (h : WF t) (k : Nat) :
    WF (t.splitStep k) ∧ (∀ k', (t.splitStep k).find k' = t.find k') ∧
      t.globalDepth ≤ (t.splitStep k).globalDepth := by
  have hi : t.indexOf k < t.dir.length := indexOf_lt_dirLength h k
  rw [splitStep_eq]
  by_cases hb : (t.bAt (t.indexOf k)).depth = t.globalDepth
  · rw [if_pos hb]
    have h2 := wf_double h
    have hi1 : t.indexOf k < t.double.dir.length := by
      rw [double_dlen]; omega
    have hmod : t.indexOf k % 2 ^ t.globalDepth = t.indexOf k := by
      apply Nat.mod_eq_of_lt; rw [← h.dlen]; exact hi
    have heq : t.double.dir.getD (t.indexOf k) 0 = t.dir.getD (t.indexOf k) 0 := by
      rw [double_dir_getD h hi1, hmod]
    have hbat : t.double.bAt (t.indexOf k) = t.bAt (t.indexOf k) := by
      rw [double_bAt h hi1, hmod]
    have hdlt : (t.double.bAt (t.indexOf k)).depth < t.double.globalDepth := by
      rw [hbat, hb]
      exact Nat.lt_succ_self _
    rw [← heq]
    refine ⟨wf_splitBucket h2 hi1 hdlt, ?_, ?_⟩
    · intro k'
      rw [splitBucket_find h2 hi1 hdlt k', double_find h k']
    · rw [splitBucket_globalDepth]
      exact Nat.le_succ _
  · rw [if_neg hb]
    have hdlt : (t.bAt (t.indexOf k)).depth < t.globalDepth :=
      lt_of_le_of_ne (h.depth_le _ hi) hb
    exact ⟨wf_splitBucket h hi hdlt, fun k' => splitBucket_find h hi hdlt k',
      le_of_eq (splitBucket_globalDepth t _).symm⟩

theorem splitLoop_spec : ∀ (fuel : Nat) {t t' : EHT}, WF t → ∀ {k : Nat},
    EHT.splitLoop fuel t k = some t' →
    WF t' ∧ (∀ k', t'.find k' = t.find k') ∧ t.globalDepth ≤ t'.globalDepth ∧
      (t'.bAt (t'.indexOf k)).isFull = false := by
  intro fuel
  induction fuel with
  | zero => intro t t' h k hloop; cases hloop
  | succ fuel ih =>
    intro t t' h k hloop
    rw [EHT.splitLoop] at hloop
    by_cases hfull : (t.bAt (t.indexOf k)).isFull
    · rw [if_pos hfull] at hloop
      obtain ⟨hstep, hstepfind, hstepgd⟩ := wf_splitStep h k
      obtain ⟨h1, h2, h3, h4⟩ := ih hstep hloop
      exact ⟨h1, fun k' => (h2 k').trans (hstepfind k'), le_trans hstepgd h3, h4⟩
    · rw [if_neg hfull] at hloop
      cases hloop
      exact ⟨h, fun _ => rfl, Nat.le_refl _, Bool.not_eq_true _ ▸ eq_false_of_ne_true hfull⟩

/-- The arena update performed when `Insert` or `Remove` rewrites the item
list of the bucket addressed through slot `i₀`. -/
theorem bAt_set {t : EHT} (h : WF t) {i₀ : Nat} (hi : i₀ < t.dir.length)
    (nb : Bucket) {j : Nat} :
    ({ t with buckets := t.buckets.set (t.dir.getD i₀ 0) nb }).bAt j =
      if t.dir.getD j 0 = t.dir.getD i₀ 0 then nb else t.bAt j := by
  unfold EHT.bAt
  show (t.buckets.set (t.dir.getD i₀ 0) nb).getD (t.dir.getD j 0) default = _
  by_cases hP : t.dir.getD j 0 = t.dir.getD i₀ 0
  · rw [if_pos hP, hP, getD_set_self _ _ _ _ (h.dvalid _ hi)]
  · rw [if_neg hP, getD_set_other _ _ _ _ _ (fun e => hP e.symm)]

theorem bAt_of_same_slot {t : EHT} {i₀ j : Nat}
    (heq : t.dir.getD j 0 = t.dir.getD i₀ 0) : t.bAt j = t.bAt i₀ := by
  unfold EHT.bAt
  rw [heq]

theorem wf_setItems {t : EHT} (h : WF t) {i₀ : Nat} (hi : i₀ < t.dir.length)
    {items' : List (Nat × Nat)}
    (hkeys : ∀ p ∈ items',
      p.1 % 2 ^ (t.bAt i₀).depth = i₀ % 2 ^ (t.bAt i₀).depth)
    (hnd : (items'.map Prod.fst).Nodup)
    (hlen : items'.length ≤ (t.bAt i₀).size) :
    WF { t with buckets :=
      t.buckets.set (t.dir.getD i₀ 0) { t.bAt i₀ with items := items' } } := by
  have hbat := fun (j : Nat) =>
    @bAt_set t h i₀ hi { t.bAt i₀ with items := items' } j
  refine ⟨h.dlen, ?_, ?_, ?_, ?_, ?_, ?_, ?_⟩
  · intro j hj
    show t.dir.getD j 0 < (t.buckets.set _ _).length
    rw [List.length_set]
    exact h.dvalid j hj
  · intro j hj
    rw [hbat j]
    by_cases hP : t.dir.getD j 0 = t.dir.getD i₀ 0
    · rw [if_pos hP]
      show (t.bAt i₀).depth ≤ _
      rw [← bAt_of_same_slot hP]
      exact h.depth_le j hj
    · rw [if_neg hP]
      exact h.depth_le j hj
  · intro j hj
    rw [hbat j]
    by_cases hP : t.dir.getD j 0 = t.dir.getD i₀ 0
    · rw [if_pos hP]
      show (t.bAt i₀).size ≤ _
      rw [← bAt_of_same_slot hP]
      exact h.size_le j hj
    · rw [if_neg hP]
      exact h.size_le j hj
  · intro j hj
    rw [hbat j]
    by_cases hP : t.dir.getD j 0 = t.dir.getD i₀ 0
    · rw [if_pos hP]
      exact hlen
    · rw [if_neg hP]
      exact h.len_le j hj
  · intro u hu w hw
    have hdep : (({ t with buckets := (t.buckets.set (t.dir.getD i₀ 0)
        { t.bAt i₀ with items := items' }) }).bAt u).depth =
        (t.bAt u).depth := by
      rw [hbat u]
      by_cases hP : t.dir.getD u 0 = t.dir.getD i₀ 0
      · rw [if_pos hP]
        show (t.bAt i₀).depth = _
        rw [← bAt_of_same_slot hP]
      · rw [if_neg hP]
    rw [hdep]
    exact h.share u hu w hw
  · intro j hj p hp
    rw [hbat j] at hp
    have hdep : (({ t with buckets := (t.buckets.set (t.dir.getD i₀ 0)
        { t.bAt i₀ with items := items' }) }).bAt j).depth =
        (t.bAt j).depth := by
      rw [hbat j]
      by_cases hP : t.dir.getD j 0 = t.dir.getD i₀ 0
      · rw [if_pos hP]
        show (t.bAt i₀).depth = _
        rw [← bAt_of_same_slot hP]
      · rw [if_neg hP]
    rw [hdep]
    by_cases hP : t.dir.getD j 0 = t.dir.getD i₀ 0
    · rw [if_pos hP] at hp
      have hjmod := (slot_ref_iff h hi hj).1 hP
      have hkey := hkeys p hp
      rw [bAt_of_same_slot hP]
      exact hkey.trans hjmod.symm
    · rw [if_neg hP] at hp
      exact h.keys j hj p hp
  · intro j hj
    rw [hbat j]
    by_cases hP : t.dir.getD j 0 = t.dir.getD i₀ 0
    · rw [if_pos hP]
      exact hnd
    · rw [if_neg hP]
      exact h.keysNodup j hj

theorem find_setItems {t : EHT} (h : WF t) {i₀ : Nat} (hi : i₀ < t.dir.length)
    (items' : List (Nat × Nat)) (k' : Nat) :
    ({ t with buckets :=
        t.buckets.set (t.dir.getD i₀ 0) { t.bAt i₀ with items := items' } }).find k' =
      if t.dir.getD (t.indexOf k') 0 = t.dir.getD i₀ 0 then lookupKV items' k'
      else t.find k' := by
  have h1 := @bAt_set t h i₀ hi { t.bAt i₀ with items := items' } (t.indexOf k')
  by_cases hP : t.dir.getD (t.indexOf k') 0 = t.dir.getD i₀ 0
  · rw [if_pos hP] at h1 ⊢
    exact congrArg (fun b => lookupKV b.items k') h1
  · rw [if_neg hP] at h1 ⊢
    exact congrArg (fun b => lookupKV b.items k') h1

theorem find_of_same_slot {t : EHT} {i₀ k' : Nat}
    (heq : t.dir.getD (t.indexOf k') 0 = t.dir.getD i₀ 0) :
    t.find k' = lookupKV (t.bAt i₀).items k' := by
  unfold EHT.find
  rw [bAt_of_same_slot heq]

/-- An element of the key column comes from an entry of the bucket. -/
theorem keys_of_mem_fst {t : EHT} (h : WF t) {i₀ : Nat} (hi : i₀ < t.dir.length)
    {x : Nat} (hx : x ∈ (t.bAt i₀).items.map Prod.fst) :
    x % 2 ^ (t.bAt i₀).depth = i₀ % 2 ^ (t.bAt i₀).depth := by
  rw [List.mem_map] at hx
  obtain ⟨p, hp, rfl⟩ := hx
  exact h.keys i₀ hi p hp

theorem insert_spec {t t' : EHT} (h : WF t) {k v fuel : Nat}
    (hins : t.insert k v fuel = some t') :
    WF t' ∧ t'.find k = some v ∧ (∀ k', k' ≠ k → t'.find k' = t.find k') ∧
      t.globalDepth ≤ t'.globalDepth := by
  rcases hloop : EHT.splitLoop fuel t k with _ | t₁
  · simp only [EHT.insert, hloop] at hins
    cases hins
  · simp only [EHT.insert, hloop] at hins
    obtain ⟨h₁, hfind, hgd, hnotfull⟩ := splitLoop_spec fuel h hloop
    have hi : t₁.indexOf k < t₁.dir.length := indexOf_lt_dirLength h₁ k
    have hkmod : k % 2 ^ (t₁.bAt (t₁.indexOf k)).depth =
        t₁.indexOf k % 2 ^ (t₁.bAt (t₁.indexOf k)).depth :=
      key_slot_mod t₁ k (h₁.depth_le _ hi)
    rcases hlk : lookupKV
        (t₁.buckets.getD (t₁.dir.getD (t₁.indexOf k) 0) default).items k with _ | w
    · -- key absent after the loop: Bucket::Insert appends
      have hlkb : lookupKV (t₁.bAt (t₁.indexOf k)).items k = none := hlk
      simp only [hlk] at hins
      have hnf : (t₁.bAt (t₁.indexOf k)).items.length ≠
          (t₁.bAt (t₁.indexOf k)).size := by
        intro hcontra
        rw [Bucket.isFull, hcontra] at hnotfull
        simp at hnotfull
      have hbins : ((t₁.buckets.getD (t₁.dir.getD (t₁.indexOf k) 0) default).insert k v).2 =
          { t₁.bAt (t₁.indexOf k) with
            items := (t₁.bAt (t₁.indexOf k)).items ++ [(k, v)] } := by
        show ((t₁.bAt (t₁.indexOf k)).insert k v).2 = _
        rw [Bucket.insert, if_neg hnf]
      rw [hbins] at hins
      cases hins
      have hknotmem : k ∉ (t₁.bAt (t₁.indexOf k)).items.map Prod.fst :=
        (lookupKV_eq_none_iff _ _).1 hlkb
      refine ⟨?_, ?_, ?_, hgd⟩
      · apply wf_setItems h₁ hi
        · intro p hp
          rw [List.mem_append] at hp
          rcases hp with hp | hp
          · exact h₁.keys _ hi p hp
          · rw [List.mem_singleton] at hp
            subst hp
            exact hkmod
        · rw [List.map_append]
          simp only [List.map_cons, List.map_nil]
          rw [List.nodup_append]
          exact ⟨h₁.keysNodup _ hi, List.nodup_singleton k,
            by simpa using fun hmem => hknotmem hmem⟩
        · have := h₁.len_le _ hi
          rw [List.length_append, List.length_singleton]
          omega
      · rw [find_setItems h₁ hi _ k, if_pos rfl]
        exact lookupKV_append_self hlkb
      · intro k' hk'
        rw [find_setItems h₁ hi _ k']
        by_cases hP : t₁.dir.getD (t₁.indexOf k') 0 = t₁.dir.getD (t₁.indexOf k) 0
        · rw [if_pos hP, lookupKV_append_ne hk', ← find_of_same_slot hP]
          exact hfind k'
        · rw [if_neg hP]
          exact hfind k'
    · -- key present after the loop: overwrite in place
      have hlkb : lookupKV (t₁.bAt (t₁.indexOf k)).items k = some w := hlk
      simp only [hlk] at hins
      cases hins
      refine ⟨?_, ?_, ?_, hgd⟩
      · refine wf_setItems h₁ hi ?_ ?_ ?_
        · intro p hp
          have hpfst : p.1 ∈ (t₁.bAt (t₁.indexOf k)).items.map Prod.fst := by
            rw [← map_fst_overwriteKV _ k v]
            exact List.mem_map.2 ⟨p, hp, rfl⟩
          exact keys_of_mem_fst h₁ hi hpfst
        · rw [map_fst_overwriteKV]
          exact h₁.keysNodup _ hi
        · rw [length_overwriteKV]
          exact h₁.len_le _ hi
      · refine (find_setItems h₁ hi (overwriteKV (t₁.bAt (t₁.indexOf k)).items k v) k).trans ?_
        rw [if_pos rfl]
        exact lookupKV_overwriteKV_self v hlkb
      · intro k' hk'
        refine (find_setItems h₁ hi (overwriteKV (t₁.bAt (t₁.indexOf k)).items k v) k').trans ?_
        by_cases hP : t₁.dir.getD (t₁.indexOf k') 0 = t₁.dir.getD (t₁.indexOf k) 0
        · rw [if_pos hP, lookupKV_overwriteKV_ne v hk']
          rw [← find_of_same_slot hP]
          exact hfind k'
        · rw [if_neg hP]
          exact hfind k'

theorem set_getD_self {α : Type} (l : List α) (i : Nat) (d : α)
    (h : i < l.length) : l.set i (l.getD i d) = l := by
  apply List.ext_getElem?
  intro j
  by_cases hj : i = j
  · subst hj
    rw [List.getElem?_set_self h, getD_eq_getElem _ _ _ h,
      List.getElem?_eq_getElem h]
  · rw [List.getElem?_set_ne hj]

theorem remove_spec {t : EHT} (h : WF t) (k : Nat) :
    WF (t.remove k).2 ∧ (t.remove k).1 = (t.find k).isSome ∧
      (t.remove k).2.find k = none ∧
      (∀ k', k' ≠ k → (t.remove k).2.find k' = t.find k') ∧
      (t.remove k).2.globalDepth = t.globalDepth := by
  have hi : t.indexOf k < t.dir.length := indexOf_lt_dirLength h k
  have hbb : t.buckets.getD (t.dir.getD (t.indexOf k) 0) default =
      t.bAt (t.indexOf k) := rfl
  have hfindk : t.find k = lookupKV (t.bAt (t.indexOf k)).items k := rfl
  simp only [EHT.remove]
  rw [hbb]
  by_cases hemp : (t.bAt (t.indexOf k)).items = []
  · rw [if_pos hemp]
    have hfk : t.find k = none := by rw [hfindk, hemp]; rfl
    simp [hfk, h]
  · rw [if_neg hemp]
    rcases hlk : lookupKV (t.bAt (t.indexOf k)).items k with _ | v
    · -- key absent: `Bucket::Remove` erases nothing
      simp only [removeKV, hlk]
      refine ⟨?_, ?_, ?_, ?_, trivial⟩
      · exact wf_setItems h hi (fun p hp => h.keys _ hi p hp) (h.keysNodup _ hi)
          (h.len_le _ hi)
      · rw [show t.find k = none from hfindk.trans hlk]
        rfl
      · exact (find_setItems h hi _ k).trans (by rw [if_pos rfl]; exact hlk)
      · intro k' hk'
        refine (find_setItems h hi _ k').trans ?_
        by_cases hP : t.dir.getD (t.indexOf k') 0 = t.dir.getD (t.indexOf k) 0
        · rw [if_pos hP]
          exact (find_of_same_slot hP).symm
        · rw [if_neg hP]
    · -- key present: the matching pair is erased from the bucket's list
      simp only [removeKV, hlk]
      refine ⟨?_, ?_, ?_, ?_, trivial⟩
      · refine wf_setItems h hi ?_ ?_ ?_
        · intro p hp
          exact h.keys _ hi p (List.mem_of_mem_filter hp)
        · exact (h.keysNodup _ hi).sublist ((List.filter_sublist _).map Prod.fst)
        · exact le_trans (List.length_filter_le _ _) (h.len_le _ hi)
      · rw [show t.find k = some v from hfindk.trans hlk]
        rfl
      · refine (find_setItems h hi _ k).trans ?_
        rw [if_pos rfl]
        exact lookupKV_filter_self (h.keysNodup _ hi) hlk
      · intro k' hk'
        refine (find_setItems h hi _ k').trans ?_
        by_cases hP : t.dir.getD (t.indexOf k') 0 = t.dir.getD (t.indexOf k) 0
        · rw [if_pos hP]
          refine Eq.trans ?_ (find_of_same_slot hP).symm
          apply lookupKV_filter
          intro p _ hpred hfst
          rw [decide_eq_false_iff_not, not_not] at hpred
          rw [hpred] at hfst
          exact hk' hfst.symm
        · rw [if_neg hP]

/-! ## Operation sequences against the table -/

/-- An operation against the hash table (`Find` is pure and needs no entry). -/
inductive HOp where
  | ins (k v : Nat)
  | rem (k : Nat)
  deriving DecidableEq, Repr

/-- Run a sequence of operations, spending `fuel` on each insert's split
loop; `none` means some insert never terminated. -/
def runOps (fuel : Nat) : EHT → List HOp → Option EHT
  | t, [] => some t
  | t, .ins k v :: rest =>
    match t.insert k v fuel with
    | none => none
    | some t' => runOps fuel t' rest
  | t, .rem k :: rest => runOps fuel (t.remove k).2 rest

/-- The reference map semantics of the same operation sequence: the
last-inserted value per key, erased by removal. -/
def modelOf (ops : List HOp) : Nat → Option Nat :=
  ops.foldl
    (fun m op =>
      match op with
      | .ins k v => fun q => if q = k then some v else m q
      | .rem k => fun q => if q = k then none else m q)
    (fun _ => none)

theorem find_init (bs k : Nat) : (ehtInit bs).find k = none := by
  unfold EHT.find
  rw [indexOf_eq_mod]
  show lookupKV ((ehtInit bs).bAt (k % 2 ^ (ehtInit bs).globalDepth)).items k = none
  have : k % 2 ^ (ehtInit bs).globalDepth = 0 := by
    show k % 2 ^ 0 = 0
    simp [Nat.mod_one]
  rw [this]
  rfl

theorem modelOf_append (ops : List HOp) (op : HOp) :
    modelOf (ops ++ [op]) =
      (fun m => match op with
        | .ins k v => fun q => if q = k then some v else m q
        | .rem k => fun q => if q = k then none else m q) (modelOf ops) := by
  unfold modelOf
  rw [List.foldl_append]
  rfl

theorem runOps_model (fuel : Nat) : ∀ (ops : List HOp) (t t' : EHT)
    (_ : WF t) (m : Nat → Option Nat) (_ : ∀ k, t.find k = m k),
    runOps fuel t ops = some t' →
    WF t' ∧ (∀ k, t'.find k = (ops.foldl
      (fun m op =>
        match op with
        | .ins k v => fun q => if q = k then some v else m q
        | .rem k => fun q => if q = k then none else m q) m) k) ∧
      t.globalDepth ≤ t'.globalDepth := by
  intro ops
  induction ops with
  | nil =>
    intro t t' h m hm hrun
    cases hrun
    exact ⟨h, hm, Nat.le_refl _⟩
  | cons op rest ih =>
    intro t t' h m hm hrun
    cases op with
    | ins k v =>
      rw [runOps] at hrun
      rcases hins : t.insert k v fuel with _ | t₁
      · rw [hins] at hrun; cases hrun
      · rw [hins] at hrun
        obtain ⟨h₁, hfk, hfne, hgd⟩ := insert_spec h hins
        have hm₁ : ∀ q, t₁.find q = (fun q => if q = k then some v else m q) q := by
          intro q
          by_cases hq : q = k
          · subst hq; simp [hfk]
          · simp [hq]
            rw [hfne q hq, hm q]
        obtain ⟨ha, hb, hc⟩ := ih t₁ t' h₁ _ hm₁ hrun
        exact ⟨ha, hb, le_trans hgd hc⟩
    | rem k =>
      rw [runOps] at hrun
      obtain ⟨h₁, _, hrk, hrne, hgdeq⟩ := remove_spec h k
      have hm₁ : ∀ q, (t.remove k).2.find q =
          (fun q => if q = k then none else m q) q := by
        intro q
        by_cases hq : q = k
        · subst hq; simp [hrk]
        · simp [hq]
          rw [hrne q hq, hm q]
      obtain ⟨ha, hb, hc⟩ := ih (t.remove k).2 t' h₁ _ hm₁ hrun
      exact ⟨ha, hb, le_trans (le_of_eq hgdeq.symm) hc⟩

theorem runOps_spec {bs fuel : Nat} {ops : List HOp} {t : EHT}
    (hrun : runOps fuel (ehtInit bs) ops = some t) :
    WF t ∧ ∀ k, t.find k = modelOf ops k := by
  obtain ⟨h1, h2, _⟩ := runOps_model fuel ops (ehtInit bs) t (wf_init bs)
    (fun _ => none) (fun k => find_init bs k) hrun
  exact ⟨h1, h2⟩

theorem runOps_append (fuel : Nat) (l1 l2 : List HOp) : ∀ (t : EHT),
    runOps fuel t (l1 ++ l2) =
      match runOps fuel t l1 with
      | none => none
      | some t' => runOps fuel t' l2 := by
  induction l1 with
  | nil => intro t; rfl
  | cons op rest ih =>
    intro t
    cases op with
    | ins k v =>
      rw [List.cons_append, runOps, runOps]
      rcases hins : t.insert k v fuel with _ | t₁
      · rfl
      · exact ih t₁
    | rem k =>
      rw [List.cons_append, runOps, runOps]
      exact ih (t.remove k).2

/-- The slot-count consequence of the directory invariant: exactly
`2^(global_depth - local_depth)` slots reference each bucket. -/
theorem wf_count {t : EHT} (h : WF t) {i : Nat} (hi : i < t.dir.length) :
    ((List.range t.dir.length).filter
      (fun j => decide (t.dir.getD j 0 = t.dir.getD i 0))).length =
      2 ^ (t.globalDepth - (t.bAt i).depth) := by
  rw [← List.countP_eq_length_filter]
  have hd : (t.bAt i).depth ≤ t.globalDepth := h.depth_le i hi
  have hcongr : (List.range t.dir.length).countP
      (fun j => decide (t.dir.getD j 0 = t.dir.getD i 0)) =
      (List.range t.dir.length).countP
      (fun j => decide (j % 2 ^ (t.bAt i).depth = i % 2 ^ (t.bAt i).depth)) := by
    apply List.countP_congr
    intro j hj
    have hjlt : j < t.dir.length := List.mem_range.1 hj
    simp only [decide_eq_true_eq]
    exact slot_ref_iff h hi hjlt
  rw [hcongr]
  have hsplit : t.dir.length =
      2 ^ (t.bAt i).depth * 2 ^ (t.globalDepth - (t.bAt i).depth) := by
    rw [h.dlen, ← pow_add]
    congr 1
    omega
  rw [hsplit]
  exact countP_range_mod (2 ^ (t.bAt i).depth) (i % 2 ^ (t.bAt i).depth)
    (Nat.mod_lt _ (by positivity)) _

/-! ## Concrete hash-table states used by the claim theorems -/

/-- Table of bucket capacity 2 after `Insert(0, 10)`. -/
def ehtA : EHT := ((ehtInit 2).insert 0 10 9).getD (ehtInit 2)

/-- `ehtA` after `Insert(0, 99)` (overwrite in a non-full bucket). -/
def ehtA' : EHT := (ehtA.insert 0 99 9).getD ehtA

/-- `ehtA` after `Insert(2, 20)`: the bucket addressed by key 0 is now full. -/
def ehtB : EHT := (ehtA.insert 2 20 9).getD ehtA

/-- `ehtB` after `Insert(0, 30)`: an overwrite of an existing key that
nevertheless splits, because the full-bucket check precedes the
existing-key scan. -/
def ehtC : EHT := (ehtB.insert 0 30 9).getD ehtB

def opsC7 : List HOp := [.ins 1 11, .ins 2 22, .ins 3 33, .ins 1 44, .rem 2]

def ehtSeq : EHT := (runOps 9 (ehtInit 2) opsC7).getD (ehtInit 2)

def opsW1 : List HOp := [.ins 1 11, .ins 3 33]

def ehtW1 : EHT := (runOps 9 (ehtInit 2) opsW1).getD (ehtInit 2)

def ehtW2 : EHT := (runOps 9 (ehtInit 2) (opsW1 ++ [.ins 5 55])).getD (ehtInit 2)

/-! ## Claim C3 -/

/-- C3, counterexample: in a table of bucket capacity 2 holding keys 0 and 2
(same bucket, bucket full), key 0 is present with value 10, yet
`Insert(0, 30)` doubles the directory: the global depth rises from 1 to 2,
the bucket count rises from 2 to 3, and the directory array changes — the
claim's "performs no resize … even when the bucket addressed by the key is
full" is false, although the overwrite itself does happen. -/
theorem C3_counterexample :
    ehtB.find 0 = some 10 ∧ (ehtB.bAt (ehtB.indexOf 0)).isFull = true ∧
    ehtB.insert 0 30 9 = some ehtC ∧
    ehtB.globalDepth = 1 ∧ ehtC.globalDepth = 2 ∧
    ehtB.numBuckets = 2 ∧ ehtC.numBuckets = 3 ∧
    ehtB.dir ≠ ehtC.dir ∧ ehtC.find 0 = some 30 := by
  refine ⟨rfl, rfl, rfl, rfl, rfl, rfl, rfl, ?_, rfl⟩
  decide

/-- C3 (amended): for a key that already has an entry, a terminating
`Insert(key, value)` overwrites the entry (a subsequent lookup returns the
new value) and leaves every other key's lookup unchanged; the global depth,
bucket count and directory are unchanged only when the bucket addressed by
the key is not full — when it is full, the call splits before overwriting. -/
theorem C3_theorem {t t' : EHT} (h : WF t) {k w v fuel : Nat}
    (hk : t.find k = some w) (hins : t.insert k v fuel = some t') :
    t'.find k = some v ∧ (∀ k', k' ≠ k → t'.find k' = t.find k') ∧
      ((t.bAt (t.indexOf k)).isFull = false →
        t'.globalDepth = t.globalDepth ∧ t'.numBuckets = t.numBuckets ∧
          t'.dir = t.dir) := by
  obtain ⟨_, hfk, hfne, _⟩ := insert_spec h hins
  refine ⟨hfk, hfne, ?_⟩
  intro hnf
  cases fuel with
  | zero =>
    simp only [EHT.insert, EHT.splitLoop] at hins
    cases hins
  | succ fuel =>
    have hloop : EHT.splitLoop (fuel + 1) t k = some t := by
      rw [EHT.splitLoop, hnf]
      rfl
    simp only [EHT.insert, hloop] at hins
    have hlkg : lookupKV (t.buckets.getD (t.dir.getD (t.indexOf k) 0) default).items k =
        some w := hk
    simp only [hlkg] at hins
    cases hins
    exact ⟨rfl, rfl, rfl⟩

/-- C3, witness: key 0 maps to 10 in `ehtA`, whose addressed bucket is not
full; `Insert(0, 99)` overwrites in place with no resize. -/
theorem C3_witness :
    ehtA.insert 0 99 9 = some ehtA' ∧ ehtA'.find 0 = some 99 ∧
      ehtA'.find 2 = ehtA.find 2 ∧ ehtA'.globalDepth = ehtA.globalDepth ∧
      ehtA'.numBuckets = ehtA.numBuckets ∧ ehtA'.dir = ehtA.dir := by
  have hA : (ehtInit 2).insert 0 10 9 = some ehtA := rfl
  have hWF : WF ehtA := (insert_spec (wf_init 2) hA).1
  obtain ⟨h1, h2, h3⟩ := C3_theorem hWF (show ehtA.find 0 = some 10 from rfl)
    (show ehtA.insert 0 99 9 = some ehtA' from rfl)
  obtain ⟨g1, g2, g3⟩ := h3 (by decide)
  exact ⟨rfl, h1, h2 2 (by decide), g1, g2, g3⟩

/-! ## Claim C7 -/

/-- C7: running any terminating sequence of inserts and removes from an
empty table, every key's lookup agrees with the reference map semantics of
the sequence (in particular, each of N distinct inserted keys is found with
its last-inserted value); a `Remove` returns true exactly when the key is
currently found, and after it the key's lookup reports absent (so `Remove`
returns false when the addressed bucket is empty or the key is absent). -/
theorem C7_theorem {bs fuel : Nat} {ops : List HOp} {t : EHT}
    (hrun : runOps fuel (ehtInit bs) ops = some t) (k : Nat) :
    t.find k = modelOf ops k ∧
    (t.remove k).1 = (t.find k).isSome ∧
    (t.remove k).2.find k = none := by
  obtain ⟨hwf, hmodel⟩ := runOps_spec hrun
  obtain ⟨_, hbool, hrk, _, _⟩ := remove_spec hwf k
  exact ⟨hmodel k, hbool, hrk⟩

/-- C7, witness: after `[ins 1 11, ins 2 22, ins 3 33, ins 1 44, rem 2]`,
key 1 reads its last value 44, key 2 is absent, key 3 reads 33; removing
key 3 succeeds and makes it absent; removing absent key 5 returns false. -/
theorem C7_witness :
    ehtSeq.find 1 = some 44 ∧ ehtSeq.find 2 = none ∧ ehtSeq.find 3 = some 33 ∧
    (ehtSeq.remove 3).1 = true ∧ (ehtSeq.remove 3).2.find 3 = none ∧
    (ehtSeq.remove 5).1 = false := by
  have hr : runOps 9 (ehtInit 2) opsC7 = some ehtSeq := rfl
  have h1 := C7_theorem hr 1
  have h2 := C7_theorem hr 2
  have h3 := C7_theorem hr 3
  have h5 := C7_theorem hr 5
  refine ⟨h1.1.trans (by decide), h2.1.trans (by decide), h3.1.trans (by decide),
    h3.2.1.trans ?_, h3.2.2, h5.2.1.trans ?_⟩
  · rw [h3.1]; decide
  · rw [h5.1]; decide

/-! ## Claim C8 -/

/-- C8: across any terminating sequence of inserts and removes (lookups are
pure), the global depth never decreases — a state reached by a prefix has
global depth at most that of any later state — and in every reached state
every directory slot's bucket has local depth at most the global depth,
with exactly `2^(global_depth - local_depth)` directory slots referencing
that bucket object. -/
theorem C8_theorem {bs fuel : Nat} {ops1 ops2 : List HOp} {t1 t2 : EHT}
    (h1 : runOps fuel (ehtInit bs) ops1 = some t1)
    (h2 : runOps fuel (ehtInit bs) (ops1 ++ ops2) = some t2) :
    t1.globalDepth ≤ t2.globalDepth ∧
    ∀ i, i < t1.dir.length →
      (t1.bAt i).depth ≤ t1.globalDepth ∧
      ((List.range t1.dir.length).filter
        (fun j => decide (t1.dir.getD j 0 = t1.dir.getD i 0))).length =
        2 ^ (t1.globalDepth - (t1.bAt i).depth) := by
  obtain ⟨hwf1, _⟩ := runOps_spec h1
  rw [runOps_append, h1] at h2
  have h2' : runOps fuel t1 ops2 = some t2 := h2
  obtain ⟨_, _, hmono⟩ := runOps_model fuel ops2 t1 t2 hwf1
    (fun k => t1.find k) (fun _ => rfl) h2'
  refine ⟨hmono, ?_⟩
  intro i hi
  exact ⟨hwf1.depth_le i hi, wf_count hwf1 hi⟩

/-- C8, witness: after inserting keys 1 and 3 the global depth is 1; the
follow-up insert of key 5 splits their shared bucket and raises it to 2;
the slot-count identity holds at slot 0 of the intermediate state. -/
theorem C8_witness :
    ehtW1.globalDepth ≤ ehtW2.globalDepth ∧
    (ehtW1.bAt 0).depth ≤ ehtW1.globalDepth ∧
    ((List.range ehtW1.dir.length).filter
      (fun j => decide (ehtW1.dir.getD j 0 = ehtW1.dir.getD 0 0))).length =
      2 ^ (ehtW1.globalDepth - (ehtW1.bAt 0).depth) := by
  have ha : runOps 9 (ehtInit 2) opsW1 = some ehtW1 := rfl
  have hb : runOps 9 (ehtInit 2) (opsW1 ++ [.ins 5 55]) = some ehtW2 := rfl
  obtain ⟨hm, hslots⟩ := C8_theorem ha hb
  exact ⟨hm, (hslots 0 (by decide)).1, (hslots 0 (by decide)).2⟩

/-! ## The eviction tracker (`LRUKReplacer`)

Modelled from the spec: the `LRUKReplacer` source is not under `src/`
(only its call sites are), so it is reconstructed from the specification's
contract (section 4.3): per-frame access history of at most the `k` most
recent logical timestamps plus an evictable flag; `Evict` prefers the
largest backward k-distance, frames with fewer than `k` recorded accesses
counting as infinite and tie-broken by earliest most-recent access, and
discards the chosen frame's history; it returns nothing when no frame is
evictable. -/

structure RepEntry where
  hist : List Nat
  evict : Bool
  deriving DecidableEq, Repr

instance : Inhabited RepEntry := ⟨⟨[], false⟩⟩

structure LRUK where
  k : Nat
  ts : Nat
  frames : List RepEntry
  deriving DecidableEq, Repr

def lrukInit (n k : Nat) : LRUK :=
  { k := k, ts := 0, frames := List.replicate n default }

/-- Modelled from the spec: append the current timestamp, keep the `k` most
recent (history stored newest first). -/
def LRUK.recordAccess (r : LRUK) (f : Nat) : LRUK :=
  let e := r.frames.getD f default
  { r with frames := r.frames.set f { e with hist := (r.ts :: e.hist).take r.k },
           ts := r.ts + 1 }

/-- Modelled from the spec: toggle a frame's eligibility for eviction. -/
def LRUK.setEvictable (r : LRUK) (f : Nat) (b : Bool) : LRUK :=
  let e := r.frames.getD f default
  { r with frames := r.frames.set f { e with evict := b } }

/-- Modelled from the spec: discard all history for a frame. -/
def LRUK.removeF (r : LRUK) (f : Nat) : LRUK :=
  { r with frames := r.frames.set f default }

def LRUK.evictFlag (r : LRUK) (f : Nat) : Bool :=
  (r.frames.getD f default).evict

/-- Ranking class: 0 when fewer than `k` accesses are recorded (infinite
backward k-distance), 1 otherwise. -/
def LRUK.rankClass (r : LRUK) (f : Nat) : Nat :=
  if (r.frames.getD f default).hist.length < r.k then 0 else 1

/-- Tie-break key: most-recent timestamp for the infinite class (earliest
wins), k-th most recent timestamp otherwise (smaller means larger backward
k-distance). -/
def LRUK.rankKey (r : LRUK) (f : Nat) : Nat :=
  if (r.frames.getD f default).hist.length < r.k
  then (r.frames.getD f default).hist.headD 0
  else (r.frames.getD f default).hist.getLastD 0

/-- `a` is a strictly better victim than `b` (ties keep the earlier
candidate, i.e. the lower frame index, which the spec leaves open). -/
def LRUK.better (r : LRUK) (a b : Nat) : Bool :=
  decide (r.rankClass a < r.rankClass b) ||
  (decide (r.rankClass a = r.rankClass b) && decide (r.rankKey a < r.rankKey b))

def pickVictim (r : LRUK) : List Nat → Option Nat
  | [] => none
  | f :: rest =>
    some (rest.foldl (fun best c => if r.better c best then c else best) f)

/-- Modelled from the spec: choose the best victim among the evictable
frames and discard its history; `none` when no frame is evictable. -/
def LRUK.evict (r : LRUK) : Option (Nat × LRUK) :=
  match pickVictim r ((List.range r.frames.length).filter (fun f => r.evictFlag f)) with
  | none => none
  | some f => some (f, r.removeF f)

/-! ## The buffer pool manager -/

/-- A `Page` frame: `page_id_` (`none` models `INVALID_PAGE_ID`),
`pin_count_`, `is_dirty_`, and the data buffer abstracted to one value
(0 models the zeroed buffer left by `ResetMemory`). -/
structure Page where
  pageId : Option Nat
  pinCount : Nat
  isDirty : Bool
  data : Nat
  deriving DecidableEq, Repr

instance : Inhabited Page := ⟨⟨none, 0, false, 0⟩⟩

/-- A disk-manager call issued by an operation. -/
inductive Ev where
  | write (pid : Option Nat) (d : Nat)
  | read (pid : Nat)
  deriving DecidableEq, Repr

/-- `DiskManager::WritePage`; a write keyed by `INVALID_PAGE_ID` does not
name any modelled page. -/
def diskW (disk : Nat → Nat) (pid : Option Nat) (d : Nat) : Nat → Nat :=
  match pid with
  | none => disk
  | some p => fun q => if q = p then d else disk q

/-- `BufferPoolManagerInstance` state: the frame array, the page directory,
the eviction tracker, the free list, the identifier allocator, and the
storage collaborator's contents. -/
structure BPM where
  poolSize : Nat
  pages : List Page
  pageTable : EHT
  replacer : LRUK
  freeList : List Nat
  nextPageId : Nat
  disk : Nat → Nat

/-- The constructor: all frames empty and on the free list.  The directory's
`bucket_size_` and the allocator's starting value 0 are declared in the
header, which is not under `src/`; both are modelled from the spec
("identifiers start at a fixed origin and increment by one"). -/
def bpmInit (ps k bs : Nat) : BPM :=
  { poolSize := ps, pages := List.replicate ps default, pageTable := ehtInit bs,
    replacer := lrukInit ps k, freeList := List.range ps, nextPageId := 0,
    disk := fun _ => 0 }

/-- The `all_pinned` scan at the top of `NewPgImp` and `FetchPgImp`:
true iff no frame has `GetPinCount() <= 0`. -/
def BPM.allPinned (s : BPM) : Bool :=
  (List.range s.poolSize).all (fun i => decide ((s.pages.getD i default).pinCount > 0))

/-- `Remove` on the page directory keyed by a possibly-invalid page id;
the table never holds the invalid key, so `Remove(INVALID_PAGE_ID)` finds
nothing and changes nothing. -/
def tableRemoveOpt (t : EHT) (pid : Option Nat) : EHT :=
  match pid with
  | none => t
  | some p => (t.remove p).2

/-- The victim-frame mutations of the eviction branch, exactly in source
order: write back if dirty (clearing the dirty flag), `ResetMemory`, and
removal of the victim's directory mapping keyed by the frame's `page_id_`. -/
def BPM.evictMut (s : BPM) (f : Nat) : BPM × List Ev :=
  let pg := s.pages.getD f default
  let disk' := if pg.isDirty then diskW s.disk pg.pageId pg.data else s.disk
  let evs : List Ev := if pg.isDirty then [Ev.write pg.pageId pg.data] else []
  let pg' : Page := { pg with isDirty := false, data := 0 }
  ({ s with disk := disk', pages := s.pages.set f pg', pageTable := tableRemoveOpt s.pageTable pg.pageId }, evs)

/-- Result of the shared frame-acquisition block of `NewPgImp`/`FetchPgImp`. -/
inductive AcqRes where
  | ok (f : Nat) (s : BPM) (ev : List Ev)
  | fail (s : BPM) (ev : List Ev)

/-- The shared frame-acquisition block: pop the free list if non-empty,
else ask the replacer for a victim.  When `Evict` fails, the C++ has left
`frame_id` uninitialized yet still runs the victim mutations on it before
the `if (!vic) return nullptr;` check; the indeterminate frame index is
modelled as 0. -/
def BPM.acquire (s : BPM) : AcqRes :=
  match s.freeList with
  | f :: rest => .ok f { s with freeList := rest } []
  | [] =>
    match s.replacer.evict with
    | some (f, rep) =>
      let pr := BPM.evictMut { s with replacer := rep } f
      .ok f pr.1 pr.2
    | none =>
      let pr := BPM.evictMut s 0
      .fail pr.1 pr.2

/-- `NewPgImp`: outer `none` models an `Insert` call that never returns;
result `none` models returning `nullptr`. -/
def BPM.newPg (s : BPM) (fuel : Nat) :
    Option (Option (Nat × Nat) × BPM × List Ev) :=
  if s.allPinned then some (none, s, [])
  else
    match s.acquire with
    | .fail s' ev => some (none, s', ev)
    | .ok f s' ev =>
      let pid := s'.nextPageId
      let s1 : BPM := { s' with nextPageId := pid + 1 }
      let pg := s1.pages.getD f default
      let s2 : BPM :=
        { s1 with pages := s1.pages.set f { pg with pageId := some pid, pinCount := 1 } }
      match s2.pageTable.insert pid f fuel with
      | none => none
      | some tbl =>
        some (some (pid, f),
          { s2 with pageTable := tbl, replacer := (s2.replacer.recordAccess f).setEvictable f false }, ev)

/-- `FetchPgImp`.  Note the `all_pinned` scan runs before the directory is
consulted, and the miss path increments (not sets) the frame's pin count. -/
def BPM.fetchPg (s : BPM) (pid : Nat) (fuel : Nat) :
    Option (Option Nat × BPM × List Ev) :=
  if s.allPinned then some (none, s, [])
  else
    match s.pageTable.find pid with
    | some f =>
      let pg := s.pages.getD f default
      some (some f,
        { s with pages := s.pages.set f { pg with pinCount := pg.pinCount + 1 }, replacer := (s.replacer.recordAccess f).setEvictable f false }, [])
    | none =>
      match s.acquire with
      | .fail s' ev => some (none, s', ev)
      | .ok f s' ev =>
        let pg := s'.pages.getD f default
        let s1 : BPM := { s' with pages := s'.pages.set f { pg with pageId := some pid, pinCount := pg.pinCount + 1 } }
        let s2 : BPM :=
          { s1 with replacer := (s1.replacer.recordAccess f).setEvictable f false }
        match s2.pageTable.insert pid f fuel with
        | none => none
        | some tbl =>
          let s3 : BPM := { s2 with pageTable := tbl }
          let pg3 := s3.pages.getD f default
          let s4 : BPM := { s3 with pages := s3.pages.set f { pg3 with data := s3.disk pid } }
          some (some f, s4, ev ++ [Ev.read pid])

/-- `UnpinPgImp`. -/
def BPM.unpinPg (s : BPM) (pid : Nat) (d : Bool) : Bool × BPM :=
  match s.pageTable.find pid with
  | none => (false, s)
  | some f =>
    let pg := s.pages.getD f default
    if pg.pinCount = 0 then (false, s)
    else
      let pg1 : Page := { pg with isDirty := if d then true else pg.isDirty, pinCount := pg.pinCount - 1 }
      let s1 : BPM := { s with pages := s.pages.set f pg1 }
      let s2 : BPM := if pg.pinCount - 1 = 0
        then { s1 with replacer := s1.replacer.setEvictable f true } else s1
      (true, s2)

/-- `FlushPgImp`: `none` models being called with `INVALID_PAGE_ID`; the
write is keyed by the frame's own `page_id_` and the dirty flag is not
cleared. -/
def BPM.flushPg (s : BPM) (pid : Option Nat) : Bool × BPM × List Ev :=
  match pid with
  | none => (false, s, [])
  | some p =>
    match s.pageTable.find p with
    | none => (false, s, [])
    | some f =>
      let pg := s.pages.getD f default
      (true, { s with disk := diskW s.disk pg.pageId pg.data },
        [Ev.write pg.pageId pg.data])

/-- `FlushAllPgsImp`: flush every frame's current `page_id_` in frame
order (non-resident frames contribute `INVALID_PAGE_ID`, which
`FlushPgImp` rejects). -/
def BPM.flushAll (s : BPM) : BPM × List Ev :=
  (List.range s.poolSize).foldl
    (fun pr i =>
      let r := pr.1.flushPg ((pr.1.pages.getD i default).pageId)
      (r.2.1, pr.2 ++ r.2.2))
    (s, [])

/-- `DeletePgImp`.  `DeallocatePage` is declared in the header (not under
`src/`); modelled from the spec as a no-op of a monotonic allocator that
never reuses identifiers. -/
def BPM.deletePg (s : BPM) (pid : Nat) : Bool × BPM :=
  match s.pageTable.find pid with
  | none => (true, s)
  | some f =>
    let pg := s.pages.getD f default
    if pg.pinCount > 0 then (false, s)
    else
      (true, { s with replacer := s.replacer.removeF f, pages := s.pages.set f default, pageTable := (s.pageTable.remove pid).2, freeList := s.freeList ++ [f] })

/-! ## Replacer lemmas -/

theorem getD_of_ge {α : Type} (l : List α) {i : Nat} (d : α)
    (h : l.length ≤ i) : l.getD i d = d := by
  simp [List.getD, List.getElem?_eq_none h]

theorem evictFlag_lt {r : LRUK} {f : Nat} (h : r.evictFlag f = true) :
    f < r.frames.length := by
  by_contra hge
  rw [LRUK.evictFlag, getD_of_ge _ _ (Nat.le_of_not_lt hge)] at h
  cases h

theorem recordAccess_flag (r : LRUK) (f g : Nat) :
    (r.recordAccess f).evictFlag g = r.evictFlag g := by
  simp only [LRUK.recordAccess, LRUK.evictFlag]
  by_cases hfg : f = g
  · subst hfg
    by_cases hf : f < r.frames.length
    · rw [getD_set_self _ _ _ _ hf]
    · rw [List.set_eq_of_length_le (Nat.le_of_not_lt hf)]
  · rw [getD_set_other _ _ _ _ _ hfg]

theorem setEvictable_flag_self {r : LRUK} {f : Nat} (b : Bool)
    (h : f < r.frames.length) : (r.setEvictable f b).evictFlag f = b := by
  simp only [LRUK.setEvictable, LRUK.evictFlag]
  rw [getD_set_self _ _ _ _ h]

theorem setEvictable_flag_other (r : LRUK) (b : Bool) {f g : Nat} (h : f ≠ g) :
    (r.setEvictable f b).evictFlag g = r.evictFlag g := by
  simp only [LRUK.setEvictable, LRUK.evictFlag]
  rw [getD_set_other _ _ _ _ _ h]

theorem removeF_flag_self (r : LRUK) (f : Nat) :
    (r.removeF f).evictFlag f = false := by
  simp only [LRUK.removeF, LRUK.evictFlag]
  by_cases hf : f < r.frames.length
  · rw [getD_set_self _ _ _ _ hf]
    rfl
  · rw [List.set_eq_of_length_le (Nat.le_of_not_lt hf),
      getD_of_ge _ _ (Nat.le_of_not_lt hf)]
    rfl

theorem removeF_flag_other (r : LRUK) {f g : Nat} (h : f ≠ g) :
    (r.removeF f).evictFlag g = r.evictFlag g := by
  simp only [LRUK.removeF, LRUK.evictFlag]
  rw [getD_set_other _ _ _ _ _ h]

theorem length_recordAccess (r : LRUK) (f : Nat) :
    (r.recordAccess f).frames.length = r.frames.length := by
  simp [LRUK.recordAccess]

theorem length_setEvictable (r : LRUK) (f : Nat) (b : Bool) :
    (r.setEvictable f b).frames.length = r.frames.length := by
  simp [LRUK.setEvictable]

theorem length_removeF (r : LRUK) (f : Nat) :
    (r.removeF f).frames.length = r.frames.length := by
  simp [LRUK.removeF]

theorem foldl_best_mem (r : LRUK) :
    ∀ (l : List Nat) (f : Nat),
      (l.foldl (fun best c => if r.better c best then c else best) f) ∈ f :: l := by
  intro l
  induction l with
  | nil => intro f; simp
  | cons c rest ih =>
    intro f
    rw [List.foldl_cons]
    by_cases hb : r.better c f
    · simp only [hb, if_true]
      have := ih c
      rw [List.mem_cons] at this ⊢
      rcases this with h | h
      · right; rw [List.mem_cons]; left; exact h
      · right; rw [List.mem_cons]; right; exact h
    · simp only [hb, if_false]
      have := ih f
      rw [List.mem_cons] at this ⊢
      rcases this with h | h
      · left; exact h
      · right; rw [List.mem_cons]; right; exact h

theorem evict_none_flag {r : LRUK} (h : r.evict = none) :
    ∀ f, r.evictFlag f = false := by
  intro f
  unfold LRUK.evict at h
  rcases hc : (List.range r.frames.length).filter (fun f => r.evictFlag f) with _ | ⟨c, cs⟩
  · by_cases hf : f < r.frames.length
    · by_contra hflag
      have hmem : f ∈ (List.range r.frames.length).filter (fun f => r.evictFlag f) := by
        rw [List.mem_filter]
        exact ⟨List.mem_range.2 hf, by simpa using hflag⟩
      rw [hc] at hmem
      cases hmem
    · rw [LRUK.evictFlag, getD_of_ge _ _ (Nat.le_of_not_lt hf)]
      rfl
  · rw [hc] at h
    simp [pickVictim] at h

theorem evict_some {r r' : LRUK} {f : Nat} (h : r.evict = some (f, r')) :
    r.evictFlag f = true ∧ r' = r.removeF f := by
  unfold LRUK.evict at h
  rcases hc : (List.range r.frames.length).filter (fun g => r.evictFlag g) with _ | ⟨c, cs⟩
  · rw [hc] at h
    simp [pickVictim] at h
  · rw [hc] at h
    simp only [pickVictim, Option.some.injEq, Prod.mk.injEq] at h
    obtain ⟨hf, hr'⟩ := h
    have hmem := foldl_best_mem r cs c
    rw [hf] at hmem hr'
    have hmem2 : f ∈ (List.range r.frames.length).filter (fun g => r.evictFlag g) := by
      rw [hc]
      exact hmem
    rw [List.mem_filter] at hmem2
    exact ⟨hmem2.2, hr'.symm⟩

/-! ## Reachable states and the pool invariant -/

/-- States reachable from a fresh pool of `ps` frames (replacer parameter
`k`, directory bucket size `bs`) by the public operations; fuelled
operations contribute a successor only when they return. -/
inductive Reach (ps k bs : Nat) : BPM → Prop where
  | init : Reach ps k bs (bpmInit ps k bs)
  | newPg {s s' : BPM} {fuel : Nat} {r : Option (Nat × Nat)} {ev : List Ev} :
      Reach ps k bs s → s.newPg fuel = some (r, s', ev) → Reach ps k bs s'
  | fetchPg {s s' : BPM} {pid fuel : Nat} {r : Option Nat} {ev : List Ev} :
      Reach ps k bs s → s.fetchPg pid fuel = some (r, s', ev) → Reach ps k bs s'
  | unpinPg {s : BPM} {pid : Nat} {d : Bool} :
      Reach ps k bs s → Reach ps k bs (s.unpinPg pid d).2
  | flushPg {s : BPM} {pid : Option Nat} :
      Reach ps k bs s → Reach ps k bs (s.flushPg pid).2.1
  | flushAll {s : BPM} :
      Reach ps k bs s → Reach ps k bs s.flushAll.1
  | deletePg {s : BPM} {pid : Nat} :
      Reach ps k bs s → Reach ps k bs (s.deletePg pid).2

/-- The pool invariant maintained by every reachable state. -/
structure Inv (ps : Nat) (s : BPM) : Prop where
  hps : s.poolSize = ps
  hlen : s.pages.length = ps
  hrlen : s.replacer.frames.length = ps
  htwf : WF s.pageTable
  hfnd : s.freeList.Nodup
  hfind : ∀ p f, s.pageTable.find p = some f →
    f < ps ∧ (s.pages.getD f default).pageId = some p ∧ f ∉ s.freeList
  hfree : ∀ f ∈ s.freeList, f < ps ∧ (s.pages.getD f default).pinCount = 0 ∧
    (s.pages.getD f default).pageId = none ∧ s.replacer.evictFlag f = false
  hev : ∀ f, s.replacer.evictFlag f = true →
    (s.pages.getD f default).pinCount = 0 ∧
      (s.pages.getD f default).pageId.isSome = true
  hzero : ∀ f, f < ps → f ∉ s.freeList →
    (s.pages.getD f default).pinCount = 0 → s.replacer.evictFlag f = true
  hinj : ∀ p q f, s.pageTable.find p = some f → s.pageTable.find q = some f →
    p = q

theorem getD_replicate_default {α : Type} [Inhabited α] (n i : Nat) :
    (List.replicate n (default : α)).getD i default = default := by
  by_cases h : i < n
  · rw [getD_eq_getElem _ _ _ (by simpa using h), List.getElem_replicate]
  · rw [getD_of_ge _ _ (by simpa using Nat.le_of_not_lt h)]

theorem inv_init (ps k bs : Nat) : Inv ps (bpmInit ps k bs) := by
  refine ⟨rfl, by simp [bpmInit], by simp [bpmInit, lrukInit], wf_init bs,
    List.nodup_range _, ?_, ?_, ?_, ?_, ?_⟩
  · intro p f hf
    rw [show (bpmInit ps k bs).pageTable.find p = none from find_init bs p] at hf
    cases hf
  · intro f hf
    have hlt : f < ps := by simpa [bpmInit] using hf
    refine ⟨hlt, ?_, ?_, ?_⟩
    · show ((List.replicate ps (default : Page)).getD f default).pinCount = 0
      rw [getD_replicate_default]
      rfl
    · show ((List.replicate ps (default : Page)).getD f default).pageId = none
      rw [getD_replicate_default]
      rfl
    · show ((List.replicate ps (default : RepEntry)).getD f default).evict = false
      rw [getD_replicate_default]
      rfl
  · intro f hf
    exfalso
    have h2 : ((List.replicate ps (default : RepEntry)).getD f default).evict = true := hf
    rw [getD_replicate_default] at h2
    exact absurd h2 (by decide)
  · intro f hlt hnf _
    exact absurd (by simpa [bpmInit] using hlt : f ∈ (bpmInit ps k bs).freeList) hnf
  · intro p q f hp _
    rw [show (bpmInit ps k bs).pageTable.find p = none from find_init bs p] at hp
    cases hp

/-- `all_pinned == false` exhibits a frame with pin count zero. -/
theorem allPinned_false {s : BPM} (h : s.allPinned = false) :
    ∃ f, f < s.poolSize ∧ (s.pages.getD f default).pinCount = 0 := by
  unfold BPM.allPinned at h
  rw [List.all_eq_false] at h
  obtain ⟨f, hmem, hpred⟩ := h
  refine ⟨f, List.mem_range.1 hmem, ?_⟩
  simpa using hpred

theorem acquire_cases (s : BPM) :
    (∃ f rest, s.freeList = f :: rest ∧
      s.acquire = .ok f { s with freeList := rest } []) ∨
    (s.freeList = [] ∧ ∃ f rep, s.replacer.evict = some (f, rep) ∧
      s.acquire = .ok f (BPM.evictMut { s with replacer := rep } f).1
        (BPM.evictMut { s with replacer := rep } f).2) ∨
    (s.freeList = [] ∧ s.replacer.evict = none ∧
      s.acquire = .fail (BPM.evictMut s 0).1 (BPM.evictMut s 0).2) := by
  rcases hfl : s.freeList with _ | ⟨f, rest⟩
  · rcases hev : s.replacer.evict with _ | ⟨f, rep⟩
    · right; right
      exact ⟨rfl, rfl, by simp only [BPM.acquire, hfl, hev]⟩
    · right; left
      exact ⟨rfl, f, rep, rfl, by simp only [BPM.acquire, hfl, hev]⟩
  · left
    exact ⟨f, rest, rfl, by simp only [BPM.acquire, hfl]⟩

/-- What holds of the intermediate state after a successful
frame-acquisition: the pool invariant relativised to the carved-out frame
`f`, which is unpinned, unmapped, off the free list and non-evictable. -/
structure AcqInv (ps : Nat) (s : BPM) (f : Nat) (s' : BPM) : Prop where
  hps : s'.poolSize = ps
  hlen : s'.pages.length = ps
  hrlen : s'.replacer.frames.length = ps
  htwf : WF s'.pageTable
  hfnd : s'.freeList.Nodup
  hflt : f < ps
  hpin : (s'.pages.getD f default).pinCount = 0
  hfnotfree : f ∉ s'.freeList
  hfflag : s'.replacer.evictFlag f = false
  hnotmapped : ∀ p, s'.pageTable.find p ≠ some f
  hfind : ∀ p g, s'.pageTable.find p = some g →
    g < ps ∧ (s'.pages.getD g default).pageId = some p ∧ g ∉ s'.freeList
  hfree : ∀ g ∈ s'.freeList, g < ps ∧ (s'.pages.getD g default).pinCount = 0 ∧
    (s'.pages.getD g default).pageId = none ∧ s'.replacer.evictFlag g = false
  hev : ∀ g, s'.replacer.evictFlag g = true →
    (s'.pages.getD g default).pinCount = 0 ∧
      (s'.pages.getD g default).pageId.isSome = true
  hzero : ∀ g, g < ps → g ∉ s'.freeList → g ≠ f →
    (s'.pages.getD g default).pinCount = 0 → s'.replacer.evictFlag g = true
  hnext : s'.nextPageId = s.nextPageId
  hfindsub : ∀ p g, s'.pageTable.find p = some g → s.pageTable.find p = some g

/-- A failed `Evict` inside the acquisition block cannot happen from an
invariant state in which not every frame is pinned. -/
theorem acquire_fail_impossible {ps : Nat} {s s' : BPM} {ev : List Ev}
    (hinv : Inv ps s) (hnp : s.allPinned = false)
    (hacq : s.acquire = .fail s' ev) : False := by
  rcases acquire_cases s with ⟨f0, rest, _, heq⟩ | ⟨_, f0, rep, _, heq⟩ |
    ⟨hfl, hev0, heq⟩
  · rw [heq] at hacq; cases hacq
  · rw [heq] at hacq; cases hacq
  · obtain ⟨f, hflt, hpin⟩ := allPinned_false hnp
    have hflt' : f < ps := hinv.hps ▸ hflt
    have hnotfree : f ∉ s.freeList := by rw [hfl]; simp
    have hflag := hinv.hzero f hflt' hnotfree hpin
    rw [evict_none_flag hev0 f] at hflag
    cases hflag

theorem inv_acquire_ok {ps : Nat} {s s' : BPM} {f : Nat} {ev : List Ev}
    (hinv : Inv ps s) (hacq : s.acquire = .ok f s' ev) : AcqInv ps s f s' := by
  rcases acquire_cases s with ⟨f, rest, hfl, heq⟩ | ⟨hfl, f, rep, hev0, heq⟩ |
    ⟨_, _, heq⟩
  · -- free-list pop
    rw [heq] at hacq
    cases hacq
    have hmem : f ∈ s.freeList := by rw [hfl]; exact List.mem_cons_self _ _
    obtain ⟨hlt0, hpin0, hpid0, hflag0⟩ := hinv.hfree f hmem
    have hnodup := hinv.hfnd
    rw [hfl] at hnodup
    have hnotin : f ∉ rest := (List.nodup_cons.1 hnodup).1
    refine ⟨hinv.hps, hinv.hlen, hinv.hrlen, hinv.htwf,
      (List.nodup_cons.1 hnodup).2, hlt0, hpin0, hnotin, hflag0, ?_, ?_, ?_,
      hinv.hev, ?_, rfl, fun p g hg => hg⟩
    · intro p hp
      obtain ⟨_, hpid, _⟩ := hinv.hfind p f hp
      rw [hpid0] at hpid
      cases hpid
    · intro p g hg
      obtain ⟨h1, h2, h3⟩ := hinv.hfind p g hg
      refine ⟨h1, h2, fun hmem2 => h3 ?_⟩
      rw [hfl]
      exact List.mem_cons_of_mem _ hmem2
    · intro g hg
      exact hinv.hfree g (by rw [hfl]; exact List.mem_cons_of_mem _ hg)
    · intro g hglt hgnot hgne hgpin
      refine hinv.hzero g hglt ?_ hgpin
      rw [hfl]
      intro hmem2
      rcases List.mem_cons.1 hmem2 with h | h
      · exact hgne h
      · exact hgnot h
  · -- eviction
    rw [heq] at hacq
    cases hacq
    obtain ⟨hflag, hrep⟩ := evict_some hev0
    obtain ⟨hpin0, hpidsome⟩ := hinv.hev f hflag
    rcases hpid : (s.pages.getD f default).pageId with _ | oldPid
    · rw [hpid] at hpidsome; cases hpidsome
    have hflt0 : f < ps := hinv.hrlen ▸ evictFlag_lt hflag
    have hunique : ∀ p, s.pageTable.find p = some f → p = oldPid := by
      intro p hp
      obtain ⟨_, hpidp, _⟩ := hinv.hfind p f hp
      rw [hpid] at hpidp
      exact (Option.some.inj hpidp).symm
    -- the intermediate state's page table
    have h1 : (BPM.evictMut { s with replacer := rep } f).1.pageTable =
        (s.pageTable.remove oldPid).2 := by
      show tableRemoveOpt s.pageTable (s.pages.getD f default).pageId = _
      rw [hpid]
      rfl
    obtain ⟨htwf', hbool', hrfindk, hrfindne, _⟩ := remove_spec hinv.htwf oldPid
    have hfind' : ∀ p g,
        (BPM.evictMut { s with replacer := rep } f).1.pageTable.find p = some g →
        p ≠ oldPid ∧ s.pageTable.find p = some g := by
      intro p g hg
      rw [h1] at hg
      by_cases hpo : p = oldPid
      · subst hpo
        rw [hrfindk] at hg
        cases hg
      · exact ⟨hpo, (hrfindne p hpo) ▸ hg⟩
    -- the intermediate state's pages
    have hpg : ∀ g, g ≠ f →
        (BPM.evictMut { s with replacer := rep } f).1.pages.getD g default =
        s.pages.getD g default := by
      intro g hgne
      show (s.pages.set f _).getD g default = _
      rw [getD_set_other _ _ _ _ _ (fun e => hgne e.symm)]
    have hpgf : (BPM.evictMut { s with replacer := rep } f).1.pages.getD f default =
        { s.pages.getD f default with isDirty := false, data := 0 } := by
      show (s.pages.set f _).getD f default = _
      rw [getD_set_self _ _ _ _ (hinv.hlen ▸ hflt0)]
    have hrl : (BPM.evictMut { s with replacer := rep } f).1.replacer = rep := rfl
    refine ⟨hinv.hps, ?_, ?_, ?_, ?_, hflt0, ?_, ?_, ?_, ?_, ?_, ?_, ?_, ?_, rfl, ?_⟩
    · show (s.pages.set f _).length = ps
      rw [List.length_set]
      exact hinv.hlen
    · rw [hrl, hrep, length_removeF]
      exact hinv.hrlen
    · rw [h1]
      exact htwf'
    · show s.freeList.Nodup
      exact hinv.hfnd
    · rw [hpgf]
      exact hpin0
    · show f ∉ s.freeList
      rw [hfl]
      simp
    · rw [hrl, hrep]
      exact removeF_flag_self _ _
    · intro p hp
      obtain ⟨hpo, hfp⟩ := hfind' p f hp
      exact hpo (hunique p hfp)
    · intro p g hg
      obtain ⟨hpo, hfp⟩ := hfind' p g hg
      obtain ⟨hglt, hgpid, _⟩ := hinv.hfind p g hfp
      have hgne : g ≠ f := by
        intro hgeq
        subst hgeq
        exact hpo (hunique p hfp)
      refine ⟨hglt, ?_, ?_⟩
      · rw [hpg g hgne]
        exact hgpid
      · show g ∉ s.freeList
        rw [hfl]
        simp
    · intro g hg
      exfalso
      have : g ∈ s.freeList := hg
      rw [hfl] at this
      cases this
    · intro g hflagg
      rw [hrl, hrep] at hflagg
      have hgne : g ≠ f := by
        intro hgeq
        subst hgeq
        rw [removeF_flag_self] at hflagg
        cases hflagg
      rw [removeF_flag_other _ (fun e => hgne e.symm)] at hflagg
      obtain ⟨ha, hb⟩ := hinv.hev g hflagg
      rw [hpg g hgne]
      exact ⟨ha, hb⟩
    · intro g hglt hgnot hgne hgpin
      rw [hrl, hrep, removeF_flag_other _ (fun e => hgne e.symm)]
      refine hinv.hzero g hglt ?_ ?_
      · rw [hfl]; simp
      · rw [hpg g hgne] at hgpin
        exact hgpin
    · intro p g hg
      exact (hfind' p g hg).2
  · rw [heq] at hacq
    cases hacq

/-! ## Branch characterisations of the public operations -/

theorem newPg_some {s : BPM} {fuel : Nat}
    {out : Option (Nat × Nat) × BPM × List Ev} (h : s.newPg fuel = some out) :
    (s.allPinned = true ∧ out = (none, s, [])) ∨
    (s.allPinned = false ∧ ∃ f s' ev tbl,
      s.acquire = .ok f s' ev ∧
      s'.pageTable.insert s'.nextPageId f fuel = some tbl ∧
      out = (some (s'.nextPageId, f),
        { s' with nextPageId := s'.nextPageId + 1, pages := s'.pages.set f { s'.pages.getD f default with pageId := some s'.nextPageId, pinCount := 1 }, pageTable := tbl, replacer := (s'.replacer.recordAccess f).setEvictable f false }, ev)) ∨
    (s.allPinned = false ∧ ∃ s' ev, s.acquire = .fail s' ev ∧
      out = (none, s', ev)) := by
  by_cases hp : s.allPinned
  · left
    refine ⟨hp, ?_⟩
    simp only [BPM.newPg, hp, if_true] at h
    exact (Option.some.inj h).symm
  · rw [Bool.not_eq_true] at hp
    simp only [BPM.newPg, hp, Bool.false_eq_true, if_false] at h
    rcases hacq : s.acquire with ⟨f, sA, ev⟩ | ⟨sA, ev⟩
    · simp only [hacq] at h
      rcases hins : sA.pageTable.insert sA.nextPageId f fuel with _ | tbl
      · simp only [hins] at h
        cases h
      · simp only [hins] at h
        right; left
        exact ⟨hp, f, sA, ev, tbl, rfl, hins, (Option.some.inj h).symm⟩
    · simp only [hacq] at h
      right; right
      exact ⟨hp, sA, ev, rfl, (Option.some.inj h).symm⟩

theorem fetchPg_some {s : BPM} {pid fuel : Nat}
    {out : Option Nat × BPM × List Ev} (h : s.fetchPg pid fuel = some out) :
    (s.allPinned = true ∧ out = (none, s, [])) ∨
    (s.allPinned = false ∧ ∃ f, s.pageTable.find pid = some f ∧
      out = (some f, { s with pages := s.pages.set f { s.pages.getD f default with pinCount := (s.pages.getD f default).pinCount + 1 }, replacer := (s.replacer.recordAccess f).setEvictable f false }, [])) ∨
    (s.allPinned = false ∧ s.pageTable.find pid = none ∧ ∃ f sA ev tbl,
      s.acquire = .ok f sA ev ∧
      sA.pageTable.insert pid f fuel = some tbl ∧
      out = (some f,
        { sA with pages := (sA.pages.set f { sA.pages.getD f default with pageId := some pid, pinCount := (sA.pages.getD f default).pinCount + 1 }).set f { (sA.pages.set f { sA.pages.getD f default with pageId := some pid, pinCount := (sA.pages.getD f default).pinCount + 1 }).getD f default with data := sA.disk pid }, pageTable := tbl, replacer := (sA.replacer.recordAccess f).setEvictable f false }, ev ++ [Ev.read pid])) ∨
    (s.allPinned = false ∧ s.pageTable.find pid = none ∧ ∃ sA ev,
      s.acquire = .fail sA ev ∧ out = (none, sA, ev)) := by
  by_cases hp : s.allPinned
  · left
    refine ⟨hp, ?_⟩
    simp only [BPM.fetchPg, hp, if_true] at h
    exact (Option.some.inj h).symm
  · rw [Bool.not_eq_true] at hp
    simp only [BPM.fetchPg, hp, Bool.false_eq_true, if_false] at h
    rcases hfind : s.pageTable.find pid with _ | f
    · rw [hfind] at h
      rcases hacq : s.acquire with ⟨f, sA, ev⟩ | ⟨sA, ev⟩
      · simp only [hacq] at h
        rcases hins : sA.pageTable.insert pid f fuel with _ | tbl
        · simp only [hins] at h
          cases h
        · simp only [hins] at h
          right; right; left
          exact ⟨hp, rfl, f, sA, ev, tbl, rfl, hins, (Option.some.inj h).symm⟩
      · simp only [hacq] at h
        right; right; right
        exact ⟨hp, rfl, sA, ev, rfl, (Option.some.inj h).symm⟩
    · rw [hfind] at h
      right; left
      exact ⟨hp, f, rfl, (Option.some.inj h).symm⟩

theorem unpin_cases (s : BPM) (pid : Nat) (d : Bool) :
    (s.pageTable.find pid = none ∧ s.unpinPg pid d = (false, s)) ∨
    (∃ f, s.pageTable.find pid = some f ∧
      (s.pages.getD f default).pinCount = 0 ∧ s.unpinPg pid d = (false, s)) ∨
    (∃ f, s.pageTable.find pid = some f ∧
      (s.pages.getD f default).pinCount ≠ 0 ∧
      (s.pages.getD f default).pinCount - 1 = 0 ∧
      s.unpinPg pid d = (true, { s with pages := s.pages.set f { s.pages.getD f default with isDirty := if d then true else (s.pages.getD f default).isDirty, pinCount := (s.pages.getD f default).pinCount - 1 }, replacer := s.replacer.setEvictable f true })) ∨
    (∃ f, s.pageTable.find pid = some f ∧
      (s.pages.getD f default).pinCount ≠ 0 ∧
      (s.pages.getD f default).pinCount - 1 ≠ 0 ∧
      s.unpinPg pid d = (true, { s with pages := s.pages.set f { s.pages.getD f default with isDirty := if d then true else (s.pages.getD f default).isDirty, pinCount := (s.pages.getD f default).pinCount - 1 } })) := by
  rcases hfind : s.pageTable.find pid with _ | f
  · left
    exact ⟨rfl, by simp only [BPM.unpinPg, hfind]⟩
  · by_cases hpin : (s.pages.getD f default).pinCount = 0
    · right; left
      exact ⟨f, rfl, hpin, by simp only [BPM.unpinPg, hfind, hpin, if_pos]⟩
    · by_cases hone : (s.pages.getD f default).pinCount - 1 = 0
      · right; right; left
        refine ⟨f, rfl, hpin, hone, ?_⟩
        simp only [BPM.unpinPg, hfind, hpin, if_neg, hone, if_pos]
        rfl
      · right; right; right
        refine ⟨f, rfl, hpin, hone, ?_⟩
        simp only [BPM.unpinPg, hfind, hpin, if_neg, hone, if_neg]
        rfl

theorem delete_cases (s : BPM) (pid : Nat) :
    (s.pageTable.find pid = none ∧ s.deletePg pid = (true, s)) ∨
    (∃ f, s.pageTable.find pid = some f ∧
      (s.pages.getD f default).pinCount > 0 ∧ s.deletePg pid = (false, s)) ∨
    (∃ f, s.pageTable.find pid = some f ∧
      (s.pages.getD f default).pinCount = 0 ∧
      s.deletePg pid = (true, { s with replacer := s.replacer.removeF f, pages := s.pages.set f default, pageTable := (s.pageTable.remove pid).2, freeList := s.freeList ++ [f] })) := by
  rcases hfind : s.pageTable.find pid with _ | f
  · left
    exact ⟨rfl, by simp only [BPM.deletePg, hfind]⟩
  · by_cases hpin : (s.pages.getD f default).pinCount > 0
    · right; left
      exact ⟨f, rfl, hpin, by simp only [BPM.deletePg, hfind, hpin, if_pos]⟩
    · right; right
      have hz : (s.pages.getD f default).pinCount = 0 := by omega
      refine ⟨f, rfl, hz, ?_⟩
      simp only [BPM.deletePg, hfind, hpin, if_neg]
      simp

theorem flush_cases (s : BPM) (pid : Option Nat) :
    (pid = none ∧ s.flushPg pid = (false, s, [])) ∨
    (∃ p, pid = some p ∧ s.pageTable.find p = none ∧
      s.flushPg pid = (false, s, [])) ∨
    (∃ p f, pid = some p ∧ s.pageTable.find p = some f ∧
      s.flushPg pid = (true, { s with disk := diskW s.disk (s.pages.getD f default).pageId (s.pages.getD f default).data }, [Ev.write (s.pages.getD f default).pageId (s.pages.getD f default).data])) := by
  rcases pid with _ | p
  · left
    exact ⟨rfl, by simp only [BPM.flushPg]⟩
  · rcases hfind : s.pageTable.find p with _ | f
    · right; left
      exact ⟨p, rfl, hfind, by simp only [BPM.flushPg, hfind]⟩
    · right; right
      exact ⟨p, f, rfl, hfind, by simp only [BPM.flushPg, hfind]⟩

/-! ## Invariant preservation -/

theorem inv_newPg {ps : Nat} {s s' : BPM} {fuel : Nat}
    {r : Option (Nat × Nat)} {ev : List Ev} (hinv : Inv ps s)
    (h : s.newPg fuel = some (r, s', ev)) : Inv ps s' := by
  rcases newPg_some h with ⟨_, hout⟩ | ⟨hnp, f, sA, ev', tbl, hacq, hins, hout⟩ |
    ⟨hnp, sA, ev', hacq, hout⟩
  · rw [Prod.mk.injEq, Prod.mk.injEq] at hout
    obtain ⟨-, rfl, -⟩ := hout
    exact hinv
  · rw [Prod.mk.injEq, Prod.mk.injEq] at hout
    obtain ⟨-, rfl, -⟩ := hout
    have A := inv_acquire_ok hinv hacq
    obtain ⟨htbl, hfpid, hfne, -⟩ := insert_spec A.htwf hins
    have hflen : f < sA.pages.length := A.hlen ▸ A.hflt
    have hpgf : (sA.pages.set f { sA.pages.getD f default with pageId := some sA.nextPageId, pinCount := 1 }).getD f default = { sA.pages.getD f default with pageId := some sA.nextPageId, pinCount := 1 } :=
      getD_set_self _ _ _ _ hflen
    have hpgo : ∀ g, g ≠ f → (sA.pages.set f { sA.pages.getD f default with pageId := some sA.nextPageId, pinCount := 1 }).getD g default = sA.pages.getD g default :=
      fun g hg => getD_set_other _ _ _ _ _ (fun e => hg e.symm)
    have hflagf : ((sA.replacer.recordAccess f).setEvictable f false).evictFlag f = false :=
      setEvictable_flag_self false (by rw [length_recordAccess]; exact A.hrlen ▸ A.hflt)
    have hflago : ∀ g, g ≠ f → ((sA.replacer.recordAccess f).setEvictable f false).evictFlag g = sA.replacer.evictFlag g := by
      intro g hg
      rw [setEvictable_flag_other _ _ (fun e => hg e.symm), recordAccess_flag]
    dsimp only [] at hpgf hpgo ⊢
    refine ⟨A.hps, ?_, ?_, htbl, A.hfnd, ?_, ?_, ?_, ?_, ?_⟩
    · rw [List.length_set]
      exact A.hlen
    · rw [length_setEvictable, length_recordAccess]
      exact A.hrlen
    · intro p g hg
      by_cases hp : p = sA.nextPageId
      · subst hp
        have hgf : g = f := Option.some.inj (hg.symm.trans hfpid)
        subst hgf
        refine ⟨A.hflt, ?_, A.hfnotfree⟩
        rw [hpgf]
      · rw [hfne p hp] at hg
        have hgf : g ≠ f := fun e => A.hnotmapped p (e ▸ hg)
        obtain ⟨h1, h2, h3⟩ := A.hfind p g hg
        exact ⟨h1, by rw [hpgo g hgf]; exact h2, h3⟩
    · intro g hgmem
      obtain ⟨h1, h2, h3, h4⟩ := A.hfree g hgmem
      have hgf : g ≠ f := fun e => A.hfnotfree (e ▸ hgmem)
      exact ⟨h1, by rw [hpgo g hgf]; exact h2, by rw [hpgo g hgf]; exact h3,
        by rw [hflago g hgf]; exact h4⟩
    · intro g hflag
      by_cases hgf : g = f
      · subst hgf
        rw [hflagf] at hflag
        cases hflag
      · rw [hflago g hgf] at hflag
        obtain ⟨h1, h2⟩ := A.hev g hflag
        exact ⟨by rw [hpgo g hgf]; exact h1, by rw [hpgo g hgf]; exact h2⟩
    · intro g hlt hnmem hpin
      by_cases hgf : g = f
      · subst hgf
        rw [hpgf] at hpin
        simp at hpin
      · rw [hpgo g hgf] at hpin
        rw [hflago g hgf]
        exact A.hzero g hlt hnmem hgf hpin
    · intro p q g hp hq
      by_cases hpp : p = sA.nextPageId
      · by_cases hqq : q = sA.nextPageId
        · rw [hpp, hqq]
        · subst hpp
          rw [hfne q hqq] at hq
          rw [Option.some.inj (hp.symm.trans hfpid)] at hq
          exact absurd hq (A.hnotmapped q)
      · by_cases hqq : q = sA.nextPageId
        · subst hqq
          rw [hfne p hpp] at hp
          rw [Option.some.inj (hq.symm.trans hfpid)] at hp
          exact absurd hp (A.hnotmapped p)
        · rw [hfne p hpp] at hp
          rw [hfne q hqq] at hq
          exact hinv.hinj p q g (A.hfindsub p g hp) (A.hfindsub q g hq)
  · exact (acquire_fail_impossible hinv hnp hacq).elim

theorem inv_fetchPg {ps : Nat} {s s' : BPM} {pid fuel : Nat}
    {r : Option Nat} {ev : List Ev} (hinv : Inv ps s)
    (h : s.fetchPg pid fuel = some (r, s', ev)) : Inv ps s' := by
  rcases fetchPg_some h with ⟨_, hout⟩ | ⟨hnp, f, hfnd, hout⟩ |
    ⟨hnp, hmiss, f, sA, ev', tbl, hacq, hins, hout⟩ | ⟨hnp, hmiss, sA, ev', hacq, hout⟩
  · rw [Prod.mk.injEq, Prod.mk.injEq] at hout
    obtain ⟨-, rfl, -⟩ := hout
    exact hinv
  · rw [Prod.mk.injEq, Prod.mk.injEq] at hout
    obtain ⟨-, rfl, -⟩ := hout
    obtain ⟨hflt, hfpg, hffree⟩ := hinv.hfind pid f hfnd
    have hflen : f < s.pages.length := hinv.hlen ▸ hflt
    have hpgf : (s.pages.set f { s.pages.getD f default with pinCount := (s.pages.getD f default).pinCount + 1 }).getD f default = { s.pages.getD f default with pinCount := (s.pages.getD f default).pinCount + 1 } :=
      getD_set_self _ _ _ _ hflen
    have hpgo : ∀ g, g ≠ f → (s.pages.set f { s.pages.getD f default with pinCount := (s.pages.getD f default).pinCount + 1 }).getD g default = s.pages.getD g default :=
      fun g hg => getD_set_other _ _ _ _ _ (fun e => hg e.symm)
    have hflagf : ((s.replacer.recordAccess f).setEvictable f false).evictFlag f = false :=
      setEvictable_flag_self false (by rw [length_recordAccess]; exact hinv.hrlen ▸ hflt)
    have hflago : ∀ g, g ≠ f → ((s.replacer.recordAccess f).setEvictable f false).evictFlag g = s.replacer.evictFlag g := by
      intro g hg
      rw [setEvictable_flag_other _ _ (fun e => hg e.symm), recordAccess_flag]
    dsimp only [] at hpgf hpgo ⊢
    refine ⟨hinv.hps, ?_, ?_, hinv.htwf, hinv.hfnd, ?_, ?_, ?_, ?_, hinv.hinj⟩
    · rw [List.length_set]
      exact hinv.hlen
    · rw [length_setEvictable, length_recordAccess]
      exact hinv.hrlen
    · intro p g hg
      obtain ⟨h1, h2, h3⟩ := hinv.hfind p g hg
      by_cases hgf : g = f
      · subst hgf
        refine ⟨h1, ?_, h3⟩
        rw [hpgf]
        exact h2
      · exact ⟨h1, by rw [hpgo g hgf]; exact h2, h3⟩
    · intro g hgmem
      obtain ⟨h1, h2, h3, h4⟩ := hinv.hfree g hgmem
      have hgf : g ≠ f := fun e => hffree (e ▸ hgmem)
      exact ⟨h1, by rw [hpgo g hgf]; exact h2, by rw [hpgo g hgf]; exact h3,
        by rw [hflago g hgf]; exact h4⟩
    · intro g hflag
      by_cases hgf : g = f
      · subst hgf
        rw [hflagf] at hflag
        cases hflag
      · rw [hflago g hgf] at hflag
        obtain ⟨h1, h2⟩ := hinv.hev g hflag
        exact ⟨by rw [hpgo g hgf]; exact h1, by rw [hpgo g hgf]; exact h2⟩
    · intro g hlt hnmem hpin
      by_cases hgf : g = f
      · subst hgf
        rw [hpgf] at hpin
        simp at hpin
      · rw [hpgo g hgf] at hpin
        rw [hflago g hgf]
        exact hinv.hzero g hlt hnmem hpin
  · rw [Prod.mk.injEq, Prod.mk.injEq] at hout
    obtain ⟨-, rfl, -⟩ := hout
    have A := inv_acquire_ok hinv hacq
    obtain ⟨htbl, hfpid, hfne, -⟩ := insert_spec A.htwf hins
    have hflen : f < sA.pages.length := A.hlen ▸ A.hflt
    have hpages : ((sA.pages.set f { sA.pages.getD f default with pageId := some pid, pinCount := (sA.pages.getD f default).pinCount + 1 }).set f { (sA.pages.set f { sA.pages.getD f default with pageId := some pid, pinCount := (sA.pages.getD f default).pinCount + 1 }).getD f default with data := sA.disk pid }) = sA.pages.set f { sA.pages.getD f default with pageId := some pid, pinCount := (sA.pages.getD f default).pinCount + 1, data := sA.disk pid } := by
      rw [List.set_set, getD_set_self _ _ _ _ hflen]
    have hpgf : (sA.pages.set f { sA.pages.getD f default with pageId := some pid, pinCount := (sA.pages.getD f default).pinCount + 1, data := sA.disk pid }).getD f default = { sA.pages.getD f default with pageId := some pid, pinCount := (sA.pages.getD f default).pinCount + 1, data := sA.disk pid } :=
      getD_set_self _ _ _ _ hflen
    have hpgo : ∀ g, g ≠ f → (sA.pages.set f { sA.pages.getD f default with pageId := some pid, pinCount := (sA.pages.getD f default).pinCount + 1, data := sA.disk pid }).getD g default = sA.pages.getD g default :=
      fun g hg => getD_set_other _ _ _ _ _ (fun e => hg e.symm)
    have hflagf : ((sA.replacer.recordAccess f).setEvictable f false).evictFlag f = false :=
      setEvictable_flag_self false (by rw [length_recordAccess]; exact A.hrlen ▸ A.hflt)
    have hflago : ∀ g, g ≠ f → ((sA.replacer.recordAccess f).setEvictable f false).evictFlag g = sA.replacer.evictFlag g := by
      intro g hg
      rw [setEvictable_flag_other _ _ (fun e => hg e.symm), recordAccess_flag]
    dsimp only [] at hpages hpgf hpgo ⊢
    rw [hpages]
    refine ⟨A.hps, ?_, ?_, htbl, A.hfnd, ?_, ?_, ?_, ?_, ?_⟩
    · rw [List.length_set]
      exact A.hlen
    · rw [length_setEvictable, length_recordAccess]
      exact A.hrlen
    · intro p g hg
      by_cases hp : p = pid
      · subst hp
        have hgf : g = f := Option.some.inj (hg.symm.trans hfpid)
        subst hgf
        refine ⟨A.hflt, ?_, A.hfnotfree⟩
        rw [hpgf]
      · rw [hfne p hp] at hg
        have hgf : g ≠ f := fun e => A.hnotmapped p (e ▸ hg)
        obtain ⟨h1, h2, h3⟩ := A.hfind p g hg
        exact ⟨h1, by rw [hpgo g hgf]; exact h2, h3⟩
    · intro g hgmem
      obtain ⟨h1, h2, h3, h4⟩ := A.hfree g hgmem
      have hgf : g ≠ f := fun e => A.hfnotfree (e ▸ hgmem)
      exact ⟨h1, by rw [hpgo g hgf]; exact h2, by rw [hpgo g hgf]; exact h3,
        by rw [hflago g hgf]; exact h4⟩
    · intro g hflag
      by_cases hgf : g = f
      · subst hgf
        rw [hflagf] at hflag
        cases hflag
      · rw [hflago g hgf] at hflag
        obtain ⟨h1, h2⟩ := A.hev g hflag
        exact ⟨by rw [hpgo g hgf]; exact h1, by rw [hpgo g hgf]; exact h2⟩
    · intro g hlt hnmem hpin
      by_cases hgf : g = f
      · subst hgf
        rw [hpgf] at hpin
        simp at hpin
      · rw [hpgo g hgf] at hpin
        rw [hflago g hgf]
        exact A.hzero g hlt hnmem hgf hpin
    · intro p q g hp hq
      by_cases hpp : p = pid
      · by_cases hqq : q = pid
        · rw [hpp, hqq]
        · subst hpp
          rw [hfne q hqq] at hq
          rw [Option.some.inj (hp.symm.trans hfpid)] at hq
          exact absurd hq (A.hnotmapped q)
      · by_cases hqq : q = pid
        · subst hqq
          rw [hfne p hpp] at hp
          rw [Option.some.inj (hq.symm.trans hfpid)] at hp
          exact absurd hp (A.hnotmapped p)
        · rw [hfne p hpp] at hp
          rw [hfne q hqq] at hq
          exact hinv.hinj p q g (A.hfindsub p g hp) (A.hfindsub q g hq)
  · exact (acquire_fail_impossible hinv hnp hacq).elim

theorem inv_unpin {ps : Nat} {s : BPM} (pid : Nat) (d : Bool)
    (hinv : Inv ps s) : Inv ps (s.unpinPg pid d).2 := by
  rcases unpin_cases s pid d with ⟨-, heq⟩ | ⟨f, -, -, heq⟩ |
    ⟨f, hfnd, hpin, hone, heq⟩ | ⟨f, hfnd, hpin, hone, heq⟩
  · rw [heq]
    exact hinv
  · rw [heq]
    exact hinv
  · rw [heq]
    obtain ⟨hflt, hfpg, hffree⟩ := hinv.hfind pid f hfnd
    have hflen : f < s.pages.length := hinv.hlen ▸ hflt
    have hpgf : (s.pages.set f { s.pages.getD f default with isDirty := if d then true else (s.pages.getD f default).isDirty, pinCount := (s.pages.getD f default).pinCount - 1 }).getD f default = { s.pages.getD f default with isDirty := if d then true else (s.pages.getD f default).isDirty, pinCount := (s.pages.getD f default).pinCount - 1 } :=
      getD_set_self _ _ _ _ hflen
    have hpgo : ∀ g, g ≠ f → (s.pages.set f { s.pages.getD f default with isDirty := if d then true else (s.pages.getD f default).isDirty, pinCount := (s.pages.getD f default).pinCount - 1 }).getD g default = s.pages.getD g default :=
      fun g hg => getD_set_other _ _ _ _ _ (fun e => hg e.symm)
    have hflagf : (s.replacer.setEvictable f true).evictFlag f = true :=
      setEvictable_flag_self true (hinv.hrlen ▸ hflt)
    have hflago : ∀ g, g ≠ f → (s.replacer.setEvictable f true).evictFlag g = s.replacer.evictFlag g :=
      fun g hg => setEvictable_flag_other _ _ (fun e => hg e.symm)
    dsimp only [] at hpgf hpgo ⊢
    refine ⟨hinv.hps, ?_, ?_, hinv.htwf, hinv.hfnd, ?_, ?_, ?_, ?_, hinv.hinj⟩
    · rw [List.length_set]
      exact hinv.hlen
    · rw [length_setEvictable]
      exact hinv.hrlen
    · intro p g hg
      obtain ⟨h1, h2, h3⟩ := hinv.hfind p g hg
      by_cases hgf : g = f
      · subst hgf
        refine ⟨h1, ?_, h3⟩
        rw [hpgf]
        exact h2
      · exact ⟨h1, by rw [hpgo g hgf]; exact h2, h3⟩
    · intro g hgmem
      obtain ⟨h1, h2, h3, h4⟩ := hinv.hfree g hgmem
      have hgf : g ≠ f := fun e => hffree (e ▸ hgmem)
      exact ⟨h1, by rw [hpgo g hgf]; exact h2, by rw [hpgo g hgf]; exact h3,
        by rw [hflago g hgf]; exact h4⟩
    · intro g hflag
      by_cases hgf : g = f
      · subst hgf
        refine ⟨?_, ?_⟩
        · rw [hpgf]
          exact hone
        · rw [hpgf]
          rw [hfpg]
          rfl
      · rw [hflago g hgf] at hflag
        obtain ⟨h1, h2⟩ := hinv.hev g hflag
        exact ⟨by rw [hpgo g hgf]; exact h1, by rw [hpgo g hgf]; exact h2⟩
    · intro g hlt hnmem hpz
      by_cases hgf : g = f
      · subst hgf
        exact hflagf
      · rw [hpgo g hgf] at hpz
        rw [hflago g hgf]
        exact hinv.hzero g hlt hnmem hpz
  · rw [heq]
    obtain ⟨hflt, hfpg, hffree⟩ := hinv.hfind pid f hfnd
    have hflen : f < s.pages.length := hinv.hlen ▸ hflt
    have hpgf : (s.pages.set f { s.pages.getD f default with isDirty := if d then true else (s.pages.getD f default).isDirty, pinCount := (s.pages.getD f default).pinCount - 1 }).getD f default = { s.pages.getD f default with isDirty := if d then true else (s.pages.getD f default).isDirty, pinCount := (s.pages.getD f default).pinCount - 1 } :=
      getD_set_self _ _ _ _ hflen
    have hpgo : ∀ g, g ≠ f → (s.pages.set f { s.pages.getD f default with isDirty := if d then true else (s.pages.getD f default).isDirty, pinCount := (s.pages.getD f default).pinCount - 1 }).getD g default = s.pages.getD g default :=
      fun g hg => getD_set_other _ _ _ _ _ (fun e => hg e.symm)
    dsimp only [] at hpgf hpgo ⊢
    refine ⟨hinv.hps, ?_, hinv.hrlen, hinv.htwf, hinv.hfnd, ?_, ?_, ?_, ?_, hinv.hinj⟩
    · rw [List.length_set]
      exact hinv.hlen
    · intro p g hg
      obtain ⟨h1, h2, h3⟩ := hinv.hfind p g hg
      by_cases hgf : g = f
      · subst hgf
        refine ⟨h1, ?_, h3⟩
        rw [hpgf]
        exact h2
      · exact ⟨h1, by rw [hpgo g hgf]; exact h2, h3⟩
    · intro g hgmem
      obtain ⟨h1, h2, h3, h4⟩ := hinv.hfree g hgmem
      have hgf : g ≠ f := fun e => hffree (e ▸ hgmem)
      exact ⟨h1, by rw [hpgo g hgf]; exact h2, by rw [hpgo g hgf]; exact h3, h4⟩
    · intro g hflag
      obtain ⟨h1, h2⟩ := hinv.hev g hflag
      by_cases hgf : g = f
      · subst hgf
        exact absurd h1 hpin
      · exact ⟨by rw [hpgo g hgf]; exact h1, by rw [hpgo g hgf]; exact h2⟩
    · intro g hlt hnmem hpz
      by_cases hgf : g = f
      · subst hgf
        rw [hpgf] at hpz
        exact absurd hpz hone
      · rw [hpgo g hgf] at hpz
        exact hinv.hzero g hlt hnmem hpz

theorem inv_flushPg {ps : Nat} {s : BPM} (pid : Option Nat)
    (hinv : Inv ps s) : Inv ps (s.flushPg pid).2.1 := by
  rcases flush_cases s pid with ⟨-, heq⟩ | ⟨p, -, -, heq⟩ | ⟨p, f, -, -, heq⟩
  · rw [heq]
    exact hinv
  · rw [heq]
    exact hinv
  · rw [heq]
    exact ⟨hinv.hps, hinv.hlen, hinv.hrlen, hinv.htwf, hinv.hfnd, hinv.hfind,
      hinv.hfree, hinv.hev, hinv.hzero, hinv.hinj⟩

theorem inv_flushAll {ps : Nat} {s : BPM} (hinv : Inv ps s) :
    Inv ps s.flushAll.1 := by
  have key : ∀ (l : List Nat) (pr : BPM × List Ev), Inv ps pr.1 →
      Inv ps ((l.foldl
        (fun pr i =>
          let r := pr.1.flushPg ((pr.1.pages.getD i default).pageId)
          (r.2.1, pr.2 ++ r.2.2)) pr).1) := by
    intro l
    induction l with
    | nil => exact fun pr h => h
    | cons i t ih => exact fun pr h => ih _ (inv_flushPg _ h)
  exact key (List.range s.poolSize) (s, []) hinv

theorem inv_deletePg {ps : Nat} {s : BPM} (pid : Nat)
    (hinv : Inv ps s) : Inv ps (s.deletePg pid).2 := by
  rcases delete_cases s pid with ⟨-, heq⟩ | ⟨f, -, -, heq⟩ | ⟨f, hfnd, hz, heq⟩
  · rw [heq]
    exact hinv
  · rw [heq]
    exact hinv
  · rw [heq]
    obtain ⟨hflt, hfpg, hffree⟩ := hinv.hfind pid f hfnd
    have hflen : f < s.pages.length := hinv.hlen ▸ hflt
    obtain ⟨hrwf, -, hrnone, hrother, -⟩ := remove_spec hinv.htwf pid
    have hpgf : (s.pages.set f default).getD f default = default :=
      getD_set_self _ _ _ _ hflen
    have hpgo : ∀ g, g ≠ f → (s.pages.set f default).getD g default = s.pages.getD g default :=
      fun g hg => getD_set_other _ _ _ _ _ (fun e => hg e.symm)
    dsimp only [] at hpgf hpgo ⊢
    refine ⟨hinv.hps, ?_, ?_, hrwf, ?_, ?_, ?_, ?_, ?_, ?_⟩
    · rw [List.length_set]
      exact hinv.hlen
    · rw [length_removeF]
      exact hinv.hrlen
    · rw [List.nodup_append]
      refine ⟨hinv.hfnd, List.nodup_singleton f, ?_⟩
      intro a ha hb
      rw [List.mem_singleton] at hb
      exact hffree (hb ▸ ha)
    · intro p g hg
      by_cases hp : p = pid
      · subst hp
        rw [hrnone] at hg
        cases hg
      · rw [hrother p hp] at hg
        have hgf : g ≠ f := fun e =>
          hp (hinv.hinj p pid f (e ▸ hg) hfnd)
        obtain ⟨h1, h2, h3⟩ := hinv.hfind p g hg
        refine ⟨h1, by rw [hpgo g hgf]; exact h2, ?_⟩
        rw [List.mem_append, List.mem_singleton]
        rintro (hc | hc)
        · exact h3 hc
        · exact hgf hc
    · intro g hgmem
      rw [List.mem_append, List.mem_singleton] at hgmem
      rcases hgmem with hgm | rfl
      · obtain ⟨h1, h2, h3, h4⟩ := hinv.hfree g hgm
        have hgf : g ≠ f := fun e => hffree (e ▸ hgm)
        exact ⟨h1, by rw [hpgo g hgf]; exact h2, by rw [hpgo g hgf]; exact h3,
          by rw [removeF_flag_other _ (fun e => hgf e.symm)]; exact h4⟩
      · refine ⟨hflt, ?_, ?_, removeF_flag_self _ _⟩
        · rw [hpgf]
          rfl
        · rw [hpgf]
          rfl
    · intro g hflag
      by_cases hgf : g = f
      · subst hgf
        rw [removeF_flag_self] at hflag
        cases hflag
      · rw [removeF_flag_other _ (fun e => hgf e.symm)] at hflag
        obtain ⟨h1, h2⟩ := hinv.hev g hflag
        exact ⟨by rw [hpgo g hgf]; exact h1, by rw [hpgo g hgf]; exact h2⟩
    · intro g hlt hnmem hpz
      rw [List.mem_append, List.mem_singleton] at hnmem
      push_neg at hnmem
      obtain ⟨hnm1, hgf⟩ := hnmem
      rw [hpgo g hgf] at hpz
      rw [removeF_flag_other _ (fun e => hgf e.symm)]
      exact hinv.hzero g hlt hnm1 hpz
    · intro p q g hp hq
      by_cases hpp : p = pid
      · subst hpp
        rw [hrnone] at hp
        cases hp
      · by_cases hqq : q = pid
        · subst hqq
          rw [hrnone] at hq
          cases hq
        · rw [hrother p hpp] at hp
          rw [hrother q hqq] at hq
          exact hinv.hinj p q g hp hq

/-- Every reachable state of the pool satisfies the invariant bundle. -/
theorem reach_inv {ps k bs : Nat} {s : BPM} (h : Reach ps k bs s) :
    Inv ps s := by
  induction h with
  | init => exact inv_init ps k bs
  | newPg _ hstep ih => exact inv_newPg ih hstep
  | fetchPg _ hstep ih => exact inv_fetchPg ih hstep
  | unpinPg _ ih => exact inv_unpin _ _ ih
  | flushPg _ ih => exact inv_flushPg _ ih
  | flushAll _ ih => exact inv_flushAll ih
  | deletePg _ ih => exact inv_deletePg _ ih

/-! ## The allocation-sound layer: reachability under the intended API,
where `FetchPgImp` is only called with identifiers already handed out by
`AllocatePage` (`page_id < next_page_id_`). -/

/-- `Inv` strengthened with allocation soundness: identifiers at or above
the allocation counter occur nowhere, and every resident frame's
`page_id_` maps back to that frame in the directory. -/
structure InvS (ps : Nat) (s : BPM) extends Inv ps s : Prop where
  halloc : ∀ p, s.nextPageId ≤ p → s.pageTable.find p = none ∧
    ∀ g, g < ps → (s.pages.getD g default).pageId ≠ some p
  hres : ∀ g, g < ps → ∀ p, (s.pages.getD g default).pageId = some p →
    s.pageTable.find p = some g

theorem acquire_ok_safe {ps : Nat} {s sA : BPM} {f : Nat} {ev : List Ev}
    (hinv : Inv ps s)
    (halloc : ∀ p, s.nextPageId ≤ p → s.pageTable.find p = none ∧
      ∀ g, g < ps → (s.pages.getD g default).pageId ≠ some p)
    (hres : ∀ g, g < ps → ∀ p, (s.pages.getD g default).pageId = some p →
      s.pageTable.find p = some g)
    (hacq : s.acquire = .ok f sA ev) :
    (∀ p, sA.nextPageId ≤ p → sA.pageTable.find p = none ∧
      ∀ g, g < ps → (sA.pages.getD g default).pageId ≠ some p) ∧
    (∀ g, g < ps → g ≠ f → ∀ p, (sA.pages.getD g default).pageId = some p →
      sA.pageTable.find p = some g) := by
  rcases acquire_cases s with ⟨f, rest, hfl, heq⟩ | ⟨hfl, f, rep, hev0, heq⟩ |
    ⟨_, _, heq⟩
  · rw [heq] at hacq
    cases hacq
    exact ⟨fun p hp => halloc p hp, fun g hg _ p hpg => hres g hg p hpg⟩
  · rw [heq] at hacq
    cases hacq
    obtain ⟨hflag, -⟩ := evict_some hev0
    have hflt0 : f < ps := hinv.hrlen ▸ evictFlag_lt hflag
    have hflen0 : f < s.pages.length := hinv.hlen ▸ hflt0
    have hTA : (BPM.evictMut { s with replacer := rep } f).1.pageTable =
        tableRemoveOpt s.pageTable (s.pages.getD f default).pageId := rfl
    have hPA : (BPM.evictMut { s with replacer := rep } f).1.pages =
        s.pages.set f { s.pages.getD f default with isDirty := false, data := 0 } := rfl
    have hNA : (BPM.evictMut { s with replacer := rep } f).1.nextPageId =
        s.nextPageId := rfl
    have hpgf : (s.pages.set f { s.pages.getD f default with isDirty := false, data := 0 }).getD f default = { s.pages.getD f default with isDirty := false, data := 0 } :=
      getD_set_self _ _ _ _ hflen0
    have hpgo : ∀ g, g ≠ f → (s.pages.set f { s.pages.getD f default with isDirty := false, data := 0 }).getD g default = s.pages.getD g default :=
      fun g hg => getD_set_other _ _ _ _ _ (fun e => hg e.symm)
    rcases hpid : (s.pages.getD f default).pageId with _ | vp
    · have hTA2 : (BPM.evictMut { s with replacer := rep } f).1.pageTable =
          s.pageTable := by
        rw [hTA, hpid]
        rfl
      constructor
      · intro p hp
        rw [hNA] at hp
        refine ⟨by rw [hTA2]; exact (halloc p hp).1, ?_⟩
        intro g hg
        rw [hPA]
        by_cases hgf : g = f
        · subst hgf
          rw [hpgf]
          show (s.pages.getD g default).pageId ≠ some p
          exact (halloc p hp).2 g hg
        · rw [hpgo g hgf]
          exact (halloc p hp).2 g hg
      · intro g hg hgf p hpg
        rw [hPA, hpgo g hgf] at hpg
        rw [hTA2]
        exact hres g hg p hpg
    · have hresf0 : s.pageTable.find vp = some f := hres f hflt0 vp hpid
      obtain ⟨-, -, hrfindk, hrfindne, -⟩ := remove_spec hinv.htwf vp
      have hTA2 : (BPM.evictMut { s with replacer := rep } f).1.pageTable =
          (s.pageTable.remove vp).2 := by
        rw [hTA, hpid]
        rfl
      constructor
      · intro p hp
        rw [hNA] at hp
        constructor
        · rw [hTA2]
          by_cases hpv : p = vp
          · subst hpv
            exact hrfindk
          · rw [hrfindne p hpv]
            exact (halloc p hp).1
        · intro g hg
          rw [hPA]
          by_cases hgf : g = f
          · subst hgf
            rw [hpgf]
            show (s.pages.getD g default).pageId ≠ some p
            exact (halloc p hp).2 g hg
          · rw [hpgo g hgf]
            exact (halloc p hp).2 g hg
      · intro g hg hgf p hpg
        rw [hPA, hpgo g hgf] at hpg
        have hs : s.pageTable.find p = some g := hres g hg p hpg
        have hpv : p ≠ vp := by
          intro hc
          subst hc
          rw [hresf0] at hs
          exact hgf (Option.some.inj hs).symm
        rw [hTA2, hrfindne p hpv]
        exact hs
  · rw [heq] at hacq
    cases hacq

theorem allocres_newPg {ps : Nat} {s s' : BPM} {fuel : Nat}
    {r : Option (Nat × Nat)} {ev : List Ev} (hinv : InvS ps s)
    (h : s.newPg fuel = some (r, s', ev)) :
    (∀ p, s'.nextPageId ≤ p → s'.pageTable.find p = none ∧
      ∀ g, g < ps → (s'.pages.getD g default).pageId ≠ some p) ∧
    (∀ g, g < ps → ∀ p, (s'.pages.getD g default).pageId = some p →
      s'.pageTable.find p = some g) := by
  rcases newPg_some h with ⟨_, hout⟩ | ⟨hnp, f, sA, ev', tbl, hacq, hins, hout⟩ |
    ⟨hnp, sA, ev', hacq, hout⟩
  · rw [Prod.mk.injEq, Prod.mk.injEq] at hout
    obtain ⟨-, rfl, -⟩ := hout
    exact ⟨hinv.halloc, hinv.hres⟩
  · rw [Prod.mk.injEq, Prod.mk.injEq] at hout
    obtain ⟨-, rfl, -⟩ := hout
    have A := inv_acquire_ok hinv.toInv hacq
    obtain ⟨hallocA, hresA⟩ := acquire_ok_safe hinv.toInv hinv.halloc hinv.hres hacq
    obtain ⟨-, hfpid, hfne, -⟩ := insert_spec A.htwf hins
    have hflen : f < sA.pages.length := A.hlen ▸ A.hflt
    have hpgf : (sA.pages.set f { sA.pages.getD f default with pageId := some sA.nextPageId, pinCount := 1 }).getD f default = { sA.pages.getD f default with pageId := some sA.nextPageId, pinCount := 1 } :=
      getD_set_self _ _ _ _ hflen
    have hpgo : ∀ g, g ≠ f → (sA.pages.set f { sA.pages.getD f default with pageId := some sA.nextPageId, pinCount := 1 }).getD g default = sA.pages.getD g default :=
      fun g hg => getD_set_other _ _ _ _ _ (fun e => hg e.symm)
    dsimp only [] at hpgf hpgo ⊢
    constructor
    · intro p hp
      have hppid : p ≠ sA.nextPageId := by omega
      refine ⟨by rw [hfne p hppid]; exact (hallocA p (by omega)).1, ?_⟩
      intro g hg
      by_cases hgf : g = f
      · subst hgf
        rw [hpgf]
        intro hc
        exact hppid (Option.some.inj hc).symm
      · rw [hpgo g hgf]
        exact (hallocA p (by omega)).2 g hg
    · intro g hg p hpg
      by_cases hgf : g = f
      · subst hgf
        rw [hpgf] at hpg
        have hppid : sA.nextPageId = p := Option.some.inj hpg
        subst hppid
        exact hfpid
      · rw [hpgo g hgf] at hpg
        have hs : sA.pageTable.find p = some g := hresA g hg hgf p hpg
        have hppid : p ≠ sA.nextPageId := by
          intro hc
          rw [hc] at hs
          rw [(hallocA sA.nextPageId (Nat.le_refl _)).1] at hs
          cases hs
        rw [hfne p hppid]
        exact hs
  · exact (acquire_fail_impossible hinv.toInv hnp hacq).elim

theorem allocres_fetchPg {ps : Nat} {s s' : BPM} {pid fuel : Nat}
    {r : Option Nat} {ev : List Ev} (hinv : InvS ps s)
    (hlt : pid < s.nextPageId)
    (h : s.fetchPg pid fuel = some (r, s', ev)) :
    (∀ p, s'.nextPageId ≤ p → s'.pageTable.find p = none ∧
      ∀ g, g < ps → (s'.pages.getD g default).pageId ≠ some p) ∧
    (∀ g, g < ps → ∀ p, (s'.pages.getD g default).pageId = some p →
      s'.pageTable.find p = some g) := by
  rcases fetchPg_some h with ⟨_, hout⟩ | ⟨hnp, f, hfnd, hout⟩ |
    ⟨hnp, hmiss, f, sA, ev', tbl, hacq, hins, hout⟩ | ⟨hnp, hmiss, sA, ev', hacq, hout⟩
  · rw [Prod.mk.injEq, Prod.mk.injEq] at hout
    obtain ⟨-, rfl, -⟩ := hout
    exact ⟨hinv.halloc, hinv.hres⟩
  · rw [Prod.mk.injEq, Prod.mk.injEq] at hout
    obtain ⟨-, rfl, -⟩ := hout
    obtain ⟨hflt, -, -⟩ := hinv.hfind pid f hfnd
    have hflen : f < s.pages.length := hinv.hlen ▸ hflt
    have hpgf : (s.pages.set f { s.pages.getD f default with pinCount := (s.pages.getD f default).pinCount + 1 }).getD f default = { s.pages.getD f default with pinCount := (s.pages.getD f default).pinCount + 1 } :=
      getD_set_self _ _ _ _ hflen
    have hpgo : ∀ g, g ≠ f → (s.pages.set f { s.pages.getD f default with pinCount := (s.pages.getD f default).pinCount + 1 }).getD g default = s.pages.getD g default :=
      fun g hg => getD_set_other _ _ _ _ _ (fun e => hg e.symm)
    dsimp only [] at hpgf hpgo ⊢
    constructor
    · intro p hp
      refine ⟨(hinv.halloc p hp).1, ?_⟩
      intro g hg
      by_cases hgf : g = f
      · subst hgf
        rw [hpgf]
        exact (hinv.halloc p hp).2 g hg
      · rw [hpgo g hgf]
        exact (hinv.halloc p hp).2 g hg
    · intro g hg p hpg
      by_cases hgf : g = f
      · subst hgf
        rw [hpgf] at hpg
        exact hinv.hres g hg p hpg
      · rw [hpgo g hgf] at hpg
        exact hinv.hres g hg p hpg
  · rw [Prod.mk.injEq, Prod.mk.injEq] at hout
    obtain ⟨-, rfl, -⟩ := hout
    have A := inv_acquire_ok hinv.toInv hacq
    obtain ⟨hallocA, hresA⟩ := acquire_ok_safe hinv.toInv hinv.halloc hinv.hres hacq
    obtain ⟨-, hfpid, hfne, -⟩ := insert_spec A.htwf hins
    have hflen : f < sA.pages.length := A.hlen ▸ A.hflt
    have hmissA : sA.pageTable.find pid = none := by
      rcases hq : sA.pageTable.find pid with _ | x
      · rfl
      · have hc := A.hfindsub pid x hq
        rw [hmiss] at hc
        cases hc
    have hpages : ((sA.pages.set f { sA.pages.getD f default with pageId := some pid, pinCount := (sA.pages.getD f default).pinCount + 1 }).set f { (sA.pages.set f { sA.pages.getD f default with pageId := some pid, pinCount := (sA.pages.getD f default).pinCount + 1 }).getD f default with data := sA.disk pid }) = sA.pages.set f { sA.pages.getD f default with pageId := some pid, pinCount := (sA.pages.getD f default).pinCount + 1, data := sA.disk pid } := by
      rw [List.set_set, getD_set_self _ _ _ _ hflen]
    have hpgf : (sA.pages.set f { sA.pages.getD f default with pageId := some pid, pinCount := (sA.pages.getD f default).pinCount + 1, data := sA.disk pid }).getD f default = { sA.pages.getD f default with pageId := some pid, pinCount := (sA.pages.getD f default).pinCount + 1, data := sA.disk pid } :=
      getD_set_self _ _ _ _ hflen
    have hpgo : ∀ g, g ≠ f → (sA.pages.set f { sA.pages.getD f default with pageId := some pid, pinCount := (sA.pages.getD f default).pinCount + 1, data := sA.disk pid }).getD g default = sA.pages.getD g default :=
      fun g hg => getD_set_other _ _ _ _ _ (fun e => hg e.symm)
    have hnextA : sA.nextPageId = s.nextPageId := A.hnext
    dsimp only [] at hpages hpgf hpgo ⊢
    rw [hpages]
    constructor
    · intro p hp
      have hppid : p ≠ pid := by omega
      refine ⟨by rw [hfne p hppid]; exact (hallocA p hp).1, ?_⟩
      intro g hg
      by_cases hgf : g = f
      · subst hgf
        rw [hpgf]
        intro hc
        exact hppid (Option.some.inj hc).symm
      · rw [hpgo g hgf]
        exact (hallocA p hp).2 g hg
    · intro g hg p hpg
      by_cases hgf : g = f
      · subst hgf
        rw [hpgf] at hpg
        have hppid : pid = p := Option.some.inj hpg
        subst hppid
        exact hfpid
      · rw [hpgo g hgf] at hpg
        have hs : sA.pageTable.find p = some g := hresA g hg hgf p hpg
        have hppid : p ≠ pid := by
          intro hc
          subst hc
          rw [hmissA] at hs
          cases hs
        rw [hfne p hppid]
        exact hs
  · exact (acquire_fail_impossible hinv.toInv hnp hacq).elim

theorem allocres_unpin {ps : Nat} {s : BPM} (pid : Nat) (d : Bool)
    (hinv : InvS ps s) :
    (∀ p, (s.unpinPg pid d).2.nextPageId ≤ p →
      (s.unpinPg pid d).2.pageTable.find p = none ∧
      ∀ g, g < ps → ((s.unpinPg pid d).2.pages.getD g default).pageId ≠ some p) ∧
    (∀ g, g < ps → ∀ p, ((s.unpinPg pid d).2.pages.getD g default).pageId = some p →
      (s.unpinPg pid d).2.pageTable.find p = some g) := by
  have key : ∀ (f : Nat), s.pageTable.find pid = some f →
      (∀ p, s.nextPageId ≤ p →
        s.pageTable.find p = none ∧
        ∀ g, g < ps → ((s.pages.set f { s.pages.getD f default with isDirty := if d then true else (s.pages.getD f default).isDirty, pinCount := (s.pages.getD f default).pinCount - 1 }).getD g default).pageId ≠ some p) ∧
      (∀ g, g < ps → ∀ p, ((s.pages.set f { s.pages.getD f default with isDirty := if d then true else (s.pages.getD f default).isDirty, pinCount := (s.pages.getD f default).pinCount - 1 }).getD g default).pageId = some p →
        s.pageTable.find p = some g) := by
    intro f hfnd
    obtain ⟨hflt, -, -⟩ := hinv.hfind pid f hfnd
    have hflen : f < s.pages.length := hinv.hlen ▸ hflt
    have hpgf : (s.pages.set f { s.pages.getD f default with isDirty := if d then true else (s.pages.getD f default).isDirty, pinCount := (s.pages.getD f default).pinCount - 1 }).getD f default = { s.pages.getD f default with isDirty := if d then true else (s.pages.getD f default).isDirty, pinCount := (s.pages.getD f default).pinCount - 1 } :=
      getD_set_self _ _ _ _ hflen
    have hpgo : ∀ g, g ≠ f → (s.pages.set f { s.pages.getD f default with isDirty := if d then true else (s.pages.getD f default).isDirty, pinCount := (s.pages.getD f default).pinCount - 1 }).getD g default = s.pages.getD g default :=
      fun g hg => getD_set_other _ _ _ _ _ (fun e => hg e.symm)
    constructor
    · intro p hp
      refine ⟨(hinv.halloc p hp).1, ?_⟩
      intro g hg
      by_cases hgf : g = f
      · subst hgf
        rw [hpgf]
        exact (hinv.halloc p hp).2 g hg
      · rw [hpgo g hgf]
        exact (hinv.halloc p hp).2 g hg
    · intro g hg p hpg
      by_cases hgf : g = f
      · subst hgf
        rw [hpgf] at hpg
        exact hinv.hres g hg p hpg
      · rw [hpgo g hgf] at hpg
        exact hinv.hres g hg p hpg
  rcases unpin_cases s pid d with ⟨-, heq⟩ | ⟨f, -, -, heq⟩ |
    ⟨f, hfnd, -, -, heq⟩ | ⟨f, hfnd, -, -, heq⟩
  · rw [heq]
    exact ⟨hinv.halloc, hinv.hres⟩
  · rw [heq]
    exact ⟨hinv.halloc, hinv.hres⟩
  · rw [heq]
    exact key f hfnd
  · rw [heq]
    exact key f hfnd

theorem allocres_flushPg {ps : Nat} {s : BPM} (pid : Option Nat)
    (hinv : InvS ps s) :
    (∀ p, (s.flushPg pid).2.1.nextPageId ≤ p →
      (s.flushPg pid).2.1.pageTable.find p = none ∧
      ∀ g, g < ps → ((s.flushPg pid).2.1.pages.getD g default).pageId ≠ some p) ∧
    (∀ g, g < ps → ∀ p, ((s.flushPg pid).2.1.pages.getD g default).pageId = some p →
      (s.flushPg pid).2.1.pageTable.find p = some g) := by
  rcases flush_cases s pid with ⟨-, heq⟩ | ⟨p, -, -, heq⟩ | ⟨p, f, -, -, heq⟩
  · rw [heq]
    exact ⟨hinv.halloc, hinv.hres⟩
  · rw [heq]
    exact ⟨hinv.halloc, hinv.hres⟩
  · rw [heq]
    exact ⟨hinv.halloc, hinv.hres⟩

theorem allocres_deletePg {ps : Nat} {s : BPM} (pid : Nat)
    (hinv : InvS ps s) :
    (∀ p, (s.deletePg pid).2.nextPageId ≤ p →
      (s.deletePg pid).2.pageTable.find p = none ∧
      ∀ g, g < ps → ((s.deletePg pid).2.pages.getD g default).pageId ≠ some p) ∧
    (∀ g, g < ps → ∀ p, ((s.deletePg pid).2.pages.getD g default).pageId = some p →
      (s.deletePg pid).2.pageTable.find p = some g) := by
  rcases delete_cases s pid with ⟨-, heq⟩ | ⟨f, -, -, heq⟩ | ⟨f, hfnd, -, heq⟩
  · rw [heq]
    exact ⟨hinv.halloc, hinv.hres⟩
  · rw [heq]
    exact ⟨hinv.halloc, hinv.hres⟩
  · rw [heq]
    obtain ⟨hflt, -, -⟩ := hinv.hfind pid f hfnd
    have hflen : f < s.pages.length := hinv.hlen ▸ hflt
    obtain ⟨-, -, hrnone, hrother, -⟩ := remove_spec hinv.htwf pid
    have hpgf : (s.pages.set f default).getD f default = default :=
      getD_set_self _ _ _ _ hflen
    have hpgo : ∀ g, g ≠ f → (s.pages.set f default).getD g default = s.pages.getD g default :=
      fun g hg => getD_set_other _ _ _ _ _ (fun e => hg e.symm)
    dsimp only [] at hpgf hpgo ⊢
    constructor
    · intro p hp
      constructor
      · by_cases hpp : p = pid
        · subst hpp
          exact hrnone
        · rw [hrother p hpp]
          exact (hinv.halloc p hp).1
      · intro g hg
        by_cases hgf : g = f
        · subst hgf
          rw [hpgf]
          exact fun hc => Option.noConfusion hc
        · rw [hpgo g hgf]
          exact (hinv.halloc p hp).2 g hg
    · intro g hg p hpg
      by_cases hgf : g = f
      · subst hgf
        rw [hpgf] at hpg
        exact Option.noConfusion hpg
      · rw [hpgo g hgf] at hpg
        have hs : s.pageTable.find p = some g := hinv.hres g hg p hpg
        have hpp : p ≠ pid := by
          intro hc
          subst hc
          rw [hfnd] at hs
          exact hgf (Option.some.inj hs).symm
        rw [hrother p hpp]
        exact hs

theorem invS_newPg {ps : Nat} {s s' : BPM} {fuel : Nat}
    {r : Option (Nat × Nat)} {ev : List Ev} (hinv : InvS ps s)
    (h : s.newPg fuel = some (r, s', ev)) : InvS ps s' :=
  ⟨inv_newPg hinv.toInv h, (allocres_newPg hinv h).1, (allocres_newPg hinv h).2⟩

theorem invS_fetchPg {ps : Nat} {s s' : BPM} {pid fuel : Nat}
    {r : Option Nat} {ev : List Ev} (hinv : InvS ps s)
    (hlt : pid < s.nextPageId)
    (h : s.fetchPg pid fuel = some (r, s', ev)) : InvS ps s' :=
  ⟨inv_fetchPg hinv.toInv h, (allocres_fetchPg hinv hlt h).1,
    (allocres_fetchPg hinv hlt h).2⟩

theorem invS_unpin {ps : Nat} {s : BPM} (pid : Nat) (d : Bool)
    (hinv : InvS ps s) : InvS ps (s.unpinPg pid d).2 :=
  ⟨inv_unpin pid d hinv.toInv, (allocres_unpin pid d hinv).1,
    (allocres_unpin pid d hinv).2⟩

theorem invS_flushPg {ps : Nat} {s : BPM} (pid : Option Nat)
    (hinv : InvS ps s) : InvS ps (s.flushPg pid).2.1 :=
  ⟨inv_flushPg pid hinv.toInv, (allocres_flushPg pid hinv).1,
    (allocres_flushPg pid hinv).2⟩

theorem invS_deletePg {ps : Nat} {s : BPM} (pid : Nat)
    (hinv : InvS ps s) : InvS ps (s.deletePg pid).2 :=
  ⟨inv_deletePg pid hinv.toInv, (allocres_deletePg pid hinv).1,
    (allocres_deletePg pid hinv).2⟩

theorem invS_flushAll {ps : Nat} {s : BPM} (hinv : InvS ps s) :
    InvS ps s.flushAll.1 := by
  have key : ∀ (l : List Nat) (pr : BPM × List Ev), InvS ps pr.1 →
      InvS ps ((l.foldl
        (fun pr i =>
          let r := pr.1.flushPg ((pr.1.pages.getD i default).pageId)
          (r.2.1, pr.2 ++ r.2.2)) pr).1) := by
    intro l
    induction l with
    | nil => exact fun pr h => h
    | cons i t ih => exact fun pr h => ih _ (invS_flushPg _ h)
  exact key (List.range s.poolSize) (s, []) hinv

/-- Reachability under the intended client protocol: `FetchPgImp` is only
called with identifiers already handed out by `AllocatePage`. -/
inductive ReachSafe (ps k bs : Nat) : BPM → Prop where
  | init : ReachSafe ps k bs (bpmInit ps k bs)
  | newPg {s s' : BPM} {fuel : Nat} {r : Option (Nat × Nat)} {ev : List Ev} :
      ReachSafe ps k bs s → s.newPg fuel = some (r, s', ev) →
      ReachSafe ps k bs s'
  | fetchPg {s s' : BPM} {pid fuel : Nat} {r : Option Nat} {ev : List Ev} :
      ReachSafe ps k bs s → pid < s.nextPageId →
      s.fetchPg pid fuel = some (r, s', ev) → ReachSafe ps k bs s'
  | unpinPg {s : BPM} {pid : Nat} {d : Bool} :
      ReachSafe ps k bs s → ReachSafe ps k bs (s.unpinPg pid d).2
  | flushPg {s : BPM} {pid : Option Nat} :
      ReachSafe ps k bs s → ReachSafe ps k bs (s.flushPg pid).2.1
  | flushAll {s : BPM} :
      ReachSafe ps k bs s → ReachSafe ps k bs s.flushAll.1
  | deletePg {s : BPM} {pid : Nat} :
      ReachSafe ps k bs s → ReachSafe ps k bs (s.deletePg pid).2

theorem reachSafe_reach {ps k bs : Nat} {s : BPM} (h : ReachSafe ps k bs s) :
    Reach ps k bs s := by
  induction h with
  | init => exact Reach.init
  | newPg _ hstep ih => exact Reach.newPg ih hstep
  | fetchPg _ _ hstep ih => exact Reach.fetchPg ih hstep
  | unpinPg _ ih => exact Reach.unpinPg ih
  | flushPg _ ih => exact Reach.flushPg ih
  | flushAll _ ih => exact Reach.flushAll ih
  | deletePg _ ih => exact Reach.deletePg ih

theorem invS_init (ps k bs : Nat) : InvS ps (bpmInit ps k bs) := by
  refine ⟨inv_init ps k bs, ?_, ?_⟩
  · intro p _
    refine ⟨find_init bs p, ?_⟩
    intro g _
    show ((List.replicate ps (default : Page)).getD g default).pageId ≠ some p
    rw [getD_replicate_default]
    exact fun hc => Option.noConfusion hc
  · intro g _ p hpg
    have hc : ((List.replicate ps (default : Page)).getD g default).pageId = some p := hpg
    rw [getD_replicate_default] at hc
    exact Option.noConfusion hc

/-- Every state reachable under the intended protocol satisfies the
allocation-sound invariant. -/
theorem reachSafe_invS {ps k bs : Nat} {s : BPM} (h : ReachSafe ps k bs s) :
    InvS ps s := by
  induction h with
  | init => exact invS_init ps k bs
  | newPg _ hstep ih => exact invS_newPg ih hstep
  | fetchPg _ hlt hstep ih => exact invS_fetchPg ih hlt hstep
  | unpinPg _ ih => exact invS_unpin _ _ ih
  | flushPg _ ih => exact invS_flushPg _ ih
  | flushAll _ ih => exact invS_flushAll ih
  | deletePg _ ih => exact invS_deletePg _ ih

/-! ## Page-identifier monotonicity along any continuation -/

/-- Execution continuing from a given state by any of the six operations. -/
inductive ReachFrom (s0 : BPM) : BPM → Prop where
  | refl : ReachFrom s0 s0
  | newPg {s s' : BPM} {fuel : Nat} {r : Option (Nat × Nat)} {ev : List Ev} :
      ReachFrom s0 s → s.newPg fuel = some (r, s', ev) → ReachFrom s0 s'
  | fetchPg {s s' : BPM} {pid fuel : Nat} {r : Option Nat} {ev : List Ev} :
      ReachFrom s0 s → s.fetchPg pid fuel = some (r, s', ev) → ReachFrom s0 s'
  | unpinPg {s : BPM} {pid : Nat} {d : Bool} :
      ReachFrom s0 s → ReachFrom s0 (s.unpinPg pid d).2
  | flushPg {s : BPM} {pid : Option Nat} :
      ReachFrom s0 s → ReachFrom s0 (s.flushPg pid).2.1
  | flushAll {s : BPM} :
      ReachFrom s0 s → ReachFrom s0 s.flushAll.1
  | deletePg {s : BPM} {pid : Nat} :
      ReachFrom s0 s → ReachFrom s0 (s.deletePg pid).2

theorem acquire_ok_next {s sA : BPM} {f : Nat} {ev : List Ev}
    (hacq : s.acquire = .ok f sA ev) : sA.nextPageId = s.nextPageId := by
  rcases acquire_cases s with ⟨f0, rest, _, heq⟩ | ⟨_, f0, rep, _, heq⟩ |
    ⟨_, _, heq⟩ <;> rw [heq] at hacq <;> cases hacq <;> rfl

theorem acquire_fail_next {s sA : BPM} {ev : List Ev}
    (hacq : s.acquire = .fail sA ev) : sA.nextPageId = s.nextPageId := by
  rcases acquire_cases s with ⟨f0, rest, _, heq⟩ | ⟨_, f0, rep, _, heq⟩ |
    ⟨_, _, heq⟩ <;> rw [heq] at hacq
  · cases hacq
  · cases hacq
  · cases hacq
    rfl

theorem newPg_next {s s' : BPM} {fuel : Nat} {r : Option (Nat × Nat)}
    {ev : List Ev} (h : s.newPg fuel = some (r, s', ev)) :
    s.nextPageId ≤ s'.nextPageId := by
  rcases newPg_some h with ⟨_, hout⟩ | ⟨_, f, sA, ev', tbl, hacq, _, hout⟩ |
    ⟨_, sA, ev', hacq, hout⟩ <;> rw [Prod.mk.injEq, Prod.mk.injEq] at hout
  · obtain ⟨-, rfl, -⟩ := hout
    exact Nat.le_refl _
  · obtain ⟨-, rfl, -⟩ := hout
    show s.nextPageId ≤ sA.nextPageId + 1
    rw [acquire_ok_next hacq]
    exact Nat.le_succ _
  · obtain ⟨-, rfl, -⟩ := hout
    rw [acquire_fail_next hacq]

theorem fetchPg_next {s s' : BPM} {pid fuel : Nat} {r : Option Nat}
    {ev : List Ev} (h : s.fetchPg pid fuel = some (r, s', ev)) :
    s'.nextPageId = s.nextPageId := by
  rcases fetchPg_some h with ⟨_, hout⟩ | ⟨_, f, _, hout⟩ |
    ⟨_, _, f, sA, ev', tbl, hacq, _, hout⟩ | ⟨_, _, sA, ev', hacq, hout⟩ <;>
    rw [Prod.mk.injEq, Prod.mk.injEq] at hout
  · obtain ⟨-, rfl, -⟩ := hout
    rfl
  · obtain ⟨-, rfl, -⟩ := hout
    rfl
  · obtain ⟨-, rfl, -⟩ := hout
    exact (acquire_ok_next hacq : sA.nextPageId = s.nextPageId)
  · obtain ⟨-, rfl, -⟩ := hout
    exact acquire_fail_next hacq

theorem unpin_next (s : BPM) (pid : Nat) (d : Bool) :
    (s.unpinPg pid d).2.nextPageId = s.nextPageId := by
  rcases unpin_cases s pid d with ⟨-, heq⟩ | ⟨f, -, -, heq⟩ |
    ⟨f, -, -, -, heq⟩ | ⟨f, -, -, -, heq⟩ <;> rw [heq]

theorem flushPg_next (s : BPM) (pid : Option Nat) :
    (s.flushPg pid).2.1.nextPageId = s.nextPageId := by
  rcases flush_cases s pid with ⟨-, heq⟩ | ⟨p, -, -, heq⟩ | ⟨p, f, -, -, heq⟩ <;>
    rw [heq]

theorem delete_next (s : BPM) (pid : Nat) :
    (s.deletePg pid).2.nextPageId = s.nextPageId := by
  rcases delete_cases s pid with ⟨-, heq⟩ | ⟨f, -, -, heq⟩ | ⟨f, -, -, heq⟩ <;>
    rw [heq]

theorem flushAll_next (s : BPM) : s.flushAll.1.nextPageId = s.nextPageId := by
  have key : ∀ (l : List Nat) (pr : BPM × List Ev),
      ((l.foldl
        (fun pr i =>
          let r := pr.1.flushPg ((pr.1.pages.getD i default).pageId)
          (r.2.1, pr.2 ++ r.2.2)) pr).1).nextPageId = pr.1.nextPageId := by
    intro l
    induction l with
    | nil => exact fun pr => rfl
    | cons i t ih =>
      intro pr
      rw [List.foldl_cons, ih]
      exact flushPg_next _ _
  exact key (List.range s.poolSize) (s, [])

/-- The allocation counter never decreases along any continuation. -/
theorem reachFrom_next_mono {s0 s : BPM} (h : ReachFrom s0 s) :
    s0.nextPageId ≤ s.nextPageId := by
  induction h with
  | refl => exact Nat.le_refl _
  | newPg _ hstep ih => exact Nat.le_trans ih (newPg_next hstep)
  | fetchPg _ hstep ih =>
      exact Nat.le_trans ih (Nat.le_of_eq (fetchPg_next hstep).symm)
  | unpinPg _ ih => exact Nat.le_trans ih (Nat.le_of_eq (unpin_next _ _ _).symm)
  | flushPg _ ih => exact Nat.le_trans ih (Nat.le_of_eq (flushPg_next _ _).symm)
  | flushAll _ ih => exact Nat.le_trans ih (Nat.le_of_eq (flushAll_next _).symm)
  | deletePg _ ih => exact Nat.le_trans ih (Nat.le_of_eq (delete_next _ _).symm)

/-- A successful `NewPgImp` hands out exactly the current allocation
counter. -/
theorem newPg_pid {s s' : BPM} {fuel : Nat} {pr : Nat × Nat} {ev : List Ev}
    (h : s.newPg fuel = some (some pr, s', ev)) : pr.1 = s.nextPageId := by
  rcases newPg_some h with ⟨_, hout⟩ | ⟨_, f, sA, ev', tbl, hacq, _, hout⟩ |
    ⟨_, sA, ev', hacq, hout⟩ <;> rw [Prod.mk.injEq, Prod.mk.injEq] at hout
  · exact absurd hout.1 (fun hc => Option.noConfusion hc)
  · obtain ⟨h1, -, -⟩ := hout
    rw [Option.some.inj h1]
    exact acquire_ok_next hacq
  · exact absurd hout.1 (fun hc => Option.noConfusion hc)

theorem removeF_entry {r : LRUK} {f : Nat} (h : f < r.frames.length) :
    (r.removeF f).frames.getD f default = default := by
  simp only [LRUK.removeF]
  exact getD_set_self _ _ _ _ h

/-! ## Concrete runs used as witnesses and counterexamples -/

/-- Pool of one frame after `NewPgImp` (page 0 resident in frame 0,
pinned). -/
def bpmA : BPM := (((bpmInit 1 1 2).newPg 9).getD (none, bpmInit 1 1 2, [])).2.1

/-- Pool of two frames after `FetchPgImp(0)` called on a fresh pool
(page id 0 was never allocated). -/
def bpmB1 : BPM :=
  (((bpmInit 2 1 2).fetchPg 0 9).getD (none, bpmInit 2 1 2, [])).2.1

/-- `bpmB1` followed by `NewPgImp`, which allocates page id 0 again. -/
def bpmB2 : BPM := ((bpmB1.newPg 9).getD (none, bpmB1, [])).2.1

/-- `bpmA` after `UnpinPgImp(0, true)`: page 0 resident, unpinned, dirty,
evictable; free list empty. -/
def bpmC : BPM := (bpmA.unpinPg 0 true).2

theorem reach_bpmA : Reach 1 1 2 bpmA :=
  Reach.newPg Reach.init
    (show (bpmInit 1 1 2).newPg 9 = some (some (0, 0), bpmA, []) from rfl)

theorem reachSafe_bpmA : ReachSafe 1 1 2 bpmA :=
  ReachSafe.newPg ReachSafe.init
    (show (bpmInit 1 1 2).newPg 9 = some (some (0, 0), bpmA, []) from rfl)

theorem reach_bpmB2 : Reach 2 1 2 bpmB2 :=
  Reach.newPg
    (Reach.fetchPg Reach.init
      (show (bpmInit 2 1 2).fetchPg 0 9 = some (some 0, bpmB1, [Ev.read 0])
        from rfl))
    (show bpmB1.newPg 9 = some (some (0, 1), bpmB2, []) from rfl)

theorem reach_bpmC : Reach 1 1 2 bpmC := Reach.unpinPg reach_bpmA

theorem reachSafe_bpmC : ReachSafe 1 1 2 bpmC := ReachSafe.unpinPg reachSafe_bpmA

/-! ## The claims -/

/-- C1: a `NewPgImp`/`FetchPgImp` call that fails with no free frame
returns the state exactly as it was — free list, directory, tracker,
every frame's `page_id_`/dirty flag/bytes — and issues no disk write. -/
theorem C1_theorem {ps k bs : Nat} {s s' : BPM} {ev : List Ev}
    (hre : Reach ps k bs s)
    (h : (∃ fuel, s.newPg fuel = some (none, s', ev)) ∨
      (∃ pid fuel, s.fetchPg pid fuel = some (none, s', ev))) :
    s' = s ∧ ev = [] := by
  have hinv := reach_inv hre
  rcases h with ⟨fuel, h⟩ | ⟨pid, fuel, h⟩
  · rcases newPg_some h with ⟨-, hout⟩ | ⟨-, f, sA, ev', tbl, -, -, hout⟩ |
      ⟨hnp, sA, ev', hacq, -⟩
    · rw [Prod.mk.injEq, Prod.mk.injEq] at hout
      exact ⟨hout.2.1, hout.2.2⟩
    · rw [Prod.mk.injEq, Prod.mk.injEq] at hout
      exact absurd hout.1 (fun hc => Option.noConfusion hc)
    · exact (acquire_fail_impossible hinv hnp hacq).elim
  · rcases fetchPg_some h with ⟨-, hout⟩ | ⟨-, f, -, hout⟩ |
      ⟨-, -, f, sA, ev', tbl, -, -, hout⟩ | ⟨hnp, -, sA, ev', hacq, -⟩
    · rw [Prod.mk.injEq, Prod.mk.injEq] at hout
      exact ⟨hout.2.1, hout.2.2⟩
    · rw [Prod.mk.injEq, Prod.mk.injEq] at hout
      exact absurd hout.1 (fun hc => Option.noConfusion hc)
    · rw [Prod.mk.injEq, Prod.mk.injEq] at hout
      exact absurd hout.1 (fun hc => Option.noConfusion hc)
    · exact (acquire_fail_impossible hinv hnp hacq).elim

/-- The state and events produced by the failing `NewPgImp` call on the
all-pinned pool `bpmA`. -/
def bpmAfailSt : BPM := ((bpmA.newPg 9).getD (none, bpmA, [])).2.1

def bpmAfailEv : List Ev := ((bpmA.newPg 9).getD (none, bpmA, [])).2.2

/-- C1 witness: with one frame, after `NewPgImp` the pool is all pinned and
the next `NewPgImp` fails, returning the state unchanged and no events. -/
theorem C1_witness : bpmAfailSt = bpmA ∧ bpmAfailEv = [] :=
  C1_theorem reach_bpmA (Or.inl ⟨9, rfl⟩)

/-- C2: the claim fails on the code — in the reachable one-frame state
`bpmA`, page 0 IS mapped in the directory, yet `FetchPgImp(0)` returns the
no-free-frame failure because the `all_pinned` scan runs before the
directory lookup (buffer_pool_manager_instance.cpp:92-102). -/
theorem C2_theorem : Reach 1 1 2 bpmA ∧ bpmA.pageTable.find 0 = some 0 ∧
    bpmA.fetchPg 0 9 = some (none, bpmA, []) :=
  ⟨reach_bpmA, rfl, rfl⟩

/-- C9: `FlushPgImp` on the invalid id or a non-resident id returns false
and changes nothing; on a resident page it returns true and issues exactly
one write of the frame's bytes keyed by that page id, leaving everything
but the disk (in particular the dirty flag and pin count) unchanged. -/
theorem C9_theorem {ps k bs : Nat} {s : BPM} (hre : Reach ps k bs s)
    (p : Nat) :
    s.flushPg none = (false, s, []) ∧
    (s.pageTable.find p = none → s.flushPg (some p) = (false, s, [])) ∧
    (∀ f, s.pageTable.find p = some f →
      s.flushPg (some p) = (true,
        { s with disk := diskW s.disk (some p) ((s.pages.getD f default).data) },
        [Ev.write (some p) ((s.pages.getD f default).data)])) := by
  refine ⟨by simp only [BPM.flushPg], ?_, ?_⟩
  · intro hn
    simp only [BPM.flushPg, hn]
  · intro f hf
    obtain ⟨-, hpid, -⟩ := (reach_inv hre).hfind p f hf
    simp only [BPM.flushPg, hf, hpid]

/-- C9 witness: flushing resident page 0 of `bpmA` (pinned and clean)
succeeds with exactly one write keyed by page 0. -/
theorem C9_witness : bpmA.flushPg (some 0) = (true,
    { bpmA with disk := diskW bpmA.disk (some 0) ((bpmA.pages.getD 0 default).data) },
    [Ev.write (some 0) ((bpmA.pages.getD 0 default).data)]) :=
  (C9_theorem reach_bpmA 0).2.2 0 rfl

/-- C10: from every reachable state in which the eviction path is taken
(free list empty, pool not all pinned), `Evict` succeeds, its victim is a
real evictable frame of the pool, and the eviction-path mutations are
exactly the victim mutations at that frame; the no-victim branch never
runs. -/
theorem C10_theorem {ps k bs : Nat} {s : BPM} (hre : Reach ps k bs s)
    (hfl : s.freeList = []) (hnp : s.allPinned = false) :
    ∃ f rep, s.replacer.evict = some (f, rep) ∧ f < ps ∧
      s.replacer.evictFlag f = true ∧
      s.acquire = .ok f (BPM.evictMut { s with replacer := rep } f).1
        (BPM.evictMut { s with replacer := rep } f).2 := by
  have hinv := reach_inv hre
  rcases acquire_cases s with ⟨f0, rest, hfl0, heq⟩ | ⟨-, f0, rep, hev0, heq⟩ |
    ⟨-, hev0, heq⟩
  · rw [hfl] at hfl0
    cases hfl0
  · obtain ⟨hflag, -⟩ := evict_some hev0
    exact ⟨f0, rep, hev0, hinv.hrlen ▸ evictFlag_lt hflag, hflag, heq⟩
  · exfalso
    obtain ⟨f0, hlt, hpin⟩ := allPinned_false hnp
    have hflag : s.replacer.evictFlag f0 = true :=
      hinv.hzero f0 (hinv.hps ▸ hlt) (by rw [hfl]; exact List.not_mem_nil _) hpin
    rw [evict_none_flag hev0 f0] at hflag
    cases hflag

/-- C10 witness: in `bpmC` (free list empty, page 0 unpinned) `Evict`
returns frame 0 and the acquisition block mutates exactly that frame. -/
theorem C10_witness : bpmC.freeList = [] ∧ bpmC.allPinned = false ∧
    bpmC.acquire = .ok 0
      (BPM.evictMut { bpmC with replacer := bpmC.replacer.removeF 0 } 0).1
      (BPM.evictMut { bpmC with replacer := bpmC.replacer.removeF 0 } 0).2 := by
  obtain ⟨f, rep, hev, -, -, hacq⟩ := C10_theorem reach_bpmC rfl rfl
  have h2 : some (f, rep) = some (0, bpmC.replacer.removeF 0) :=
    hev.symm.trans rfl
  have h3 := Option.some.inj h2
  rw [Prod.mk.injEq] at h3
  obtain ⟨rfl, rfl⟩ := h3
  exact ⟨rfl, rfl, hacq⟩

/-- C4 counterexample: in the reachable two-frame state `bpmB2` (fetch of
the never-allocated page id 0, then `NewPgImp`, which allocates id 0
again), frames 0 and 1 both hold `page_id_ = 0`, and the resident frame 0
does not map back: the directory maps 0 to frame 1. -/
theorem C4_counterexample : Reach 2 1 2 bpmB2 ∧
    (bpmB2.pages.getD 0 default).pageId = some 0 ∧
    (bpmB2.pages.getD 1 default).pageId = some 0 ∧
    bpmB2.pageTable.find 0 = some 1 ∧ bpmB2.pageTable.find 0 ≠ some 0 :=
  ⟨reach_bpmB2, rfl, rfl, rfl, by decide⟩

/-- C4 (amended): in every reachable state the directory is injective (no
two distinct page ids map to one frame); and when `FetchPgImp` is only
called with identifiers already handed out by `AllocatePage`, every
resident frame's `page_id_` appears in exactly one directory entry, which
maps back to that frame. -/
theorem C4_theorem {ps k bs : Nat} {s : BPM} :
    (Reach ps k bs s → ∀ p q f, s.pageTable.find p = some f →
      s.pageTable.find q = some f → p = q) ∧
    (ReachSafe ps k bs s → ∀ f, f < ps → ∀ p,
      (s.pages.getD f default).pageId = some p →
      s.pageTable.find p = some f ∧ ∀ q, s.pageTable.find q = some f → q = p) := by
  constructor
  · intro hre
    exact (reach_inv hre).hinj
  · intro hre f hf p hpg
    have I := reachSafe_invS hre
    have hr := I.hres f hf p hpg
    exact ⟨hr, fun q hq => I.hinj q p f hq hr⟩

/-- C4 witness: in the one-frame state `bpmA`, reached without fetching
unallocated ids, resident frame 0 holds page 0 and the directory maps page
0 back to frame 0, uniquely. -/
theorem C4_witness : bpmA.pageTable.find 0 = some 0 ∧ (0 : Nat) = 0 := by
  have h := (@C4_theorem 1 1 2 bpmA).2 reachSafe_bpmA 0 (by decide) 0 rfl
  exact ⟨h.1, h.2 0 h.1⟩

/-- C5: `UnpinPgImp(p, d)` returns false and changes nothing when `p` is
not resident or its pin count is already zero; otherwise it returns true,
decrements the pin count by one, ors the dirty flag with `d`, leaves every
other frame untouched, and marks the frame evictable exactly when the pin
count reaches zero. -/
theorem C5_theorem {ps k bs : Nat} {s : BPM} (hre : Reach ps k bs s)
    (pid : Nat) (d : Bool) :
    (s.pageTable.find pid = none → s.unpinPg pid d = (false, s)) ∧
    (∀ f, s.pageTable.find pid = some f →
      (s.pages.getD f default).pinCount = 0 → s.unpinPg pid d = (false, s)) ∧
    (∀ f, s.pageTable.find pid = some f →
      (s.pages.getD f default).pinCount ≠ 0 →
      (s.unpinPg pid d).1 = true ∧
      ((s.unpinPg pid d).2.pages.getD f default).pinCount =
        (s.pages.getD f default).pinCount - 1 ∧
      ((s.unpinPg pid d).2.pages.getD f default).isDirty =
        ((s.pages.getD f default).isDirty || d) ∧
      ((s.pages.getD f default).pinCount - 1 = 0 →
        (s.unpinPg pid d).2.replacer.evictFlag f = true) ∧
      (∀ g, g ≠ f → (s.unpinPg pid d).2.pages.getD g default =
        s.pages.getD g default)) := by
  have hinv := reach_inv hre
  refine ⟨?_, ?_, ?_⟩
  · intro hnone
    simp only [BPM.unpinPg, hnone]
  · intro f hf hz
    simp only [BPM.unpinPg, hf, hz, if_pos]
  · intro f hf hnz
    obtain ⟨hflt, -, -⟩ := hinv.hfind pid f hf
    have hflen : f < s.pages.length := hinv.hlen ▸ hflt
    have hpgf : (s.pages.set f { s.pages.getD f default with isDirty := if d then true else (s.pages.getD f default).isDirty, pinCount := (s.pages.getD f default).pinCount - 1 }).getD f default = { s.pages.getD f default with isDirty := if d then true else (s.pages.getD f default).isDirty, pinCount := (s.pages.getD f default).pinCount - 1 } :=
      getD_set_self _ _ _ _ hflen
    have hpgo : ∀ g, g ≠ f → (s.pages.set f { s.pages.getD f default with isDirty := if d then true else (s.pages.getD f default).isDirty, pinCount := (s.pages.getD f default).pinCount - 1 }).getD g default = s.pages.getD g default :=
      fun g hg => getD_set_other _ _ _ _ _ (fun e => hg e.symm)
    dsimp only [] at hpgf hpgo
    rcases unpin_cases s pid d with ⟨hn, -⟩ | ⟨f0, hf0, hz0, -⟩ |
      ⟨f0, hf0, hnz0, hone0, heq⟩ | ⟨f0, hf0, hnz0, hone0, heq⟩
    · rw [hn] at hf
      cases hf
    · have he : f0 = f := Option.some.inj (hf0.symm.trans hf)
      subst he
      exact absurd hz0 hnz
    · have he : f0 = f := Option.some.inj (hf0.symm.trans hf)
      subst he
      rw [heq]
      dsimp only []
      refine ⟨rfl, ?_, ?_, ?_, ?_⟩
      · rw [hpgf]
      · rw [hpgf]
        cases d <;> simp
      · intro h0
        exact setEvictable_flag_self true (hinv.hrlen ▸ hflt)
      · intro g hg
        exact hpgo g hg
    · have he : f0 = f := Option.some.inj (hf0.symm.trans hf)
      subst he
      rw [heq]
      dsimp only []
      refine ⟨rfl, ?_, ?_, ?_, ?_⟩
      · rw [hpgf]
      · rw [hpgf]
        cases d <;> simp
      · intro h0
        exact absurd h0 hone0
      · intro g hg
        exact hpgo g hg

/-- C5 witness: unpinning the pinned page 0 of `bpmA` with `d = true`
returns true, drops the pin count from 1 to 0, sets the dirty flag, and
marks frame 0 evictable. -/
theorem C5_witness : (bpmA.unpinPg 0 true).1 = true ∧
    ((bpmA.unpinPg 0 true).2.pages.getD 0 default).pinCount =
      (bpmA.pages.getD 0 default).pinCount - 1 ∧
    ((bpmA.unpinPg 0 true).2.pages.getD 0 default).isDirty =
      ((bpmA.pages.getD 0 default).isDirty || true) ∧
    (bpmA.unpinPg 0 true).2.replacer.evictFlag 0 = true := by
  obtain ⟨h1, h2, h3, h4, -⟩ :=
    (C5_theorem reach_bpmA 0 true).2.2 0 rfl (by decide)
  exact ⟨h1, h2, h3, h4 (by decide)⟩

/-- C6: under the intended protocol, `DeletePgImp(p)` returns true and
changes nothing when `p` is not resident; returns false and changes
nothing when `p` is resident and pinned; otherwise it returns true,
removes `p` from the directory and its frame's history from the tracker,
resets the frame to empty, appends the frame to the free list, and the
identifier `p` is never handed out by any later `NewPgImp`. -/
theorem C6_theorem {ps k bs : Nat} {s : BPM} (hre : ReachSafe ps k bs s)
    (p : Nat) :
    (s.pageTable.find p = none → s.deletePg p = (true, s)) ∧
    (∀ f, s.pageTable.find p = some f →
      (s.pages.getD f default).pinCount > 0 → s.deletePg p = (false, s)) ∧
    (∀ f, s.pageTable.find p = some f →
      (s.pages.getD f default).pinCount = 0 →
      (s.deletePg p).1 = true ∧
      (s.deletePg p).2.pageTable.find p = none ∧
      (s.deletePg p).2.pages.getD f default = default ∧
      (s.deletePg p).2.replacer.frames.getD f default = default ∧
      (s.deletePg p).2.freeList = s.freeList ++ [f] ∧
      (∀ s'', ReachFrom (s.deletePg p).2 s'' → ∀ fuel pr s3 ev,
        s''.newPg fuel = some (some pr, s3, ev) → pr.1 ≠ p)) := by
  have hinv := reachSafe_invS hre
  refine ⟨?_, ?_, ?_⟩
  · intro hnone
    simp only [BPM.deletePg, hnone]
  · intro f hf hpin
    simp only [BPM.deletePg, hf, hpin, if_pos]
  · intro f hf hz
    obtain ⟨hflt, -, -⟩ := hinv.hfind p f hf
    have hflen : f < s.pages.length := hinv.hlen ▸ hflt
    obtain ⟨-, -, hrnone, -, -⟩ := remove_spec hinv.htwf p
    rcases delete_cases s p with ⟨hn, -⟩ | ⟨f0, hf0, hpin0, -⟩ |
      ⟨f0, hf0, -, heq⟩
    · rw [hn] at hf
      cases hf
    · have he : f0 = f := Option.some.inj (hf0.symm.trans hf)
      subst he
      rw [hz] at hpin0
      exact absurd hpin0 (by decide)
    · have he : f0 = f := Option.some.inj (hf0.symm.trans hf)
      subst he
      refine ⟨by rw [heq], by rw [heq]; exact hrnone,
        by rw [heq]; exact getD_set_self _ _ _ _ hflen,
        by rw [heq]; exact removeF_entry (hinv.hrlen ▸ hflt),
        by rw [heq], ?_⟩
      intro s'' hfrom fuel pr s3 ev hnew
      have hplt : p < s.nextPageId := by
        rcases Nat.lt_or_ge p s.nextPageId with h | h
        · exact h
        · have hc := (hinv.halloc p h).1
          rw [hf] at hc
          cases hc
      have h1 : (s.deletePg p).2.nextPageId = s.nextPageId := delete_next s p
      have h2 := reachFrom_next_mono hfrom
      have h3 := newPg_pid hnew
      omega

/-- C6 witness: deleting the unpinned resident page 0 of `bpmC` succeeds,
clears its mapping and frame, frees frame 0, and the `NewPgImp` run right
afterwards hands out id 1, not 0. -/
theorem C6_witness : (bpmC.deletePg 0).1 = true ∧
    (bpmC.deletePg 0).2.pageTable.find 0 = none ∧
    (bpmC.deletePg 0).2.pages.getD 0 default = default ∧
    (bpmC.deletePg 0).2.freeList = bpmC.freeList ++ [0] ∧
    (1 : Nat) ≠ 0 := by
  obtain ⟨h1, h2, h3, -, h5, h6⟩ :=
    (C6_theorem reachSafe_bpmC 0).2.2 0 rfl rfl
  refine ⟨h1, h2, h3, h5, ?_⟩
  have := h6 (bpmC.deletePg 0).2 ReachFrom.refl 9 (1, 0)
    (((bpmC.deletePg 0).2.newPg 9).getD (none, (bpmC.deletePg 0).2, [])).2.1
    (((bpmC.deletePg 0).2.newPg 9).getD (none, (bpmC.deletePg 0).2, [])).2.2
    rfl
  exact this

end CmuLearning
